import Mathlib

/-!
Verification development for the openrelay-tools PUAA tooling.

This file gives a shallow embedding, in Lean 4, of the core of the
repository:

* the PUAA property model and lookup engine (src/tools/pypuaa.py,
  classes PuaaEntry .. PuaaTable),
* the binary PUAA codec (PuaaTable.compile / PuaaTable.decompile),
* the TrueType container writers (writePUAA in pypuaa.py and
  TtfFile.write in ttfhack.py) together with the chksum function,
* the entry constructors used by the UCD text codecs (appendToEntry,
  sortedMap, the runsFromMap / entriesFromRuns / entriesFromMap family),
* the UCD merge parser (src/tools/udparser.py, DataParser.processFile).

Python strings are modelled as lists of Unicode code points
(abbrev PyStr), byte strings as lists of naturals below 256, Python
dictionaries as association lists, and fallible operations (struct.pack
range errors, OverflowError, ValueError, IndexError) as Option / Except
results.  The BitSet class is imported by the source from a module that
is not part of the repository snapshot, so it is modelled from the
specification (a dense bitset over code points) as a Finset Nat.
-/

/-- Python unicode strings, modelled as lists of code points. -/
abbrev PyStr := List Nat

/-- Python byte strings, modelled as lists of naturals (below 256). -/
abbrev Bytes := List Nat

namespace Puaa

/-- Constant 0x50554141, the PUAA table tag. -/
def PUAATAG : Nat := 0x50554141

/-- Constant 0x68656164, the head table tag. -/
def HEAD : Nat := 0x68656164

/-- Constant 0xB1B0AFBA, the sfnt whole-file checksum target. -/
def CHKSUM : Nat := 0xB1B0AFBA

/-- Constant 0x80000000 (INT_MIN in pypuaa.py). -/
def INT_MIN : Nat := 0x80000000

/-- Constant 0xFFFFFFFF (UINT_MAX in pypuaa.py). -/
def UINT_MAX : Nat := 0xFFFFFFFF

/-- Entry type code SINGLE = 1. -/
def SINGLE : Nat := 1
/-- Entry type code MULTIPLE = 2. -/
def MULTIPLE : Nat := 2
/-- Entry type code BOOLEAN = 3. -/
def BOOLEAN : Nat := 3
/-- Entry type code DECIMAL = 4. -/
def DECIMAL : Nat := 4
/-- Entry type code HEXADECIMAL = 5. -/
def HEXADECIMAL : Nat := 5
/-- Entry type code HEXMULTIPLE = 6. -/
def HEXMULTIPLE : Nat := 6
/-- Entry type code HEXSEQUENCE = 7. -/
def HEXSEQUENCE : Nat := 7
/-- Entry type code CASEMAPPING = 8. -/
def CASEMAPPING : Nat := 8
/-- Entry type code NAMEALIAS = 9. -/
def NAMEALIAS : Nat := 9

/-- Rendering of one nibble as an uppercase hexadecimal digit code point. -/
def hexDigit (n : Nat) : Nat :=
  if n < 10 then 0x30 + n else 0x41 + (n - 10)

/-- Hex digits of a natural number, most significant first (no padding);
    0 renders as a single digit 0.  Helper for the percent-04X format. -/
def hexDigits (v : Nat) : List Nat :=
  (Nat.toDigits 16 v).map fun c => hexDigit (if c.toNat ≥ 0x61 then c.toNat - 0x61 + 10 else if c.toNat ≥ 0x41 then c.toNat - 0x41 + 10 else c.toNat - 0x30)

/-- Python percent-04X formatting: uppercase hex, zero padded to width 4. -/
def hex4 (v : Nat) : PyStr :=
  let d := hexDigits v
  List.replicate (4 - d.length) 0x30 ++ d

/-- Python percent-d formatting of a signed integer. -/
def decRepr (v : Int) : PyStr :=
  let ds := (Nat.toDigits 10 v.natAbs).map Char.toNat
  if v < 0 then 0x2D :: ds else ds

/-- Python " ".join rendering of a list of strings. -/
def joinSpace : List PyStr → PyStr
  | [] => []
  | [s] => s
  | s :: rest => s ++ 0x20 :: joinSpace rest

/-- Rendering of None by the Python percent-s format specifier. -/
def noneRepr : PyStr := [0x4E, 0x6F, 0x6E, 0x65]

/-- Rendering of an optional string by percent-s (None renders as "None"). -/
def fmtOptStr (s : Option PyStr) : PyStr := s.getD noneRepr

/-- PuaaEntry: the nine concrete entry classes of pypuaa.py as a tagged
    variant.  String-valued fields are optional because the binary
    decompiler can produce None (getStr of a zero reference). -/
inductive PuaaEntry : Type
  | single (firstCodePoint lastCodePoint : Nat) (value : Option PyStr)
  | multiple (firstCodePoint lastCodePoint : Nat) (values : List (Option PyStr))
  | boolean (firstCodePoint lastCodePoint : Nat) (value : Bool)
  | decimal (firstCodePoint lastCodePoint : Nat) (value : Int)
  | hexadecimal (firstCodePoint lastCodePoint : Nat) (value : Nat)
  | hexMultiple (firstCodePoint lastCodePoint : Nat) (values : List Nat)
  | hexSequence (firstCodePoint lastCodePoint : Nat) (value : List Nat)
  | caseMapping (firstCodePoint lastCodePoint : Nat) (mapping : List Nat) (condition : Option PyStr)
  | nameAlias (firstCodePoint lastCodePoint : Nat) (aliasValue aliasType : Option PyStr)
  deriving Repr, DecidableEq

namespace PuaaEntry

/-- Accessor for the firstCodePoint field shared by all entry classes. -/
def firstCodePoint : PuaaEntry → Nat
  | single f _ _ => f
  | multiple f _ _ => f
  | boolean f _ _ => f
  | decimal f _ _ => f
  | hexadecimal f _ _ => f
  | hexMultiple f _ _ => f
  | hexSequence f _ _ => f
  | caseMapping f _ _ _ => f
  | nameAlias f _ _ _ => f

/-- Accessor for the lastCodePoint field shared by all entry classes. -/
def lastCodePoint : PuaaEntry → Nat
  | single _ l _ => l
  | multiple _ l _ => l
  | boolean _ l _ => l
  | decimal _ l _ => l
  | hexadecimal _ l _ => l
  | hexMultiple _ l _ => l
  | hexSequence _ l _ => l
  | caseMapping _ l _ _ => l
  | nameAlias _ l _ _ => l

/-- PuaaEntry.contains: firstCodePoint <= cp <= lastCodePoint. -/
def contains (e : PuaaEntry) (cp : Nat) : Bool :=
  e.firstCodePoint ≤ cp && cp ≤ e.lastCodePoint

/-- PuaaEntry.propertyValue of each entry class: the canonical string
    form of the typed value at a code point.  Out-of-range indexing of a
    Multiple or HexMultiple values list (an IndexError in Python) is
    modelled as None. -/
def propertyValue : PuaaEntry → Nat → Option PyStr
  | single _ _ v, _ => v
  | multiple f _ vs, cp => (vs.get? (cp - f)).getD none
  | boolean _ _ v, _ => some (if v then [0x59] else [0x4E])
  | decimal _ _ v, _ => some (decRepr v)
  | hexadecimal _ _ v, _ => some (hex4 v)
  | hexMultiple f _ vs, cp => (vs.get? (cp - f)).map hex4
  | hexSequence _ _ vs, _ => some (joinSpace (vs.map hex4))
  | caseMapping _ _ m c, _ =>
      let v := joinSpace (m.map hex4)
      match c with
      | some c => if c.isEmpty then some v else some (v ++ [0x3B, 0x20] ++ c)
      | none => some v
  | nameAlias _ _ a t, _ => some (fmtOptStr a ++ [0x3B] ++ fmtOptStr t)

end PuaaEntry

/-- PuaaSubtable: a property name together with its ordered entries. -/
structure PuaaSubtable : Type where
  propertyName : Option PyStr
  entries : List PuaaEntry
  deriving Repr, DecidableEq

/-- Accumulation step of PuaaSubtable.propertyValue: an entry containing
    the code point concatenates its non-None property value. -/
def pvStep (cp : Nat) (acc : Option PyStr) (e : PuaaEntry) : Option PyStr :=
  if e.contains cp then
    match e.propertyValue cp with
    | none => acc
    | some v =>
      match acc with
      | none => some v
      | some a => some (a ++ v)
  else acc

/-- PuaaSubtable.propertyValue: fold pvStep over the entries starting
    from None. -/
def PuaaSubtable.propertyValue (st : PuaaSubtable) (cp : Nat) : Option PyStr :=
  st.entries.foldl (pvStep cp) none

/-- BitSet, modelled from the spec: the source imports BitSet from a
    module that is not in the repository snapshot; the spec describes it
    as a dense boolean array over code points.  It is modelled as a
    Finset Nat; set and setAll add points, get and getAny query them. -/
abbrev BitSet := Finset Nat

/-- BitSet.getAny over a closed range, modelled from the spec. -/
def BitSet.getAny (b : BitSet) (first last : Nat) : Bool :=
  (b ∩ Finset.Icc first last).Nonempty

/-- BitSet.setAll over a closed range, modelled from the spec. -/
def BitSet.setAll (b : BitSet) (first last : Nat) : BitSet :=
  b ∪ Finset.Icc first last

/-- BitSet.get of a single point, modelled from the spec. -/
def BitSet.get (b : BitSet) (cp : Nat) : Bool := cp ∈ b

/-- BitSet.set of a single point, modelled from the spec. -/
def BitSet.set (b : BitSet) (cp : Nat) : BitSet := insert cp b

/-- Loop body of PuaaSubtable.isSortable over the entry list, with the
    accumulated code-point bitset. -/
def isSortableGo (bits : BitSet) : List PuaaEntry → Bool
  | [] => true
  | e :: rest =>
    if bits.getAny e.firstCodePoint e.lastCodePoint then false
    else isSortableGo (bits.setAll e.firstCodePoint e.lastCodePoint) rest

/-- PuaaSubtable.isSortable: no entry range intersects the union of the
    ranges seen before it. -/
def PuaaSubtable.isSortable (st : PuaaSubtable) : Bool :=
  isSortableGo ∅ st.entries

/-- Comparison used by PuaaSubtable.sort: the Python key tuple
    (firstCodePoint, lastCodePoint) under lexicographic order. -/
def entryKeyLE (a b : PuaaEntry) : Bool :=
  a.firstCodePoint < b.firstCodePoint ||
    (a.firstCodePoint == b.firstCodePoint && a.lastCodePoint ≤ b.lastCodePoint)

/-- PuaaSubtable.sort: a stable sort by (firstCodePoint, lastCodePoint),
    applied only when the subtable is sortable.  Python list.sort is a
    stable sort; the output of a stable sort under a total preorder is
    unique, and List.insertionSort under the non-strict key order is
    such a stable sort. -/
def PuaaSubtable.sort (st : PuaaSubtable) : PuaaSubtable :=
  if st.isSortable then
    ⟨st.propertyName, st.entries.insertionSort fun a b => entryKeyLE a b = true⟩
  else st

/-- Lexicographic less-or-equal on code-point lists, the order Python
    uses to compare strings. -/
def pyStrLE : PyStr → PyStr → Bool
  | [], _ => true
  | _ :: _, [] => false
  | a :: s, b :: t => if a < b then true else if b < a then false else pyStrLE s t

/-- Ordering of optional property names used by PuaaTable.sort.  Python
    raises when comparing None against a string; the model totalises the
    order by placing None first (no claim depends on tables that mix
    None and string property names). -/
def optNameLE : Option PyStr → Option PyStr → Bool
  | none, _ => true
  | some _, none => false
  | some a, some b => pyStrLE a b

/-- PuaaTable: the ordered list of subtables. -/
structure PuaaTable : Type where
  subtables : List PuaaSubtable
  deriving Repr, DecidableEq

/-- Loop of PuaaTable.propertyValue over the subtable list: the first
    subtable whose propertyName equals the requested name answers the
    lookup, even when its answer is None. -/
def findPV : List PuaaSubtable → PyStr → Nat → Option PyStr
  | [], _, _ => none
  | st :: rest, name, cp =>
    if st.propertyName == some name then st.propertyValue cp else findPV rest name cp

/-- PuaaTable.propertyValue dispatches on exact property-name equality. -/
def PuaaTable.propertyValue (t : PuaaTable) (name : PyStr) (cp : Nat) : Option PyStr :=
  findPV t.subtables name cp

/-- PuaaTable.removeEmpty drops subtables with no entries. -/
def PuaaTable.removeEmpty (t : PuaaTable) : PuaaTable :=
  ⟨t.subtables.filter fun st => !st.entries.isEmpty⟩

/-- PuaaTable.sort: stable sort of the subtables by property name, then
    the per-subtable entry sort. -/
def PuaaTable.sort (t : PuaaTable) : PuaaTable :=
  ⟨(t.subtables.insertionSort fun a b => optNameLE a.propertyName b.propertyName = true).map
    PuaaSubtable.sort⟩

end Puaa

namespace Puaa

/-- Entry values that a lookup at a code point concatenates: the
    canonical string forms of the entries that contain the code point
    and yield a non-None value, in entry order. -/
def matchingValues (es : List PuaaEntry) (cp : Nat) : List PyStr :=
  es.filterMap fun e => if e.contains cp then e.propertyValue cp else none

theorem foldl_pvStep_some (cp : Nat) (es : List PuaaEntry) (a : PyStr) :
    es.foldl (pvStep cp) (some a) = some (a ++ (matchingValues es cp).flatten) := by
  induction es generalizing a with
  | nil => simp [matchingValues]
  | cons e es ih =>
    simp only [List.foldl_cons, matchingValues, List.filterMap_cons]
    by_cases hc : e.contains cp
    · cases hv : e.propertyValue cp with
      | none => simp [pvStep, hc, hv, ih, matchingValues]
      | some v => simp [pvStep, hc, hv, ih, matchingValues]
    · simp [pvStep, hc, ih, matchingValues]

theorem foldl_pvStep_none (cp : Nat) (es : List PuaaEntry) :
    es.foldl (pvStep cp) none =
      if (matchingValues es cp).isEmpty then none
      else some (matchingValues es cp).flatten := by
  induction es with
  | nil => simp [matchingValues]
  | cons e es ih =>
    simp only [List.foldl_cons, matchingValues, List.filterMap_cons]
    by_cases hc : e.contains cp
    · cases hv : e.propertyValue cp with
      | none => simp [pvStep, hc, hv, ih, matchingValues]
      | some v => simp [pvStep, hc, hv, foldl_pvStep_some, matchingValues]
    · simp [pvStep, hc, ih, matchingValues]

theorem findPV_eq_find (l : List PuaaSubtable) (name : PyStr) (cp : Nat) :
    findPV l name cp =
      (l.find? fun st => st.propertyName == some name).bind
        fun st => st.propertyValue cp := by
  induction l with
  | nil => rfl
  | cons st rest ih =>
    by_cases h : st.propertyName == some name
    · simp [findPV, h, List.find?_cons]
    · simp only [findPV, h, if_neg, List.find?_cons] at *
      simpa [h] using ih

/-- Claim C4: a subtable lookup returns None exactly when no entry whose
    range contains the code point yields a non-None value, and otherwise
    the concatenation, in entry order, of the canonical string forms of
    all containing entries; a table lookup answers from the first
    subtable whose propertyName equals the requested name exactly
    (code-point-list equality is case-sensitive), or None when there is
    no such subtable. -/
theorem subtable_and_table_propertyValue_spec :
    (∀ (st : PuaaSubtable) (cp : Nat),
      st.propertyValue cp =
        if (matchingValues st.entries cp).isEmpty then none
        else some (matchingValues st.entries cp).flatten) ∧
    (∀ (t : PuaaTable) (name : PyStr) (cp : Nat),
      t.propertyValue name cp =
        (t.subtables.find? fun st => st.propertyName == some name).bind
          fun st => st.propertyValue cp) := by
  constructor
  · intro st cp
    exact foldl_pvStep_none cp st.entries
  · intro t name cp
    exact findPV_eq_find t.subtables name cp

end Puaa

namespace Puaa

/-- Disjointness of the code-point ranges of two entries. -/
def rangesDisjoint (a b : PuaaEntry) : Prop :=
  ∀ cp : Nat, ¬(a.contains cp = true ∧ b.contains cp = true)

theorem contains_iff_mem_Icc (e : PuaaEntry) (cp : Nat) :
    e.contains cp = true ↔ cp ∈ Finset.Icc e.firstCodePoint e.lastCodePoint := by
  simp [PuaaEntry.contains, Finset.mem_Icc]

theorem rangesDisjoint_iff_inter_empty (a b : PuaaEntry) :
    rangesDisjoint a b ↔
      Finset.Icc a.firstCodePoint a.lastCodePoint ∩
        Finset.Icc b.firstCodePoint b.lastCodePoint = ∅ := by
  constructor
  · intro h
    ext cp
    simp only [Finset.mem_inter, Finset.not_mem_empty, iff_false]
    intro ⟨ha, hb⟩
    exact h cp ⟨(contains_iff_mem_Icc a cp).2 ha, (contains_iff_mem_Icc b cp).2 hb⟩
  · intro h cp ⟨ha, hb⟩
    have : cp ∈ Finset.Icc a.firstCodePoint a.lastCodePoint ∩
        Finset.Icc b.firstCodePoint b.lastCodePoint :=
      Finset.mem_inter.2 ⟨(contains_iff_mem_Icc a cp).1 ha, (contains_iff_mem_Icc b cp).1 hb⟩
    simp [h] at this

theorem isSortableGo_iff (bits : BitSet) (es : List PuaaEntry) :
    isSortableGo bits es = true ↔
      es.Pairwise rangesDisjoint ∧
      ∀ e ∈ es, bits ∩ Finset.Icc e.firstCodePoint e.lastCodePoint = ∅ := by
  induction es generalizing bits with
  | nil => simp [isSortableGo]
  | cons e es ih =>
    by_cases h : bits.getAny e.firstCodePoint e.lastCodePoint
    · have hne : bits ∩ Finset.Icc e.firstCodePoint e.lastCodePoint ≠ ∅ := by
        simpa [BitSet.getAny, Finset.nonempty_iff_ne_empty] using h
      simp only [isSortableGo, h, if_true]
      constructor
      · intro hfalse; cases hfalse
      · intro ⟨_, hall⟩
        exact absurd (hall e (by simp)) hne
    · have hemp : bits ∩ Finset.Icc e.firstCodePoint e.lastCodePoint = ∅ := by
        by_contra hne
        exact h (by simpa [BitSet.getAny, Finset.nonempty_iff_ne_empty] using hne)
      simp only [isSortableGo, h, Bool.false_eq_true, if_false]
      rw [ih]
      constructor
      · intro ⟨hpw, hall⟩
        refine ⟨List.pairwise_cons.2 ⟨?_, hpw⟩, ?_⟩
        · intro b hb
          have := hall b hb
          rw [BitSet.setAll, Finset.union_inter_distrib_right] at this
          have h2 := (Finset.union_eq_empty.1 this).2
          exact (rangesDisjoint_iff_inter_empty e b).2 h2
        · intro b hb
          rcases List.mem_cons.1 hb with rfl | hb
          · exact hemp
          · have := hall b hb
            rw [BitSet.setAll, Finset.union_inter_distrib_right] at this
            exact (Finset.union_eq_empty.1 this).1
      · intro ⟨hpw, hall⟩
        rcases List.pairwise_cons.1 hpw with ⟨hdisj, hpw'⟩
        refine ⟨hpw', ?_⟩
        intro b hb
        rw [BitSet.setAll, Finset.union_inter_distrib_right, Finset.union_eq_empty]
        exact ⟨hall b (by simp [hb]), (rangesDisjoint_iff_inter_empty e b).1 (hdisj b hb)⟩

theorem isSortable_iff_pairwise (st : PuaaSubtable) :
    st.isSortable = true ↔ st.entries.Pairwise rangesDisjoint := by
  rw [PuaaSubtable.isSortable, isSortableGo_iff]
  simp

theorem entryKeyLE_trans (a b c : PuaaEntry) :
    entryKeyLE a b = true → entryKeyLE b c = true → entryKeyLE a c = true := by
  simp only [entryKeyLE, Bool.or_eq_true, Bool.and_eq_true, decide_eq_true_eq, beq_iff_eq]
  omega

theorem entryKeyLE_total (a b : PuaaEntry) :
    entryKeyLE a b || entryKeyLE b a := by
  simp only [entryKeyLE, Bool.or_eq_true, Bool.and_eq_true, decide_eq_true_eq, beq_iff_eq]
  omega

theorem pyStrLE_trans : ∀ a b c : PyStr,
    pyStrLE a b = true → pyStrLE b c = true → pyStrLE a c = true
  | [], _, _, _, _ => rfl
  | _ :: _, [], _, h, _ => by cases h
  | _ :: _, _ :: _, [], _, h => by cases h
  | a :: s, b :: t, c :: u, h1, h2 => by
    simp only [pyStrLE] at h1 h2 ⊢
    split at h1
    · split at h2
      · simp [show a < c by omega]
      · split at h2
        · cases h2
        · have : b = c := by omega
          simp [show a < c by omega]
    · split at h1
      · cases h1
      · have hab : a = b := by omega
        subst hab
        split at h2
        · simp [*]
        · split at h2
          · cases h2
          · have : a = c := by omega
            subst this
            simp only [lt_irrefl, if_false]
            exact pyStrLE_trans s t u h1 h2

theorem pyStrLE_total : ∀ a b : PyStr, pyStrLE a b || pyStrLE b a
  | [], _ => by simp [pyStrLE]
  | _ :: _, [] => by simp [pyStrLE]
  | a :: s, b :: t => by
    simp only [pyStrLE]
    rcases Nat.lt_trichotomy a b with h | h | h
    · simp [h]
    · subst h
      simpa [lt_irrefl] using pyStrLE_total s t
    · simp [h, Nat.not_lt_of_lt h]

theorem optNameLE_trans (a b c : Option PyStr) :
    optNameLE a b = true → optNameLE b c = true → optNameLE a c = true := by
  cases a <;> cases b <;> cases c <;> simp [optNameLE] <;> exact pyStrLE_trans _ _ _

theorem optNameLE_total (a b : Option PyStr) :
    optNameLE a b || optNameLE b a := by
  cases a <;> cases b <;> simp [optNameLE] <;> simpa using pyStrLE_total _ _

theorem sort_preserves_name (st : PuaaSubtable) :
    (st.sort).propertyName = st.propertyName := by
  rw [PuaaSubtable.sort]
  split <;> rfl

/-- Claim C5: a subtable is reordered by (firstCodePoint, lastCodePoint)
    exactly when its entries have pairwise disjoint code-point ranges
    (the isSortable test); a subtable with an overlapping pair keeps its
    entry order exactly as inserted, while the table-level sort orders
    the subtables by property name. -/
theorem sort_iff_sortable_spec :
    (∀ st : PuaaSubtable, st.isSortable = true ↔ st.entries.Pairwise rangesDisjoint) ∧
    (∀ st : PuaaSubtable, st.isSortable = false →
      st.sort = st) ∧
    (∀ st : PuaaSubtable, st.isSortable = true →
      (st.sort).propertyName = st.propertyName ∧
      (st.sort).entries.Perm st.entries ∧
      (st.sort).entries.Pairwise fun a b => entryKeyLE a b = true) ∧
    (∀ t : PuaaTable,
      ((t.sort).subtables.map PuaaSubtable.propertyName).Pairwise
        (fun a b => optNameLE a b = true) ∧
      (t.sort).subtables.Perm (t.subtables.map PuaaSubtable.sort)) := by
  haveI : IsTotal PuaaEntry fun a b => entryKeyLE a b = true :=
    ⟨fun a b => by simpa [Bool.or_eq_true] using entryKeyLE_total a b⟩
  haveI : IsTrans PuaaEntry fun a b => entryKeyLE a b = true :=
    ⟨fun a b c => entryKeyLE_trans a b c⟩
  haveI : IsTotal PuaaSubtable fun a b => optNameLE a.propertyName b.propertyName = true :=
    ⟨fun a b => by simpa [Bool.or_eq_true] using optNameLE_total a.propertyName b.propertyName⟩
  haveI : IsTrans PuaaSubtable fun a b => optNameLE a.propertyName b.propertyName = true :=
    ⟨fun a b c => optNameLE_trans a.propertyName b.propertyName c.propertyName⟩
  refine ⟨isSortable_iff_pairwise, ?_, ?_, ?_⟩
  · intro st h
    simp [PuaaSubtable.sort, h]
  · intro st h
    refine ⟨by simp [PuaaSubtable.sort, h], by
      simpa [PuaaSubtable.sort, h] using List.perm_insertionSort
        (fun a b => entryKeyLE a b = true) st.entries, ?_⟩
    simpa [PuaaSubtable.sort, h] using
      List.sorted_insertionSort (fun a b => entryKeyLE a b = true) st.entries
  · intro t
    constructor
    · rw [PuaaTable.sort]
      have hs := List.sorted_insertionSort
        (fun a b => optNameLE a.propertyName b.propertyName = true) t.subtables
      rw [List.pairwise_map, List.pairwise_map]
      refine hs.imp ?_
      intro a b h
      simpa [sort_preserves_name] using h
    · rw [PuaaTable.sort]
      exact (List.perm_insertionSort _ t.subtables).map PuaaSubtable.sort

end Puaa

namespace Puaa

/-- Concrete subtable with overlapping entry ranges. -/
def stOverlapW : PuaaSubtable :=
  ⟨some [0x41], [.single 0 5 (some [0x41]), .single 3 8 (some [0x42])]⟩

/-- Concrete subtable with disjoint, unsorted entry ranges. -/
def stDisjointW : PuaaSubtable :=
  ⟨some [0x41], [.single 5 6 none, .single 0 1 none]⟩

/-- Witness: the sorting dichotomy evaluated at concrete subtables. -/
theorem sort_iff_sortable_spec_witness :
    stOverlapW.sort = stOverlapW ∧
    ((stDisjointW.sort).propertyName = stDisjointW.propertyName ∧
      (stDisjointW.sort).entries.Perm stDisjointW.entries ∧
      (stDisjointW.sort).entries.Pairwise fun a b => entryKeyLE a b = true) :=
  ⟨sort_iff_sortable_spec.2.1 stOverlapW (by decide),
    sort_iff_sortable_spec.2.2.1 stDisjointW (by decide)⟩

end Puaa

namespace Puaa

/-- UTF-8 encoding of one code point (the branches of a standard
    encoder; Python encode of a scalar value below 0x110000). -/
def utf8EncodeChar (cp : Nat) : Bytes :=
  if cp < 0x80 then [cp]
  else if cp < 0x800 then
    [0xC0 ||| (cp >>> 6), 0x80 ||| (cp &&& 0x3F)]
  else if cp < 0x10000 then
    [0xE0 ||| (cp >>> 12), 0x80 ||| ((cp >>> 6) &&& 0x3F), 0x80 ||| (cp &&& 0x3F)]
  else
    [0xF0 ||| (cp >>> 18), 0x80 ||| ((cp >>> 12) &&& 0x3F),
      0x80 ||| ((cp >>> 6) &&& 0x3F), 0x80 ||| (cp &&& 0x3F)]

/-- UTF-8 encoding of a string. -/
def utf8Encode (s : PyStr) : Bytes := s.flatMap utf8EncodeChar

/-- Validating UTF-8 decoding, as Python bytes.decode, rejecting
    truncated sequences, stray continuation bytes, overlong forms and
    surrogates. -/
def utf8Decode : Bytes → Option PyStr
  | [] => some []
  | b0 :: rest =>
    if b0 < 0x80 then (utf8Decode rest).map (b0 :: ·)
    else if 0xC2 ≤ b0 ∧ b0 ≤ 0xDF then
      match rest with
      | b1 :: rest2 =>
        if 0x80 ≤ b1 ∧ b1 ≤ 0xBF then
          (utf8Decode rest2).map ((((b0 &&& 0x1F) <<< 6) ||| (b1 &&& 0x3F)) :: ·)
        else none
      | _ => none
    else if 0xE0 ≤ b0 ∧ b0 ≤ 0xEF then
      match rest with
      | b1 :: b2 :: rest3 =>
        if (0x80 ≤ b1 ∧ b1 ≤ 0xBF) ∧ (0x80 ≤ b2 ∧ b2 ≤ 0xBF) ∧
            (b0 ≠ 0xE0 ∨ 0xA0 ≤ b1) ∧ (b0 ≠ 0xED ∨ b1 ≤ 0x9F) then
          (utf8Decode rest3).map
            ((((b0 &&& 0x0F) <<< 12) ||| ((b1 &&& 0x3F) <<< 6) ||| (b2 &&& 0x3F)) :: ·)
        else none
      | _ => none
    else if 0xF0 ≤ b0 ∧ b0 ≤ 0xF4 then
      match rest with
      | b1 :: b2 :: b3 :: rest4 =>
        if (0x80 ≤ b1 ∧ b1 ≤ 0xBF) ∧ (0x80 ≤ b2 ∧ b2 ≤ 0xBF) ∧ (0x80 ≤ b3 ∧ b3 ≤ 0xBF) ∧
            (b0 ≠ 0xF0 ∨ 0x90 ≤ b1) ∧ (b0 ≠ 0xF4 ∨ b1 ≤ 0x8F) then
          (utf8Decode rest4).map
            ((((b0 &&& 0x07) <<< 18) ||| ((b1 &&& 0x3F) <<< 12) |||
              ((b2 &&& 0x3F) <<< 6) ||| (b3 &&& 0x3F)) :: ·)
        else none
      | _ => none
    else none

/-- One byte contribution to the inline string encoding: byte i of the
    UTF-8 data, masked to 7 bits, shifted into the big-endian field. -/
def minifyByte (d : Bytes) (i : Nat) : Nat :=
  (d.getD i 0 &&& 0x7F) <<< ((3 - i) * 8)

/-- minify3 of pypuaa.py: None when the UTF-8 data is longer than 4
    bytes or any byte has the top bit set; otherwise the tagged inline
    value with INT_MIN set and the present bytes packed big-endian.
    (The source checks bytes in the order 3,2,1,0 and ORs the fields
    onto INT_MIN; OR is commutative, so the value is the same.) -/
def minify3 (d : Bytes) : Option Nat :=
  if d.length > 4 then none
  else if d.any fun b => b &&& 0x80 ≠ 0 then none
  else some (INT_MIN ||| minifyByte d 0 ||| minifyByte d 1 ||| minifyByte d 2 ||| minifyByte d 3)

/-- Inline branch of getStr: extract the four 7-bit fields and keep the
    nonzero ones, each becoming one character. -/
def getStrInline (offset : Nat) : PyStr :=
  (((List.range 4).map fun i => (offset >>> ((3 - i) * 8)) &&& 0x7F).filter (· ≠ 0))

/-- Big-endian one-byte pack; range errors of struct.pack become None. -/
def packB (v : Nat) : Option Bytes :=
  if v < 0x100 then some [v] else none

/-- Big-endian two-byte pack. -/
def packH (v : Nat) : Option Bytes :=
  if v < 0x10000 then some [v >>> 8, v &&& 0xFF] else none

/-- Big-endian four-byte pack. -/
def packI (v : Nat) : Option Bytes :=
  if v < 0x100000000 then
    some [v >>> 24, (v >>> 16) &&& 0xFF, (v >>> 8) &&& 0xFF, v &&& 0xFF]
  else none

/-- Big-endian two-byte read; a short slice (struct.error) becomes None. -/
def readU16 (data : Bytes) (o : Nat) : Option Nat := do
  let a ← data.get? o
  let b ← data.get? (o + 1)
  return (a <<< 8) ||| b

/-- Big-endian four-byte read. -/
def readU32 (data : Bytes) (o : Nat) : Option Nat := do
  let a ← data.get? o
  let b ← data.get? (o + 1)
  let c ← data.get? (o + 2)
  let d ← data.get? (o + 3)
  return (a <<< 24) ||| (b <<< 16) ||| (c <<< 8) ||| d

/-- checkSigned32 of pypuaa.py; OverflowError becomes None. -/
def checkSigned32 (v : Int) : Option Int :=
  if -(INT_MIN : Int) ≤ v ∧ v < (INT_MIN : Int) then some v else none

/-- checkUnsigned32 of pypuaa.py; OverflowError becomes None. -/
def checkUnsigned32 (v : Nat) : Option Nat :=
  if v ≤ UINT_MAX then some v else none

/-- signedToUnsigned32 of pypuaa.py (two's complement). -/
def signedToUnsigned32 (v : Int) : Option Nat :=
  if 0 ≤ v ∧ v < (INT_MIN : Int) then some v.toNat
  else if -(INT_MIN : Int) ≤ v ∧ v < 0 then some (v + INT_MIN + INT_MIN).toNat
  else none

/-- unsignedToSigned32 of pypuaa.py. -/
def unsignedToSigned32 (v : Nat) : Option Int :=
  if v < INT_MIN then some (v : Int)
  else if v ≤ UINT_MAX then some ((v : Int) - INT_MIN - INT_MIN)
  else none

end Puaa

namespace Puaa

/-- Per-entry output of the first compile pass: entry type code, entry
    data word (None for Single until pass two), aux value count, aux
    value words (filled in pass one for hex kinds, pass two for the
    string-bearing kinds). -/
structure CompEnt where
  et : Nat
  ed : Option Nat
  vc : Option Nat
  vd : Option (List Nat)
  deriving Repr, DecidableEq

/-- First compile pass over one entry: the subAppend calls of
    PuaaTable.compile, advancing the byte cursor past the aux array of
    the variable-valued kinds, with OverflowError as None. -/
def phase1Entry (e : PuaaEntry) (p : Nat) : Option (CompEnt × Nat) :=
  match e with
  | .single _ _ _ => some (⟨SINGLE, none, none, none⟩, p)
  | .multiple _ _ vs => some (⟨MULTIPLE, some p, some vs.length, none⟩, p + 2 + vs.length * 4)
  | .boolean _ _ b => some (⟨BOOLEAN, some (if b then UINT_MAX else 0), none, none⟩, p)
  | .decimal _ _ v => (signedToUnsigned32 v).map fun u => (⟨DECIMAL, some u, none, none⟩, p)
  | .hexadecimal _ _ v => (checkUnsigned32 v).map fun u => (⟨HEXADECIMAL, some u, none, none⟩, p)
  | .hexMultiple _ _ vs => some (⟨HEXMULTIPLE, some p, some vs.length, some vs⟩, p + 2 + vs.length * 4)
  | .hexSequence _ _ vs => some (⟨HEXSEQUENCE, some p, some vs.length, some vs⟩, p + 2 + vs.length * 4)
  | .caseMapping _ _ m _ => some (⟨CASEMAPPING, some p, some (m.length + 1), none⟩, p + 2 + (m.length + 1) * 4)
  | .nameAlias _ _ _ _ => some (⟨NAMEALIAS, some p, some 2, none⟩, p + 2 + 2 * 4)

/-- First compile pass over an entry list, threading the byte cursor. -/
def phase1Entries : List PuaaEntry → Nat → Option (List CompEnt × Nat)
  | [], p => some ([], p)
  | e :: rest, p => do
    let (ce, p1) ← phase1Entry e p
    let (ces, p2) ← phase1Entries rest p1
    return (ce :: ces, p2)

/-- First compile pass over the subtable list. -/
def phase1Subtables : List PuaaSubtable → Nat → Option (List (List CompEnt) × Nat)
  | [], p => some ([], p)
  | st :: rest, p => do
    let (ces, p1) ← phase1Entries st.entries p
    let (cess, p2) ← phase1Subtables rest p1
    return (ces :: cess, p2)

/-- Subtable header offsets: each subtable reserves two count bytes plus
    ten bytes per entry. -/
def shoList : List PuaaSubtable → Nat → List Nat × Nat
  | [], p => ([], p)
  | st :: rest, p =>
    let (l, p1) := shoList rest (p + 2 + st.entries.length * 10)
    (p :: l, p1)

/-- State of the string-pool builder: the dedup table (string to pool
    offset, in insertion order), the pooled byte strings, and the byte
    cursor. -/
structure StrState where
  stringTable : List (PyStr × Nat)
  stringData : List Bytes
  p : Nat
  deriving Repr, DecidableEq

/-- strAddr of PuaaTable.compile: None references are 0; a string
    already in the pool reuses its offset; otherwise a short all-ASCII
    string is inlined (unless forceFull), and anything else is appended
    to the pool at the cursor. -/
def strAddr (st : StrState) (s : Option PyStr) (forceFull : Bool) : Nat × StrState :=
  match s with
  | none => (0, st)
  | some s =>
    match st.stringTable.lookup s with
    | some addr => (addr, st)
    | none =>
      let d := utf8Encode s
      match if forceFull then none else minify3 d with
      | some v => (v, st)
      | none =>
        (st.p, ⟨st.stringTable ++ [(s, st.p)], st.stringData ++ [d], st.p + d.length + 1⟩)

/-- strAddr over a list of optional strings, threading the pool state. -/
def strAddrList (st : StrState) : List (Option PyStr) → List Nat × StrState
  | [] => ([], st)
  | s :: rest =>
    let (a, st1) := strAddr st s false
    let (as_, st2) := strAddrList st1 rest
    (a :: as_, st2)

/-- Property-name resolution: strAddr with forceFull for each subtable
    name, threading the pool state. -/
def strAddrNames (st : StrState) : List (Option PyStr) → List Nat × StrState
  | [] => ([], st)
  | s :: rest =>
    let (a, st1) := strAddr st s true
    let (as_, st2) := strAddrNames st1 rest
    (a :: as_, st2)

/-- Second compile pass over one entry: resolve the string references of
    the Single, Multiple, CaseMapping and NameAlias kinds. -/
def phase2Entry (st : StrState) (e : PuaaEntry) (ce : CompEnt) : CompEnt × StrState :=
  match e with
  | .single _ _ v =>
    let (a, st1) := strAddr st v false
    ({ ce with ed := some a }, st1)
  | .multiple _ _ vs =>
    let (as_, st1) := strAddrList st vs
    ({ ce with vd := some as_ }, st1)
  | .caseMapping _ _ m c =>
    let (a, st1) := strAddr st c false
    ({ ce with vd := some (m ++ [a]) }, st1)
  | .nameAlias _ _ a t =>
    let (a1, st1) := strAddr st a false
    let (a2, st2) := strAddr st1 t false
    ({ ce with vd := some [a1, a2] }, st2)
  | _ => (ce, st)

/-- Second compile pass over one subtable (entries zipped with their
    pass-one records). -/
def phase2Entries (st : StrState) : List (PuaaEntry × CompEnt) → List CompEnt × StrState
  | [] => ([], st)
  | (e, ce) :: rest =>
    let (ce1, st1) := phase2Entry st e ce
    let (ces, st2) := phase2Entries st1 rest
    (ce1 :: ces, st2)

/-- Second compile pass over the subtable list. -/
def phase2Subtables (st : StrState) : List (PuaaSubtable × List CompEnt) → List (List CompEnt) × StrState
  | [] => ([], st)
  | (sub, ces) :: rest =>
    let (ces1, st1) := phase2Entries st (sub.entries.zip ces)
    let (cess, st2) := phase2Subtables st1 rest
    (ces1 :: cess, st2)

/-- Emission of one ten-byte entry record (entryStruct of the source). -/
def emitEntry (e : PuaaEntry) (ce : CompEnt) : Option Bytes := do
  let ed ← ce.ed
  let b1 ← packB ce.et
  let b2 ← packB (e.firstCodePoint >>> 16)
  let b3 ← packH (e.firstCodePoint &&& 0xFFFF)
  let b4 ← packH (e.lastCodePoint &&& 0xFFFF)
  let b5 ← packI ed
  return b1 ++ b2 ++ b3 ++ b4 ++ b5

/-- Emission of one subtable header: entry count then entry records. -/
def emitSubtable (sub : PuaaSubtable) (ces : List CompEnt) : Option Bytes := do
  let hdr ← packH sub.entries.length
  let body ← (sub.entries.zip ces).mapM fun pr => emitEntry pr.1 pr.2
  return hdr ++ body.flatten

/-- Emission of one aux array: value count then value words (skipped for
    entries without aux data). -/
def emitAux (ce : CompEnt) : Option Bytes :=
  match ce.vd with
  | none => some []
  | some l => do
    let c ← ce.vc
    let hdr ← packH c
    let vals ← l.mapM packI
    return hdr ++ vals.flatten

/-- Emission of one pool string: one length byte then the UTF-8 data. -/
def emitStrData (d : Bytes) : Option Bytes := do
  let lb ← packB d.length
  return lb ++ d

/-- PuaaTable.compile: drop empty subtables, sort, lay out subtable
    headers, aux arrays and the string pool behind a byte cursor, then
    emit header, directory, subtable headers, aux arrays and pool. -/
def PuaaTable.compile (t : PuaaTable) : Option Bytes := do
  let t1 := t.removeEmpty.sort
  let n := t1.subtables.length
  let (shos, p1) := shoList t1.subtables (4 + n * 8)
  let (cess, p2) ← phase1Subtables t1.subtables p1
  let st0 : StrState := ⟨[], [], p2⟩
  let (pnos, st1) := strAddrNames st0 (t1.subtables.map fun sub => sub.propertyName)
  let (cess2, st2) := phase2Subtables st1 (t1.subtables.zip cess)
  let h1 ← packH 1
  let h2 ← packH n
  let dir ← (pnos.zip shos).mapM fun pr => do
    let a ← packI pr.1
    let b ← packI pr.2
    return a ++ b
  let subs ← (t1.subtables.zip cess2).mapM fun pr => emitSubtable pr.1 pr.2
  let auxs ← cess2.flatten.mapM emitAux
  let strs ← st2.stringData.mapM emitStrData
  return h1 ++ h2 ++ dir.flatten ++ subs.flatten ++ auxs.flatten ++ strs.flatten

/-- getStr of PuaaTable.decompile: a tagged value is an inline string, 0
    is None, and any other value is a pool offset holding a length byte
    and UTF-8 data (a slice that is truncated by the end of the blob, as
    in Python, may still decode). -/
def getStr (data : Bytes) (offset : Nat) : Option (Option PyStr) :=
  if offset &&& INT_MIN ≠ 0 then some (some (getStrInline offset))
  else if offset ≠ 0 then do
    let lb ← data.get? offset
    let s ← utf8Decode ((data.drop (offset + 1)).take lb)
    return some s
  else some none

/-- getInts of PuaaTable.decompile: a two-byte count then that many
    four-byte words. -/
def getInts (data : Bytes) (offset : Nat) : Option (List Nat) := do
  let n ← readU16 data offset
  (List.range n).mapM fun i => readU32 data (offset + 2 + i * 4)

/-- Decompilation of the entry record at index j of the subtable whose
    header is at sho.  Unknown entry type codes produce no entry (the
    source appends nothing); read failures abort. -/
def decompEntry (data : Bytes) (sho : Nat) (j : Nat) : Option (Option PuaaEntry) := do
  let base := sho + 2 + j * 10
  let et ← data.get? base
  let pl ← data.get? (base + 1)
  let f ← readU16 data (base + 2)
  let l ← readU16 data (base + 4)
  let ed ← readU32 data (base + 6)
  let firstCodePoint := (pl <<< 16) ||| f
  let lastCodePoint := (pl <<< 16) ||| l
  if et == SINGLE then do
    let v ← getStr data ed
    return some (.single firstCodePoint lastCodePoint v)
  else if et == MULTIPLE then do
    let ints ← getInts data ed
    let vs ← ints.mapM (getStr data)
    return some (.multiple firstCodePoint lastCodePoint vs)
  else if et == BOOLEAN then
    return some (.boolean firstCodePoint lastCodePoint (ed != 0))
  else if et == DECIMAL then do
    let v ← unsignedToSigned32 ed
    return some (.decimal firstCodePoint lastCodePoint v)
  else if et == HEXADECIMAL then do
    let v ← checkUnsigned32 ed
    return some (.hexadecimal firstCodePoint lastCodePoint v)
  else if et == HEXMULTIPLE then do
    let ints ← getInts data ed
    return some (.hexMultiple firstCodePoint lastCodePoint ints)
  else if et == HEXSEQUENCE then do
    let ints ← getInts data ed
    return some (.hexSequence firstCodePoint lastCodePoint ints)
  else if et == CASEMAPPING then do
    let vals ← getInts data ed
    match vals.getLast? with
    | none => none
    | some lastv => do
      let c ← getStr data lastv
      return some (.caseMapping firstCodePoint lastCodePoint vals.dropLast c)
  else if et == NAMEALIAS then do
    let ints ← getInts data ed
    let vs ← ints.mapM (getStr data)
    let v0 ← vs.get? 0
    let v1 ← vs.get? 1
    return some (.nameAlias firstCodePoint lastCodePoint v0 v1)
  else
    return none

/-- Decompilation of subtable i: directory entry, property name, entry
    count, entries (unknown-type records are skipped). -/
def decompSubtable (data : Bytes) (i : Nat) : Option PuaaSubtable := do
  let pno ← readU32 data (4 + i * 8)
  let sho ← readU32 data (4 + i * 8 + 4)
  let entryCount ← readU16 data sho
  let pn ← getStr data pno
  let es ← (List.range entryCount).mapM (decompEntry data sho)
  return ⟨pn, es.reduceOption⟩

/-- PuaaTable.decompile: version check then the subtables in stored
    order. -/
def PuaaTable.decompile (data : Bytes) : Option PuaaTable := do
  let version ← readU16 data 0
  let n ← readU16 data 2
  if version == 1 then do
    let sts ← (List.range n).mapM (decompSubtable data)
    return ⟨sts⟩
  else none

end Puaa

namespace Puaa

/-- Concrete table with a Single entry whose value contains a NUL
    character between two ASCII letters. -/
def nulTable : PuaaTable :=
  ⟨[⟨some [0x41], [.single 0 0 (some [0x61, 0x00, 0x62])]⟩]⟩

/-- Compiled blob of nulTable: the entry data word 0xE1006200 inlines
    the three bytes 0x61 0x00 0x62. -/
def nulBlob : Bytes :=
  [0, 1, 0, 1, 0, 0, 0, 24, 0, 0, 0, 12, 0, 1, 1, 0, 0, 0, 0, 0,
    0xE1, 0x00, 0x62, 0x00, 1, 0x41]

/-- Claim C1 (failing input): compiling nulTable yields nulBlob, but
    decompiling nulBlob and compiling again does not reproduce it:
    minify3 accepts the 0x00 byte into the inline encoding, getStr drops
    it when decoding (a zero field means no more bytes), so the
    recompiled blob inlines the two-byte string instead and differs in
    the entry data word: the round-trip law fails on this
    compiler-produced blob. -/
theorem compile_decompile_roundtrip_fails_on_nul :
    nulTable.compile = some nulBlob ∧
      (PuaaTable.decompile nulBlob).bind PuaaTable.compile ≠ some nulBlob := by
  decide

end Puaa

namespace Puaa

theorem or_fields_eq_add (a b c d : Nat) (ha : a < 0x80) (hb : b < 0x80) (hc : c < 0x80) (hd : d < 0x80) :
    INT_MIN ||| (a <<< 24) ||| (b <<< 16) ||| (c <<< 8) ||| d
      = 0x80000000 + a * 0x1000000 + b * 0x10000 + c * 0x100 + d := by
  have e1 : INT_MIN ||| (a <<< 24) = 0x80000000 + a * 0x1000000 := by
    rw [Nat.shiftLeft_eq, INT_MIN, show (2:Nat)^24 = 0x1000000 by norm_num]
    have h := Nat.mul_add_lt_is_or (i := 31) (b := a * 0x1000000) (a := 1) (by omega)
    simpa [Nat.mul_comm] using h.symm
  have e2 : (0x80000000 + a * 0x1000000) ||| (b <<< 16)
      = 0x80000000 + a * 0x1000000 + b * 0x10000 := by
    rw [Nat.shiftLeft_eq, show (2:Nat)^16 = 0x10000 by norm_num]
    have h := Nat.mul_add_lt_is_or (i := 24) (b := b * 0x10000) (a := 0x80 + a) (by omega)
    norm_num at h
    rw [show (16777216:Nat) * (128 + a) = 0x80000000 + a * 0x1000000 by ring] at h
    exact h.symm
  have e3 : (0x80000000 + a * 0x1000000 + b * 0x10000) ||| (c <<< 8)
      = 0x80000000 + a * 0x1000000 + b * 0x10000 + c * 0x100 := by
    rw [Nat.shiftLeft_eq, show (2:Nat)^8 = 0x100 by norm_num]
    have h := Nat.mul_add_lt_is_or (i := 16) (b := c * 0x100) (a := 0x8000 + a * 0x100 + b) (by omega)
    norm_num at h
    rw [show (65536:Nat) * (32768 + a * 256 + b)
      = 0x80000000 + a * 0x1000000 + b * 0x10000 by ring] at h
    exact h.symm
  have e4 : (0x80000000 + a * 0x1000000 + b * 0x10000 + c * 0x100) ||| d
      = 0x80000000 + a * 0x1000000 + b * 0x10000 + c * 0x100 + d := by
    have h := Nat.mul_add_lt_is_or (i := 8) (b := d)
      (a := 0x800000 + a * 0x10000 + b * 0x100 + c) (by omega)
    norm_num at h
    rw [show (256:Nat) * (8388608 + a * 65536 + b * 256 + c)
      = 0x80000000 + a * 0x1000000 + b * 0x10000 + c * 0x100 by ring] at h
    exact h.symm
  rw [e1, e2, e3, e4]

theorem and127_eq_mod (x : Nat) : x &&& 0x7F = x % 0x80 := by
  have h := Nat.and_pow_two_sub_one_eq_mod x 7
  norm_num at h
  exact h

theorem and128_eq_zero {x : Nat} (h : x ≤ 0x7F) : x &&& 0x80 = 0 := by
  have h2 := Nat.and_two_pow x 7
  norm_num at h2
  rw [h2, Nat.testBit_lt_two_pow (by omega)]
  rfl

theorem and_INT_MIN_ne_zero {v : Nat} (h1 : 0x80000000 ≤ v) (h2 : v < 0x100000000) :
    v &&& INT_MIN ≠ 0 := by
  have h3 := Nat.and_two_pow v 31
  norm_num at h3
  rw [INT_MIN, h3]
  have ht : v.testBit 31 = true := by
    rw [Nat.testBit_to_div_mod]
    norm_num
    omega
  simp [ht]

theorem inline_fields (a b c d : Nat) (ha : a < 0x80) (hb : b < 0x80) (hc : c < 0x80)
    (hd : d < 0x80) :
    ((0x80000000 + a * 0x1000000 + b * 0x10000 + c * 0x100 + d) >>> 24) &&& 0x7F = a ∧
    ((0x80000000 + a * 0x1000000 + b * 0x10000 + c * 0x100 + d) >>> 16) &&& 0x7F = b ∧
    ((0x80000000 + a * 0x1000000 + b * 0x10000 + c * 0x100 + d) >>> 8) &&& 0x7F = c ∧
    (0x80000000 + a * 0x1000000 + b * 0x10000 + c * 0x100 + d) &&& 0x7F = d := by
  rw [Nat.shiftRight_eq_div_pow, Nat.shiftRight_eq_div_pow, Nat.shiftRight_eq_div_pow,
    and127_eq_mod, and127_eq_mod, and127_eq_mod, and127_eq_mod]
  norm_num
  omega

theorem minify3_eq (s : Bytes) (hlen : s.length ≤ 4) (hb : ∀ x ∈ s, x ≤ 0x7F) :
    minify3 s = some (0x80000000 + s.getD 0 0 * 0x1000000 + s.getD 1 0 * 0x10000 +
      s.getD 2 0 * 0x100 + s.getD 3 0) := by
  have hball : ∀ i, s.getD i 0 ≤ 0x7F := by
    intro i
    rw [List.getD_eq_getElem?_getD]
    rcases h : s[i]? with _ | x
    · simp
    · have := hb x (List.getElem?_mem h)
      simpa using this
  have hany : (s.any fun b => b &&& 0x80 ≠ 0) = false := by
    rw [List.any_eq_false]
    intro x hx
    simp [and128_eq_zero (hb x hx)]
  rw [minify3, if_neg (by omega), hany, if_neg (by simp)]
  have hmb : ∀ i, minifyByte s i = s.getD i 0 <<< ((3 - i) * 8) := by
    intro i
    rw [minifyByte, and127_eq_mod, Nat.mod_eq_of_lt (by have := hball i; omega)]
  rw [hmb 0, hmb 1, hmb 2, hmb 3]
  simp only [List.getD_eq_getElem?_getD]
  norm_num
  rw [or_fields_eq_add _ _ _ _
    (by have := hball 0; rw [List.getD_eq_getElem?_getD] at this; omega)
    (by have := hball 1; rw [List.getD_eq_getElem?_getD] at this; omega)
    (by have := hball 2; rw [List.getD_eq_getElem?_getD] at this; omega)
    (by have := hball 3; rw [List.getD_eq_getElem?_getD] at this; omega)]

end Puaa

namespace Puaa
theorem getStrInline_eq (v : Nat) :
    getStrInline v = [(v >>> 24) &&& 0x7F, (v >>> 16) &&& 0x7F, (v >>> 8) &&& 0x7F,
      v &&& 0x7F].filter (· ≠ 0) := by
  simp [getStrInline, List.range_succ]

theorem getStrInline_recovers (s : Bytes) (hlen : s.length ≤ 4)
    (hb : ∀ x ∈ s, 1 ≤ x ∧ x ≤ 0x7F) :
    getStrInline (0x80000000 + s.getD 0 0 * 0x1000000 + s.getD 1 0 * 0x10000 +
      s.getD 2 0 * 0x100 + s.getD 3 0) = s := by
  rcases s with _ | ⟨a, _ | ⟨b, _ | ⟨c, _ | ⟨d, _ | ⟨e, t⟩⟩⟩⟩⟩
  · decide
  · obtain ⟨ha1, ha2⟩ := hb a (by simp)
    have hf := inline_fields a 0 0 0 (by omega) (by omega) (by omega) (by omega)
    rw [getStrInline_eq]
    simp only [List.getD] at *
    norm_num at hf ⊢
    rw [hf.1, hf.2.1, hf.2.2.1, hf.2.2.2]
    simp [List.filter, Nat.pos_iff_ne_zero.1 (by omega : 0 < a)]
  · obtain ⟨ha1, ha2⟩ := hb a (by simp)
    obtain ⟨hb1, hb2⟩ := hb b (by simp)
    have hf := inline_fields a b 0 0 (by omega) (by omega) (by omega) (by omega)
    rw [getStrInline_eq]
    simp only [List.getD] at *
    norm_num at hf ⊢
    rw [hf.1, hf.2.1, hf.2.2.1, hf.2.2.2]
    simp [List.filter, Nat.pos_iff_ne_zero.1 (by omega : 0 < a), Nat.pos_iff_ne_zero.1 (by omega : 0 < b)]
  · obtain ⟨ha1, ha2⟩ := hb a (by simp)
    obtain ⟨hb1, hb2⟩ := hb b (by simp)
    obtain ⟨hc1, hc2⟩ := hb c (by simp)
    have hf := inline_fields a b c 0 (by omega) (by omega) (by omega) (by omega)
    rw [getStrInline_eq]
    simp only [List.getD] at *
    norm_num at hf ⊢
    rw [hf.1, hf.2.1, hf.2.2.1, hf.2.2.2]
    simp [List.filter, Nat.pos_iff_ne_zero.1 (by omega : 0 < a), Nat.pos_iff_ne_zero.1 (by omega : 0 < b), Nat.pos_iff_ne_zero.1 (by omega : 0 < c)]
  · obtain ⟨ha1, ha2⟩ := hb a (by simp)
    obtain ⟨hb1, hb2⟩ := hb b (by simp)
    obtain ⟨hc1, hc2⟩ := hb c (by simp)
    obtain ⟨hd1, hd2⟩ := hb d (by simp)
    have hf := inline_fields a b c d (by omega) (by omega) (by omega) (by omega)
    rw [getStrInline_eq]
    simp only [List.getD] at *
    norm_num at hf ⊢
    rw [hf.1, hf.2.1, hf.2.2.1, hf.2.2.2]
    simp [List.filter, Nat.pos_iff_ne_zero.1 (by omega : 0 < a), Nat.pos_iff_ne_zero.1 (by omega : 0 < b), Nat.pos_iff_ne_zero.1 (by omega : 0 < c), Nat.pos_iff_ne_zero.1 (by omega : 0 < d)]
  · simp at hlen
end Puaa

namespace Puaa
theorem getD_le_ascii {s : Bytes} (h : ∀ x ∈ s, x ≤ 0x7F) (i : Nat) : s.getD i 0 ≤ 0x7F := by
  rw [List.getD_eq_getElem?_getD]
  rcases hx : s[i]? with _ | x
  · simp
  · simpa using h x (List.getElem?_mem hx)

theorem or_high_bit {base x : Nat} (hb : base.testBit 7 = true) : ¬(base ||| x) ≤ 0x7F := by
  intro hle
  have hf := Nat.testBit_lt_two_pow (x := base ||| x) (i := 7) (by norm_num; omega)
  rw [Nat.testBit_or, hb] at hf
  simp at hf

theorem utf8EncodeChar_all_ascii {c : Nat} (h : ∀ b ∈ utf8EncodeChar c, b ≤ 0x7F) :
    c < 0x80 ∧ utf8EncodeChar c = [c] := by
  by_cases hc : c < 0x80
  · exact ⟨hc, by simp [utf8EncodeChar, hc]⟩
  · exfalso
    by_cases hc2 : c < 0x800
    · exact @or_high_bit 0xC0 (c >>> 6) (by decide)
        (h _ (by simp [utf8EncodeChar, hc, hc2]))
    · by_cases hc3 : c < 0x10000
      · exact @or_high_bit 0xE0 (c >>> 12) (by decide)
          (h _ (by simp [utf8EncodeChar, hc, hc2, hc3]))
      · exact @or_high_bit 0xF0 (c >>> 18) (by decide)
          (h _ (by simp [utf8EncodeChar, hc, hc2, hc3]))

theorem utf8Encode_eq_self (s : PyStr) (h : ∀ b ∈ utf8Encode s, b ≤ 0x7F) :
    utf8Encode s = s := by
  induction s with
  | nil => rfl
  | cons c s ih =>
    rw [utf8Encode, List.flatMap_cons] at h ⊢
    have hc := utf8EncodeChar_all_ascii fun b hb => h b (List.mem_append_left _ hb)
    rw [hc.2]
    have := ih fun b hb => h b (List.mem_append_right _ hb)
    rw [utf8Encode] at this
    simp [this]

/-- Claim C7 (amended): a string whose UTF-8 encoding is at most 4
    bytes, all in the range 0x01..0x7F, and that is not already interned
    in the string pool, is stored by strAddr as an inline tagged u32
    (top bit set) without touching the pool, and getStr on that value
    recovers exactly the original string regardless of the blob. -/
theorem inline_string_idempotence (s : PyStr)
    (hlen : (utf8Encode s).length ≤ 4)
    (hb : ∀ b ∈ utf8Encode s, 0x01 ≤ b ∧ b ≤ 0x7F) :
    ∃ v, minify3 (utf8Encode s) = some v ∧ v &&& INT_MIN ≠ 0 ∧
      (∀ st : StrState, st.stringTable.lookup s = none →
        strAddr st (some s) false = (v, st)) ∧
      (∀ data : Bytes, getStr data v = some (some s)) := by
  have hasc : utf8Encode s = s := utf8Encode_eq_self s fun b hb' => (hb b hb').2
  rw [hasc] at hlen hb ⊢
  have hle : ∀ x ∈ s, x ≤ 0x7F := fun x hx => (hb x hx).2
  have hmin := minify3_eq s hlen hle
  have hge : ∀ i, s.getD i 0 ≤ 0x7F := getD_le_ascii hle
  refine ⟨_, hmin, ?_, ?_, ?_⟩
  · exact and_INT_MIN_ne_zero (by omega)
      (by have h0 := hge 0; have h1 := hge 1; have h2 := hge 2; have h3 := hge 3; omega)
  · intro st hlook
    rw [strAddr, hlook]
    simp only [hasc, hmin]
    simp
  · intro data
    rw [getStr, if_pos (and_INT_MIN_ne_zero (by omega)
      (by have h0 := hge 0; have h1 := hge 1; have h2 := hge 2; have h3 := hge 3; omega))]
    rw [getStrInline_recovers s hlen hb]

end Puaa

namespace Puaa

/-- Concrete table whose property name and Single value are both the
    one-character string Y. -/
def tyTable : PuaaTable := ⟨[⟨some [0x59], [.single 0 0 (some [0x59])]⟩]⟩

/-- Compiled blob of tyTable: the entry data word at offset 20 is the
    pool offset 24, not an inline tagged value. -/
def tyBlob : Bytes :=
  [0, 1, 0, 1, 0, 0, 0, 24, 0, 0, 0, 12, 0, 1, 1, 0, 0, 0, 0, 0,
    0, 0, 0, 24, 1, 0x59]

/-- Claim C7 (counterexample): the string Y satisfies the inline
    conditions (UTF-8 length 1, byte 0x59 in 0x01..0x7F), yet compiling
    an entry that references it stores the pool offset 24 (top bit
    clear), because the property name Y was interned into the pool first
    and strAddr reuses pool entries before trying the inline form.  The
    dereference still recovers Y exactly. -/
theorem inline_claim_fails_on_interned :
    (utf8Encode [0x59]).length ≤ 4 ∧ (∀ b ∈ utf8Encode [0x59], 0x01 ≤ b ∧ b ≤ 0x7F) ∧
    tyTable.compile = some tyBlob ∧
    readU32 tyBlob 20 = some 24 ∧ 24 &&& INT_MIN = 0 ∧
    getStr tyBlob 24 = some (some [0x59]) := by
  decide

/-- Witness: the amended inline-string law evaluated at the two-letter
    string ab. -/
theorem inline_string_idempotence_witness :
    ∃ v, minify3 (utf8Encode [0x61, 0x62]) = some v ∧ v &&& INT_MIN ≠ 0 ∧
      (∀ st : StrState, st.stringTable.lookup [0x61, 0x62] = none →
        strAddr st (some [0x61, 0x62]) false = (v, st)) ∧
      (∀ data : Bytes, getStr data v = some (some [0x61, 0x62])) :=
  inline_string_idempotence [0x61, 0x62] (by decide) (by decide)

end Puaa

namespace Puaa

/-- Python values handled by appendToEntry, as a typed sum.  The source
    compares values with Python equality, which is False across the
    kinds that appear here, and appends whatever it is given to a
    Multiple values list; in every call site the value kind matches the
    entry kind, which the typed model enforces. -/
inductive PyVal : Type
  | str (s : PyStr)
  | bool (b : Bool)
  | int (v : Int)
  | nat (v : Nat)
  | nats (v : List Nat)
  deriving Repr, DecidableEq

/-- appendToEntry of pypuaa.py: extend a compatible trailing entry by
    one code point instead of allocating a new one.  None plays the
    False return (nothing appended); the plane guard refuses to extend
    past a 64K boundary. -/
def appendToEntry : Option PuaaEntry → Nat → PyVal → Option PuaaEntry
  | none, _, _ => none
  | some e, cp, v =>
    if e.lastCodePoint &&& 0xFFFF == 0xFFFF then none
    else if e.lastCodePoint + 1 != cp then none
    else
      match e, v with
      | .single f l val, .str s => if val == some s then some (.single f (l + 1) val) else none
      | .multiple f l vs, .str s => some (.multiple f (l + 1) (vs ++ [some s]))
      | .boolean f l b, .bool b2 => if b == b2 then some (.boolean f (l + 1) b) else none
      | .decimal f l d, .int d2 => if d == d2 then some (.decimal f (l + 1) d) else none
      | .hexadecimal f l h, .nat h2 => if h == h2 then some (.hexadecimal f (l + 1) h) else none
      | .hexMultiple f l vs, .nat h2 => some (.hexMultiple f (l + 1) (vs ++ [h2]))
      | .hexSequence f l vs, .nats v2 => if vs == v2 then some (.hexSequence f (l + 1) vs) else none
      | _, _ => none

/-- sortedMap of pypuaa.py: keep the map items whose value is neither
    None nor rejected by the kind-specific emptiness test (Python
    compares against the empty string, which only a string value can
    equal), then stable-sort by code point.  Python dictionaries are
    modelled as association lists with unique keys. -/
def sortedMap (keep : α → Bool) (m : List (Nat × Option α)) : List (Nat × α) :=
  (m.filterMap fun it => it.2.bind fun v => if keep v then some (it.1, v) else none).insertionSort
    fun a b => a.1 ≤ b.1

/-- Shared loop of the private runsFromMap and entriesFromMap helpers:
    walk the sorted items, extending the current entry via appendToEntry
    or starting a new one with the constructor S.  The Python lists hold
    the current entry by reference; the model keeps the finished entries
    and the current one apart and flushes at the end. -/
def mapRunsGo (S : Nat → Nat → α → PuaaEntry) (toVal : α → PyVal) :
    List (Nat × α) → List PuaaEntry → Option PuaaEntry → List PuaaEntry
  | [], done, cur => done ++ cur.toList
  | (cp, v) :: rest, done, cur =>
    match appendToEntry cur cp (toVal v) with
    | some cur2 => mapRunsGo S toVal rest done (some cur2)
    | none => mapRunsGo S toVal rest (done ++ cur.toList) (some (S cp cp v))

/-- The private entriesFromMap (and runsFromMap) of pypuaa.py. -/
def entriesFromMapG (keep : α → Bool) (S : Nat → Nat → α → PuaaEntry) (toVal : α → PyVal)
    (m : List (Nat × Option α)) : List PuaaEntry :=
  mapRunsGo S toVal (sortedMap keep m) [] none

/-- Loop of the private entriesFromRuns of pypuaa.py: multi-point runs
    pass through unchanged (resetting the current entry); singleton runs
    are merged into a Multiple-kind entry built by M. -/
def entriesFromRunsGo (M : Nat → Nat → α → PuaaEntry) (getVal : PuaaEntry → α)
    (toVal : α → PyVal) :
    List PuaaEntry → List PuaaEntry → Option PuaaEntry → List PuaaEntry
  | [], done, cur => done ++ cur.toList
  | run :: rest, done, cur =>
    if run.firstCodePoint != run.lastCodePoint then
      entriesFromRunsGo M getVal toVal rest (done ++ cur.toList ++ [run]) none
    else
      match appendToEntry cur run.firstCodePoint (toVal (getVal run)) with
      | some cur2 => entriesFromRunsGo M getVal toVal rest done (some cur2)
      | none => entriesFromRunsGo M getVal toVal rest (done ++ cur.toList)
          (some (M run.firstCodePoint run.lastCodePoint (getVal run)))

/-- The private entriesFromRuns of pypuaa.py, including the final pass
    that promotes a one-point Multiple back to the Single kind. -/
def entriesFromRunsG (M : Nat → Nat → α → PuaaEntry) (getVal : PuaaEntry → α)
    (toVal : α → PyVal) (promote : PuaaEntry → PuaaEntry) (runs : List PuaaEntry) :
    List PuaaEntry :=
  (entriesFromRunsGo M getVal toVal runs [] none).map fun e =>
    if e.firstCodePoint == e.lastCodePoint then promote e else e

/-- entriesFromStringMap of pypuaa.py. -/
def entriesFromStringMap (m : List (Nat × Option PyStr)) : List PuaaEntry :=
  entriesFromRunsG
    (fun f l v => .multiple f l [some v])
    (fun e => match e with | .single _ _ (some s) => s | _ => [])
    PyVal.str
    (fun e => match e with | .multiple f l vs => .single f l (vs.getD 0 none) | e => e)
    (entriesFromMapG (fun s => !s.isEmpty) (fun f l v => .single f l (some v)) PyVal.str m)

/-- entriesFromBooleanMap of pypuaa.py. -/
def entriesFromBooleanMap (m : List (Nat × Option Bool)) : List PuaaEntry :=
  entriesFromMapG (fun _ => true) (fun f l v => .boolean f l v) PyVal.bool m

/-- entriesFromDecimalMap of pypuaa.py. -/
def entriesFromDecimalMap (m : List (Nat × Option Int)) : List PuaaEntry :=
  entriesFromMapG (fun _ => true) (fun f l v => .decimal f l v) PyVal.int m

/-- entriesFromHexadecimalMap of pypuaa.py. -/
def entriesFromHexadecimalMap (m : List (Nat × Option Nat)) : List PuaaEntry :=
  entriesFromRunsG
    (fun f l v => .hexMultiple f l [v])
    (fun e => match e with | .hexadecimal _ _ v => v | _ => 0)
    PyVal.nat
    (fun e => match e with | .hexMultiple f l vs => .hexadecimal f l (vs.getD 0 0) | e => e)
    (entriesFromMapG (fun _ => true) (fun f l v => .hexadecimal f l v) PyVal.nat m)

/-- entriesFromHexSequenceMap of pypuaa.py. -/
def entriesFromHexSequenceMap (m : List (Nat × Option (List Nat))) : List PuaaEntry :=
  entriesFromMapG (fun _ => true) (fun f l v => .hexSequence f l v) PyVal.nats m

end Puaa
namespace Puaa

theorem and_FFFF_eq_mod (x : Nat) : x &&& 0xFFFF = x % 0x10000 := by
  have h := Nat.and_pow_two_sub_one_eq_mod x 16
  norm_num at h
  exact h

theorem last_succ_same_plane {l : Nat} (h : l &&& 0xFFFF ≠ 0xFFFF) :
    (l + 1) >>> 16 = l >>> 16 := by
  rw [Nat.shiftRight_eq_div_pow, Nat.shiftRight_eq_div_pow]
  rw [and_FFFF_eq_mod] at h
  norm_num at h ⊢
  omega

theorem appendToEntry_bounds {e e' : PuaaEntry} {cp : Nat} {v : PyVal}
    (h : appendToEntry (some e) cp v = some e') :
    e'.firstCodePoint = e.firstCodePoint ∧ e'.lastCodePoint = e.lastCodePoint + 1 ∧
      cp = e.lastCodePoint + 1 ∧ e.lastCodePoint &&& 0xFFFF ≠ 0xFFFF := by
  cases e <;> cases v <;> simp only [appendToEntry] at h <;> split_ifs at h <;>
    (try cases h) <;>
    simp_all [PuaaEntry.firstCodePoint, PuaaEntry.lastCodePoint]

end Puaa

namespace Puaa

theorem contains_iff (e : PuaaEntry) (x : Nat) :
    e.contains x = true ↔ e.firstCodePoint ≤ x ∧ x ≤ e.lastCodePoint := by
  simp [PuaaEntry.contains]

theorem mapRunsGo_append (S : Nat → Nat → α → PuaaEntry) (toVal : α → PyVal) :
    ∀ (items : List (Nat × α)) (done : List PuaaEntry) (cur : Option PuaaEntry),
      mapRunsGo S toVal items done cur = done ++ mapRunsGo S toVal items [] cur
  | [], done, cur => by simp [mapRunsGo]
  | (cp, v) :: rest, done, cur => by
    simp only [mapRunsGo]
    cases happ : appendToEntry cur cp (toVal v) with
    | some c2 => exact mapRunsGo_append S toVal rest done (some c2)
    | none =>
      rw [mapRunsGo_append S toVal rest (done ++ cur.toList),
        mapRunsGo_append S toVal rest ([] ++ cur.toList)]
      simp

theorem mapRunsGo_rel {α : Type} (S : Nat → Nat → α → PuaaEntry) (toVal : α → PyVal)
    (render : α → Option PyStr) (good : PuaaEntry → Prop)
    (hSfirst : ∀ cp v, (S cp cp v).firstCodePoint = cp)
    (hSlast : ∀ cp v, (S cp cp v).lastCodePoint = cp)
    (hSpv : ∀ cp v x, (S cp cp v).propertyValue x = render v)
    (hSgood : ∀ cp v, good (S cp cp v))
    (happ : ∀ e e' cp v, good e → appendToEntry (some e) cp (toVal v) = some e' →
      good e' ∧ (∀ x, e'.propertyValue x = e.propertyValue x) ∧
        e.propertyValue cp = render v) :
    ∀ (items : List (Nat × α)) (cur : Option PuaaEntry),
      items.Pairwise (fun a b => a.1 < b.1) →
      (∀ c, cur = some c → good c ∧ c.firstCodePoint ≤ c.lastCodePoint ∧
        c.firstCodePoint >>> 16 = c.lastCodePoint >>> 16) →
      (∀ c, cur = some c → ∀ p ∈ items, c.lastCodePoint < p.1) →
      (∀ e ∈ mapRunsGo S toVal items [] cur,
          good e ∧ e.firstCodePoint ≤ e.lastCodePoint ∧
          e.firstCodePoint >>> 16 = e.lastCodePoint >>> 16) ∧
      (∀ e ∈ mapRunsGo S toVal items [] cur, ∀ x, e.contains x = true →
          (∃ c, cur = some c ∧ c.contains x = true ∧
            e.propertyValue x = c.propertyValue x) ∨
          (∃ p ∈ items, p.1 = x ∧ e.propertyValue x = render p.2)) ∧
      (∀ p ∈ items, ∃ e ∈ mapRunsGo S toVal items [] cur, e.contains p.1 = true) ∧
      (∀ c, cur = some c → ∀ x, c.contains x = true →
          ∃ e ∈ mapRunsGo S toVal items [] cur, e.contains x = true) ∧
      (mapRunsGo S toVal items [] cur).Pairwise
        (fun a b => a.lastCodePoint < b.firstCodePoint) := by
  intro items
  induction items with
  | nil =>
    intro cur hpw hcur hcl
    refine ⟨?_, ?_, by simp, ?_, ?_⟩
    · intro e he
      cases cur with
      | none => simp [mapRunsGo] at he
      | some c =>
        simp [mapRunsGo] at he
        subst he
        exact hcur _ rfl
    · intro e he x hx
      cases cur with
      | none => simp [mapRunsGo] at he
      | some c =>
        simp [mapRunsGo] at he
        subst he
        exact Or.inl ⟨_, rfl, hx, rfl⟩
    · intro c hc x hx
      subst hc
      exact ⟨c, by simp [mapRunsGo], hx⟩
    · cases cur <;> simp [mapRunsGo]
  | cons p rest ih =>
    obtain ⟨cp, v⟩ := p
    intro cur hpw hcur hcl
    have hpw' := (List.pairwise_cons.1 hpw).2
    have hpwhead := (List.pairwise_cons.1 hpw).1
    simp only [mapRunsGo]
    cases happc : appendToEntry cur cp (toVal v) with
    | some c2 =>
      cases cur with
      | none => simp [appendToEntry] at happc
      | some c =>
        obtain ⟨hb1, hb2, hb3, hb4⟩ := appendToEntry_bounds happc
        obtain ⟨hgc, hfl, hpl⟩ := hcur c rfl
        obtain ⟨hg2, hpres, hpvcp⟩ := happ c c2 cp v hgc happc
        have hplane2 : c2.firstCodePoint >>> 16 = c2.lastCodePoint >>> 16 := by
          rw [hb1, hb2, last_succ_same_plane hb4, hpl]
        have hcur2 : ∀ d, some c2 = some d → good d ∧ d.firstCodePoint ≤ d.lastCodePoint ∧
            d.firstCodePoint >>> 16 = d.lastCodePoint >>> 16 := by
          intro d hd
          cases hd
          exact ⟨hg2, by omega, hplane2⟩
        have hcl2 : ∀ d, some c2 = some d → ∀ q ∈ rest, d.lastCodePoint < q.1 := by
          intro d hd q hq
          cases hd
          have := hpwhead q hq
          omega
        obtain ⟨ih1, ih2, ih3, ih6, ih5⟩ := ih (some c2) hpw' hcur2 hcl2
        have hc2cov : ∀ x, c2.contains x = true ↔ (c.contains x = true ∨ x = cp) := by
          intro x
          rw [contains_iff, contains_iff, hb1, hb2]
          omega
        refine ⟨ih1, ?_, ?_, ?_, ih5⟩
        · intro e he x hx
          rcases ih2 e he x hx with ⟨d, hd, hdx, hdpv⟩ | ⟨q, hq, hqx, hqpv⟩
          · cases hd
            rcases (hc2cov x).1 hdx with hcx | hxcp
            · exact Or.inl ⟨c, rfl, hcx, by rw [hdpv, hpres]⟩
            · subst hxcp
              refine Or.inr ⟨(x, v), by simp, rfl, ?_⟩
              rw [hdpv, hpres, hpvcp]
          · exact Or.inr ⟨q, by simp [hq], hqx, hqpv⟩
        · intro q hq
          rcases List.mem_cons.1 hq with hq1 | hq2
          · subst hq1
            exact ih6 c2 rfl cp ((hc2cov cp).2 (Or.inr rfl))
          · exact ih3 q hq2
        · intro d hd x hx
          cases hd
          exact ih6 c2 rfl x ((hc2cov x).2 (Or.inl hx))
    | none =>
      rw [mapRunsGo_append S toVal rest ([] ++ Option.toList cur) (some (S cp cp v))]
      simp only [List.nil_append]
      have hnew : ∀ d, some (S cp cp v) = some d → good d ∧
          d.firstCodePoint ≤ d.lastCodePoint ∧
          d.firstCodePoint >>> 16 = d.lastCodePoint >>> 16 := by
        intro d hd
        cases hd
        exact ⟨hSgood cp v, by rw [hSfirst, hSlast], by rw [hSfirst, hSlast]⟩
      have hnewl : ∀ d, some (S cp cp v) = some d → ∀ q ∈ rest, d.lastCodePoint < q.1 := by
        intro d hd q hq
        cases hd
        rw [hSlast]
        exact hpwhead q hq
      obtain ⟨ih1, ih2, ih3, ih6, ih5⟩ := ih (some (S cp cp v)) hpw' hnew hnewl
      have hscov : ∀ x, (S cp cp v).contains x = true ↔ x = cp := by
        intro x
        rw [contains_iff, hSfirst, hSlast]
        omega
      refine ⟨?_, ?_, ?_, ?_, ?_⟩
      · intro e he
        rcases List.mem_append.1 he with he1 | he2
        · cases cur with
          | none => simp at he1
          | some c =>
            simp at he1
            subst he1
            exact hcur e rfl
        · exact ih1 e he2
      · intro e he x hx
        rcases List.mem_append.1 he with he1 | he2
        · cases cur with
          | none => simp at he1
          | some c =>
            simp at he1
            subst he1
            exact Or.inl ⟨_, rfl, hx, rfl⟩
        · rcases ih2 e he2 x hx with ⟨d, hd, hdx, hdpv⟩ | ⟨q, hq, hqx, hqpv⟩
          · cases hd
            have hxcp := (hscov x).1 hdx
            subst hxcp
            refine Or.inr ⟨(x, v), by simp, rfl, ?_⟩
            rw [hdpv, hSpv]
          · exact Or.inr ⟨q, by simp [hq], hqx, hqpv⟩
      · intro q hq
        rcases List.mem_cons.1 hq with hq1 | hq2
        · subst hq1
          obtain ⟨e, he, hex⟩ := ih6 (S cp cp v) rfl cp ((hscov cp).2 rfl)
          exact ⟨e, List.mem_append_right _ he, hex⟩
        · obtain ⟨e, he, hex⟩ := ih3 q hq2
          exact ⟨e, List.mem_append_right _ he, hex⟩
      · intro c hc x hx
        subst hc
        exact ⟨c, List.mem_append_left _ (by simp), hx⟩
      · rw [List.pairwise_append]
        refine ⟨?_, ih5, ?_⟩
        · cases cur <;> simp
        · intro a ha b hb
          cases cur with
          | none => simp at ha
          | some c =>
            simp at ha
            subst ha
            have hbf : b.firstCodePoint ≤ b.lastCodePoint := (ih1 b hb).2.1
            have hbcov : b.contains b.firstCodePoint = true := by
              rw [contains_iff]
              omega
            rcases ih2 b hb b.firstCodePoint hbcov with ⟨d, hd, hdx, _⟩ | ⟨q, hq, hqx, _⟩
            · cases hd
              have := (hscov b.firstCodePoint).1 hdx
              have := hcl a rfl (cp, v) (by simp)
              simp at this
              omega
            · have h1 := hcl a rfl q (by simp [hq])
              omega

end Puaa

namespace Puaa

theorem entriesFromRunsGo_append (M : Nat → Nat → α → PuaaEntry) (getVal : PuaaEntry → α)
    (toVal : α → PyVal) :
    ∀ (runs : List PuaaEntry) (done : List PuaaEntry) (cur : Option PuaaEntry),
      entriesFromRunsGo M getVal toVal runs done cur =
        done ++ entriesFromRunsGo M getVal toVal runs [] cur
  | [], done, cur => by simp [entriesFromRunsGo]
  | run :: rest, done, cur => by
    simp only [entriesFromRunsGo]
    split_ifs with h1
    · rw [entriesFromRunsGo_append M getVal toVal rest (done ++ cur.toList ++ [run]),
        entriesFromRunsGo_append M getVal toVal rest ([] ++ cur.toList ++ [run])]
      simp
    · cases happ : appendToEntry cur run.firstCodePoint (toVal (getVal run)) with
      | some c2 => exact entriesFromRunsGo_append M getVal toVal rest done (some c2)
      | none =>
        rw [entriesFromRunsGo_append M getVal toVal rest (done ++ cur.toList),
          entriesFromRunsGo_append M getVal toVal rest ([] ++ cur.toList)]
        simp

theorem entriesFromRunsGo_rel {α : Type} (M : Nat → Nat → α → PuaaEntry)
    (getVal : PuaaEntry → α) (toVal : α → PyVal)
    (render : α → Option PyStr) (goodM : PuaaEntry → Prop)
    (hMfirst : ∀ cp v, (M cp cp v).firstCodePoint = cp)
    (hMlast : ∀ cp v, (M cp cp v).lastCodePoint = cp)
    (hMpv : ∀ cp v, (M cp cp v).propertyValue cp = render v)
    (hMgood : ∀ cp v, goodM (M cp cp v))
    (happM : ∀ e e' cp v, goodM e → appendToEntry (some e) cp (toVal v) = some e' →
      goodM e' ∧ (∀ x, e.contains x = true → e'.propertyValue x = e.propertyValue x) ∧
        e'.propertyValue cp = render v) :
    ∀ (runs : List PuaaEntry) (cur : Option PuaaEntry),
      (∀ r ∈ runs, r.firstCodePoint ≤ r.lastCodePoint ∧
        r.firstCodePoint >>> 16 = r.lastCodePoint >>> 16) →
      (∀ r ∈ runs, r.firstCodePoint = r.lastCodePoint →
        r.propertyValue r.firstCodePoint = render (getVal r)) →
      runs.Pairwise (fun a b => a.lastCodePoint < b.firstCodePoint) →
      (∀ c, cur = some c → goodM c ∧ c.firstCodePoint ≤ c.lastCodePoint ∧
        c.firstCodePoint >>> 16 = c.lastCodePoint >>> 16) →
      (∀ c, cur = some c → ∀ r ∈ runs, c.lastCodePoint < r.firstCodePoint) →
      (∀ e ∈ entriesFromRunsGo M getVal toVal runs [] cur,
          (goodM e ∨ (e ∈ runs ∧ e.firstCodePoint ≠ e.lastCodePoint)) ∧
          e.firstCodePoint ≤ e.lastCodePoint ∧
          e.firstCodePoint >>> 16 = e.lastCodePoint >>> 16) ∧
      (∀ e ∈ entriesFromRunsGo M getVal toVal runs [] cur, ∀ x, e.contains x = true →
          (∃ c, cur = some c ∧ c.contains x = true ∧
            e.propertyValue x = c.propertyValue x) ∨
          (∃ r ∈ runs, r.contains x = true ∧ e.propertyValue x = r.propertyValue x)) ∧
      (∀ r ∈ runs, ∀ x, r.contains x = true →
          ∃ e ∈ entriesFromRunsGo M getVal toVal runs [] cur, e.contains x = true) ∧
      (∀ c, cur = some c → ∀ x, c.contains x = true →
          ∃ e ∈ entriesFromRunsGo M getVal toVal runs [] cur, e.contains x = true) := by
  intro runs
  induction runs with
  | nil =>
    intro cur hwf hpv hpw hcur hcl
    refine ⟨?_, ?_, by simp, ?_⟩
    · intro e he
      cases cur with
      | none => simp [entriesFromRunsGo] at he
      | some c =>
        simp [entriesFromRunsGo] at he
        subst he
        obtain ⟨h1, h2, h3⟩ := hcur _ rfl
        exact ⟨Or.inl h1, h2, h3⟩
    · intro e he x hx
      cases cur with
      | none => simp [entriesFromRunsGo] at he
      | some c =>
        simp [entriesFromRunsGo] at he
        subst he
        exact Or.inl ⟨_, rfl, hx, rfl⟩
    · intro c hc x hx
      subst hc
      exact ⟨c, by simp [entriesFromRunsGo], hx⟩
  | cons run rest ih =>
    intro cur hwf hpv hpw hcur hcl
    have hpw' := (List.pairwise_cons.1 hpw).2
    have hpwhead := (List.pairwise_cons.1 hpw).1
    have hwf' : ∀ r ∈ rest, r.firstCodePoint ≤ r.lastCodePoint ∧
        r.firstCodePoint >>> 16 = r.lastCodePoint >>> 16 := fun r hr => hwf r (by simp [hr])
    have hpv' : ∀ r ∈ rest, r.firstCodePoint = r.lastCodePoint →
        r.propertyValue r.firstCodePoint = render (getVal r) := fun r hr => hpv r (by simp [hr])
    have hwfrun := hwf run (by simp)
    simp only [entriesFromRunsGo]
    split_ifs with hne
    · -- multi-point run: flush cur, pass run through
      rw [entriesFromRunsGo_append M getVal toVal rest ([] ++ cur.toList ++ [run]) none]
      simp only [List.nil_append]
      obtain ⟨ih1, ih2, ih3, ih6⟩ := ih none hwf' hpv' hpw'
        (by intro c hc; cases hc) (by intro c hc; cases hc)
      refine ⟨?_, ?_, ?_, ?_⟩
      · intro e he
        rcases List.mem_append.1 he with he1 | he2
        · rcases List.mem_append.1 he1 with he1a | he1b
          · cases cur with
            | none => simp at he1a
            | some c =>
              simp at he1a
              subst he1a
              obtain ⟨h1, h2, h3⟩ := hcur _ rfl
              exact ⟨Or.inl h1, h2, h3⟩
          · simp at he1b
            subst he1b
            refine ⟨Or.inr ⟨by simp, by simpa using hne⟩, hwfrun.1, hwfrun.2⟩
        · obtain ⟨hg, h2, h3⟩ := ih1 e he2
          refine ⟨?_, h2, h3⟩
          rcases hg with hg | ⟨hg1, hg2⟩
          · exact Or.inl hg
          · exact Or.inr ⟨by simp [hg1], hg2⟩
      · intro e he x hx
        rcases List.mem_append.1 he with he1 | he2
        · rcases List.mem_append.1 he1 with he1a | he1b
          · cases cur with
            | none => simp at he1a
            | some c =>
              simp at he1a
              subst he1a
              exact Or.inl ⟨_, rfl, hx, rfl⟩
          · simp at he1b
            subst he1b
            exact Or.inr ⟨e, by simp, hx, rfl⟩
        · rcases ih2 e he2 x hx with ⟨d, hd, _, _⟩ | ⟨r, hr, hrx, hrpv⟩
          · cases hd
          · exact Or.inr ⟨r, by simp [hr], hrx, hrpv⟩
      · intro r hr x hx
        rcases List.mem_cons.1 hr with hr1 | hr2
        · subst hr1
          exact ⟨r, List.mem_append_left _ (List.mem_append_right _ (by simp)), hx⟩
        · obtain ⟨e, he, hex⟩ := ih3 r hr2 x hx
          exact ⟨e, List.mem_append_right _ he, hex⟩
      · intro c hc x hx
        subst hc
        exact ⟨c, List.mem_append_left _ (List.mem_append_left _ (by simp)), hx⟩
    · -- singleton run
      have hfl : run.firstCodePoint = run.lastCodePoint := by
        simpa using hne
      cases happc : appendToEntry cur run.firstCodePoint (toVal (getVal run)) with
      | some c2 =>
        cases cur with
        | none => simp [appendToEntry] at happc
        | some c =>
          obtain ⟨hb1, hb2, hb3, hb4⟩ := appendToEntry_bounds happc
          obtain ⟨hgc, hclfl, hcpl⟩ := hcur c rfl
          obtain ⟨hg2, hpres, hpvcp⟩ := happM c c2 run.firstCodePoint (getVal run) hgc happc
          have hplane2 : c2.firstCodePoint >>> 16 = c2.lastCodePoint >>> 16 := by
            rw [hb1, hb2, last_succ_same_plane hb4, hcpl]
          obtain ⟨ih1, ih2, ih3, ih6⟩ := ih (some c2) hwf' hpv' hpw'
            (by intro d hd; cases hd; exact ⟨hg2, by omega, hplane2⟩)
            (by intro d hd r hr; cases hd
                have := hpwhead r hr
                omega)
          have hc2cov : ∀ x, c2.contains x = true ↔
              (c.contains x = true ∨ x = run.firstCodePoint) := by
            intro x
            rw [contains_iff, contains_iff, hb1, hb2]
            omega
          refine ⟨?_, ?_, ?_, ?_⟩
          · intro e he
            obtain ⟨hg, h2, h3⟩ := ih1 e he
            refine ⟨?_, h2, h3⟩
            rcases hg with hg | ⟨hg1, hg2⟩
            · exact Or.inl hg
            · exact Or.inr ⟨by simp [hg1], hg2⟩
          · intro e he x hx
            rcases ih2 e he x hx with ⟨d, hd, hdx, hdpv⟩ | ⟨r, hr, hrx, hrpv⟩
            · cases hd
              rcases (hc2cov x).1 hdx with hcx | hxcp
              · exact Or.inl ⟨c, rfl, hcx, by rw [hdpv, hpres x hcx]⟩
              · subst hxcp
                refine Or.inr ⟨run, by simp, by rw [contains_iff]; omega, ?_⟩
                rw [hdpv, hpvcp, hpv run (by simp) hfl]
            · exact Or.inr ⟨r, by simp [hr], hrx, hrpv⟩
          · intro r hr x hx
            rcases List.mem_cons.1 hr with hr1 | hr2
            · subst hr1
              have hxf : x = r.firstCodePoint := by
                rw [contains_iff] at hx
                omega
              subst hxf
              exact ih6 c2 rfl _ ((hc2cov _).2 (Or.inr rfl))
            · exact ih3 r hr2 x hx
          · intro d hd x hx
            cases hd
            exact ih6 c2 rfl x ((hc2cov x).2 (Or.inl hx))
      | none =>
        rw [entriesFromRunsGo_append M getVal toVal rest ([] ++ cur.toList)
          (some (M run.firstCodePoint run.lastCodePoint (getVal run)))]
        simp only [List.nil_append]
        rw [← hfl]
        obtain ⟨ih1, ih2, ih3, ih6⟩ := ih (some (M run.firstCodePoint run.firstCodePoint (getVal run)))
          hwf' hpv' hpw'
          (by intro d hd; cases hd
              exact ⟨hMgood _ _, by rw [hMfirst, hMlast], by rw [hMfirst, hMlast]⟩)
          (by intro d hd r hr; cases hd
              rw [hMlast]
              have := hpwhead r hr
              omega)
        have hscov : ∀ x, (M run.firstCodePoint run.firstCodePoint (getVal run)).contains x = true ↔
            x = run.firstCodePoint := by
          intro x
          rw [contains_iff, hMfirst, hMlast]
          omega
        refine ⟨?_, ?_, ?_, ?_⟩
        · intro e he
          rcases List.mem_append.1 he with he1 | he2
          · cases cur with
            | none => simp at he1
            | some c =>
              simp at he1
              subst he1
              obtain ⟨h1, h2, h3⟩ := hcur _ rfl
              exact ⟨Or.inl h1, h2, h3⟩
          · obtain ⟨hg, h2, h3⟩ := ih1 e he2
            refine ⟨?_, h2, h3⟩
            rcases hg with hg | ⟨hg1, hg2⟩
            · exact Or.inl hg
            · exact Or.inr ⟨by simp [hg1], hg2⟩
        · intro e he x hx
          rcases List.mem_append.1 he with he1 | he2
          · cases cur with
            | none => simp at he1
            | some c =>
              simp at he1
              subst he1
              exact Or.inl ⟨_, rfl, hx, rfl⟩
          · rcases ih2 e he2 x hx with ⟨d, hd, hdx, hdpv⟩ | ⟨r, hr, hrx, hrpv⟩
            · cases hd
              have hxcp := (hscov x).1 hdx
              subst hxcp
              refine Or.inr ⟨run, by simp, by rw [contains_iff]; omega, ?_⟩
              rw [hdpv, hMpv, hpv run (by simp) hfl]
            · exact Or.inr ⟨r, by simp [hr], hrx, hrpv⟩
        · intro r hr x hx
          rcases List.mem_cons.1 hr with hr1 | hr2
          · subst hr1
            have hxf : x = r.firstCodePoint := by
              rw [contains_iff] at hx
              omega
            subst hxf
            obtain ⟨e, he, hex⟩ := ih6 _ rfl _ ((hscov _).2 rfl)
            exact ⟨e, List.mem_append_right _ he, hex⟩
          · obtain ⟨e, he, hex⟩ := ih3 r hr2 x hx
            exact ⟨e, List.mem_append_right _ he, hex⟩
        · intro c hc x hx
          subst hc
          exact ⟨c, List.mem_append_left _ (by simp), hx⟩

end Puaa
namespace Puaa

theorem entriesFromRunsG_rel {α : Type} (M : Nat → Nat → α → PuaaEntry)
    (getVal : PuaaEntry → α) (toVal : α → PyVal)
    (render : α → Option PyStr) (goodM : PuaaEntry → Prop) (promote : PuaaEntry → PuaaEntry)
    (hMfirst : ∀ cp v, (M cp cp v).firstCodePoint = cp)
    (hMlast : ∀ cp v, (M cp cp v).lastCodePoint = cp)
    (hMpv : ∀ cp v, (M cp cp v).propertyValue cp = render v)
    (hMgood : ∀ cp v, goodM (M cp cp v))
    (happM : ∀ e e' cp v, goodM e → appendToEntry (some e) cp (toVal v) = some e' →
      goodM e' ∧ (∀ x, e.contains x = true → e'.propertyValue x = e.propertyValue x) ∧
        e'.propertyValue cp = render v)
    (hpromote : ∀ e, goodM e → e.firstCodePoint = e.lastCodePoint →
      (promote e).firstCodePoint = e.firstCodePoint ∧
      (promote e).lastCodePoint = e.lastCodePoint ∧
      (promote e).propertyValue e.firstCodePoint = e.propertyValue e.firstCodePoint)
    (runs : List PuaaEntry)
    (hwf : ∀ r ∈ runs, r.firstCodePoint ≤ r.lastCodePoint ∧
      r.firstCodePoint >>> 16 = r.lastCodePoint >>> 16)
    (hpv : ∀ r ∈ runs, r.firstCodePoint = r.lastCodePoint →
      r.propertyValue r.firstCodePoint = render (getVal r))
    (hpw : runs.Pairwise fun a b => a.lastCodePoint < b.firstCodePoint) :
    (∀ e ∈ entriesFromRunsG M getVal toVal promote runs,
        e.firstCodePoint ≤ e.lastCodePoint ∧
        e.firstCodePoint >>> 16 = e.lastCodePoint >>> 16) ∧
    (∀ e ∈ entriesFromRunsG M getVal toVal promote runs, ∀ x, e.contains x = true →
        ∃ r ∈ runs, r.contains x = true ∧ e.propertyValue x = r.propertyValue x) ∧
    (∀ r ∈ runs, ∀ x, r.contains x = true →
        ∃ e ∈ entriesFromRunsG M getVal toVal promote runs, e.contains x = true) := by
  obtain ⟨g1, g2, g3, _⟩ := entriesFromRunsGo_rel M getVal toVal render goodM
    hMfirst hMlast hMpv hMgood happM runs none hwf hpv hpw
    (by intro c hc; cases hc) (by intro c hc; cases hc)
  have hmap : ∀ e0 ∈ entriesFromRunsGo M getVal toVal runs [] none,
      (if e0.firstCodePoint == e0.lastCodePoint then promote e0 else e0).firstCodePoint
        = e0.firstCodePoint ∧
      (if e0.firstCodePoint == e0.lastCodePoint then promote e0 else e0).lastCodePoint
        = e0.lastCodePoint ∧
      ∀ x, (if e0.firstCodePoint == e0.lastCodePoint then promote e0 else e0).propertyValue x
          = e0.propertyValue x ∨ ¬(e0.contains x = true) := by
    intro e0 he0
    by_cases hfl : e0.firstCodePoint = e0.lastCodePoint
    · have hgood : goodM e0 := by
        rcases (g1 e0 he0).1 with h | ⟨_, hne⟩
        · exact h
        · exact absurd hfl hne
      obtain ⟨hp1, hp2, hp3⟩ := hpromote e0 hgood hfl
      rw [if_pos (by simp [hfl])]
      refine ⟨hp1, hp2, ?_⟩
      intro x
      by_cases hx : e0.contains x = true
      · left
        rw [contains_iff] at hx
        have hxeq : x = e0.firstCodePoint := by omega
        subst hxeq
        exact hp3
      · right
        exact hx
    · rw [if_neg (by simp [hfl])]
      exact ⟨rfl, rfl, fun x => Or.inl rfl⟩
  refine ⟨?_, ?_, ?_⟩
  · intro e he
    rw [entriesFromRunsG] at he
    obtain ⟨e0, he0, hmapped⟩ := List.mem_map.1 he
    obtain ⟨hm1, hm2, _⟩ := hmap e0 he0
    obtain ⟨_, hwf1, hwf2⟩ := g1 e0 he0
    rw [← hmapped, hm1, hm2]
    exact ⟨hwf1, hwf2⟩
  · intro e he x hx
    rw [entriesFromRunsG] at he
    obtain ⟨e0, he0, hmapped⟩ := List.mem_map.1 he
    obtain ⟨hm1, hm2, hm3⟩ := hmap e0 he0
    rw [← hmapped] at hx ⊢
    have hx0 : e0.contains x = true := by
      rw [contains_iff] at hx ⊢
      rw [hm1, hm2] at hx
      exact hx
    rcases g2 e0 he0 x hx0 with ⟨c, hc, _⟩ | ⟨r, hr, hrx, hrpv⟩
    · cases hc
    · rcases hm3 x with hpvx | hbad
      · exact ⟨r, hr, hrx, by rw [hpvx, hrpv]⟩
      · exact absurd hx0 hbad
  · intro r hr x hx
    obtain ⟨e0, he0, hex⟩ := g3 r hr x hx
    obtain ⟨hm1, hm2, _⟩ := hmap e0 he0
    refine ⟨if e0.firstCodePoint == e0.lastCodePoint then promote e0 else e0,
      List.mem_map_of_mem _ he0, ?_⟩
    rw [contains_iff, hm1, hm2]
    rw [contains_iff] at hex
    exact hex

end Puaa
namespace Puaa

theorem sortedMap_keys_sublist (keep : α → Bool) (m : List (Nat × Option α)) :
    ((m.filterMap fun it => it.2.bind fun v =>
      if keep v then some (it.1, v) else none).map Prod.fst).Sublist (m.map Prod.fst) := by
  induction m with
  | nil => simp
  | cons it rest ih =>
    obtain ⟨cp, optv⟩ := it
    cases optv with
    | none =>
      simp only [List.filterMap_cons, Option.none_bind]
      exact ih.cons _
    | some v =>
      by_cases hk : keep v
      · simp only [List.filterMap_cons, Option.some_bind, hk, if_true, List.map_cons]
        exact ih.cons₂ _
      · simp only [List.filterMap_cons, Option.some_bind, hk, if_false]
        exact ih.cons _

theorem sortedMap_mem (keep : α → Bool) (m : List (Nat × Option α)) (p : Nat × α) :
    p ∈ sortedMap keep m ↔ (p.1, some p.2) ∈ m ∧ keep p.2 = true := by
  rw [sortedMap, (List.perm_insertionSort _ _).mem_iff, List.mem_filterMap]
  constructor
  · rintro ⟨⟨cp, optv⟩, hmem, hf⟩
    cases optv with
    | none => simp at hf
    | some v =>
      simp only [Option.some_bind] at hf
      split_ifs at hf with hk
      · cases hf
        exact ⟨hmem, hk⟩
  · rintro ⟨hmem, hk⟩
    exact ⟨(p.1, some p.2), hmem, by simp [hk]⟩

theorem sortedMap_pairwise (keep : α → Bool) (m : List (Nat × Option α))
    (h : (m.map Prod.fst).Nodup) :
    (sortedMap keep m).Pairwise fun a b => a.1 < b.1 := by
  haveI : IsTotal (Nat × α) fun a b => a.1 ≤ b.1 := ⟨fun a b => Nat.le_total a.1 b.1⟩
  haveI : IsTrans (Nat × α) fun a b => a.1 ≤ b.1 := ⟨fun a b c h1 h2 => le_trans h1 h2⟩
  have hsorted : (sortedMap keep m).Pairwise fun a b => a.1 ≤ b.1 :=
    List.sorted_insertionSort _ _
  have hnd : ((sortedMap keep m).map Prod.fst).Nodup := by
    have h1 := h.sublist (sortedMap_keys_sublist keep m)
    have hperm := (List.perm_insertionSort (fun a b : Nat × α => a.1 ≤ b.1)
      (m.filterMap fun it => it.2.bind fun v => if keep v then some (it.1, v) else none)).map
      Prod.fst
    exact (hperm.nodup_iff).2 h1
  have hne : (sortedMap keep m).Pairwise fun a b => a.1 ≠ b.1 := List.pairwise_map.1 hnd
  exact (hsorted.and hne).imp fun hab => lt_of_le_of_ne hab.1 hab.2

theorem pairwise_lt_key_unique {α : Type} {l : List (Nat × α)}
    (h : l.Pairwise fun a b => a.1 < b.1)
    {x : Nat} {a b : α} (ha : (x, a) ∈ l) (hb : (x, b) ∈ l) : a = b := by
  induction l with
  | nil => cases ha
  | cons p rest ih =>
    obtain ⟨hhead, htail⟩ := List.pairwise_cons.1 h
    rcases List.mem_cons.1 ha with ha1 | ha2 <;> rcases List.mem_cons.1 hb with hb1 | hb2
    · rw [← hb1] at ha1
      injection ha1 with h1 h2
    · have := hhead _ hb2
      rw [← ha1] at this
      simp at this
    · have := hhead _ ha2
      rw [← hb1] at this
      simp at this
    · exact ih htail ha2 hb2

end Puaa
namespace Puaa

theorem entriesFromMapG_spec {α : Type} (keep : α → Bool) (S : Nat → Nat → α → PuaaEntry)
    (toVal : α → PyVal) (render : α → Option PyStr) (good : PuaaEntry → Prop)
    (hSfirst : ∀ cp v, (S cp cp v).firstCodePoint = cp)
    (hSlast : ∀ cp v, (S cp cp v).lastCodePoint = cp)
    (hSpv : ∀ cp v x, (S cp cp v).propertyValue x = render v)
    (hSgood : ∀ cp v, good (S cp cp v))
    (happ : ∀ e e' cp v, good e → appendToEntry (some e) cp (toVal v) = some e' →
      good e' ∧ (∀ x, e'.propertyValue x = e.propertyValue x) ∧
        e.propertyValue cp = render v)
    (m : List (Nat × Option α)) (hnodup : (m.map Prod.fst).Nodup) :
    (∀ e ∈ entriesFromMapG keep S toVal m,
        good e ∧ e.firstCodePoint ≤ e.lastCodePoint ∧
        e.firstCodePoint >>> 16 = e.lastCodePoint >>> 16) ∧
    (∀ cp, (∃ e ∈ entriesFromMapG keep S toVal m, e.contains cp = true) ↔
        ∃ v, (cp, some v) ∈ m ∧ keep v = true) ∧
    (∀ cp v, (cp, some v) ∈ m → keep v = true →
        ∀ e ∈ entriesFromMapG keep S toVal m, e.contains cp = true →
          e.propertyValue cp = render v) ∧
    (entriesFromMapG keep S toVal m).Pairwise fun a b =>
      a.lastCodePoint < b.firstCodePoint := by
  have hpw := sortedMap_pairwise keep m hnodup
  obtain ⟨g1, g2, g3, g6, g5⟩ := mapRunsGo_rel S toVal render good hSfirst hSlast hSpv hSgood
    happ (sortedMap keep m) none hpw
    (by intro c hc; cases hc) (by intro c hc; cases hc)
  rw [entriesFromMapG]
  refine ⟨g1, ?_, ?_, g5⟩
  · intro cp
    constructor
    · rintro ⟨e, he, hx⟩
      rcases g2 e he cp hx with ⟨c, hc, _⟩ | ⟨p, hp, hpx, _⟩
      · cases hc
      · obtain ⟨hm, hk⟩ := (sortedMap_mem keep m p).1 hp
        rw [hpx] at hm
        exact ⟨p.2, hm, hk⟩
    · rintro ⟨v, hm, hk⟩
      exact g3 (cp, v) ((sortedMap_mem keep m (cp, v)).2 ⟨hm, hk⟩)
  · intro cp v hm hk e he hx
    rcases g2 e he cp hx with ⟨c, hc, _⟩ | ⟨p, hp, hpx, hppv⟩
    · cases hc
    · have hpitems := hp
      have hvitems : (cp, v) ∈ sortedMap keep m := (sortedMap_mem keep m (cp, v)).2 ⟨hm, hk⟩
      obtain ⟨px, pv⟩ := p
      simp only at hpx
      subst hpx
      have := pairwise_lt_key_unique hpw hp hvitems
      subst this
      exact hppv

end Puaa
namespace Puaa

theorem entriesFromBooleanMap_spec (m : List (Nat × Option Bool))
    (hnodup : (m.map Prod.fst).Nodup) :
    (∀ e ∈ entriesFromBooleanMap m,
        e.firstCodePoint ≤ e.lastCodePoint ∧
        e.firstCodePoint >>> 16 = e.lastCodePoint >>> 16) ∧
    (∀ cp, (∃ e ∈ entriesFromBooleanMap m, e.contains cp = true) ↔
        ∃ v, (cp, some v) ∈ m) ∧
    (∀ cp v, (cp, some v) ∈ m →
        ∀ e ∈ entriesFromBooleanMap m, e.contains cp = true →
          e.propertyValue cp = some (if v then [0x59] else [0x4E])) := by
  obtain ⟨g1, g2, g3, _⟩ := entriesFromMapG_spec (fun _ => true)
    (fun f l v => .boolean f l v) PyVal.bool
    (fun v => some (if v then [0x59] else [0x4E]))
    (fun e => ∃ f l b, e = .boolean f l b)
    (fun cp v => rfl) (fun cp v => rfl) (fun cp v x => rfl)
    (fun cp v => ⟨cp, cp, v, rfl⟩)
    (by
      rintro e e' cp v ⟨f, l, b, rfl⟩ h
      simp only [appendToEntry] at h
      split_ifs at h with h1 h2 hb <;> cases h
      refine ⟨⟨f, l + 1, b, rfl⟩, fun x => rfl, ?_⟩
      simp only [beq_iff_eq] at hb
      rw [hb]
      rfl)
    m hnodup
  refine ⟨fun e he => ⟨(g1 e he).2.1, (g1 e he).2.2⟩, ?_, ?_⟩
  · intro cp
    rw [entriesFromBooleanMap, g2 cp]
    simp
  · intro cp v hm e he hx
    exact g3 cp v hm rfl e he hx

end Puaa

namespace Puaa

theorem entriesFromDecimalMap_spec (m : List (Nat × Option Int))
    (hnodup : (m.map Prod.fst).Nodup) :
    (∀ e ∈ entriesFromDecimalMap m,
        e.firstCodePoint ≤ e.lastCodePoint ∧
        e.firstCodePoint >>> 16 = e.lastCodePoint >>> 16) ∧
    (∀ cp, (∃ e ∈ entriesFromDecimalMap m, e.contains cp = true) ↔
        ∃ v, (cp, some v) ∈ m) ∧
    (∀ cp v, (cp, some v) ∈ m →
        ∀ e ∈ entriesFromDecimalMap m, e.contains cp = true →
          e.propertyValue cp = some (decRepr v)) := by
  obtain ⟨g1, g2, g3, _⟩ := entriesFromMapG_spec (fun _ => true)
    (fun f l v => .decimal f l v) PyVal.int
    (fun v => some (decRepr v))
    (fun e => ∃ f l d, e = .decimal f l d)
    (fun cp v => rfl) (fun cp v => rfl) (fun cp v x => rfl)
    (fun cp v => ⟨cp, cp, v, rfl⟩)
    (by
      rintro e e' cp v ⟨f, l, d, rfl⟩ h
      simp only [appendToEntry] at h
      split_ifs at h with h1 h2 hb <;> cases h
      refine ⟨⟨f, l + 1, d, rfl⟩, fun x => rfl, ?_⟩
      simp only [beq_iff_eq] at hb
      rw [hb]
      rfl)
    m hnodup
  refine ⟨fun e he => ⟨(g1 e he).2.1, (g1 e he).2.2⟩, ?_, ?_⟩
  · intro cp
    rw [entriesFromDecimalMap, g2 cp]
    simp
  · intro cp v hm e he hx
    exact g3 cp v hm rfl e he hx

theorem entriesFromHexSequenceMap_spec (m : List (Nat × Option (List Nat)))
    (hnodup : (m.map Prod.fst).Nodup) :
    (∀ e ∈ entriesFromHexSequenceMap m,
        e.firstCodePoint ≤ e.lastCodePoint ∧
        e.firstCodePoint >>> 16 = e.lastCodePoint >>> 16) ∧
    (∀ cp, (∃ e ∈ entriesFromHexSequenceMap m, e.contains cp = true) ↔
        ∃ v, (cp, some v) ∈ m) ∧
    (∀ cp v, (cp, some v) ∈ m →
        ∀ e ∈ entriesFromHexSequenceMap m, e.contains cp = true →
          e.propertyValue cp = some (joinSpace (v.map hex4))) := by
  obtain ⟨g1, g2, g3, _⟩ := entriesFromMapG_spec (fun _ => true)
    (fun f l v => .hexSequence f l v) PyVal.nats
    (fun v => some (joinSpace (v.map hex4)))
    (fun e => ∃ f l vs, e = .hexSequence f l vs)
    (fun cp v => rfl) (fun cp v => rfl) (fun cp v x => rfl)
    (fun cp v => ⟨cp, cp, v, rfl⟩)
    (by
      rintro e e' cp v ⟨f, l, vs, rfl⟩ h
      simp only [appendToEntry] at h
      split_ifs at h with h1 h2 hb <;> cases h
      refine ⟨⟨f, l + 1, vs, rfl⟩, fun x => rfl, ?_⟩
      simp only [beq_iff_eq] at hb
      rw [hb]
      rfl)
    m hnodup
  refine ⟨fun e he => ⟨(g1 e he).2.1, (g1 e he).2.2⟩, ?_, ?_⟩
  · intro cp
    rw [entriesFromHexSequenceMap, g2 cp]
    simp
  · intro cp v hm e he hx
    exact g3 cp v hm rfl e he hx

end Puaa

namespace Puaa

theorem entriesFromStringMap_spec (m : List (Nat × Option PyStr))
    (hnodup : (m.map Prod.fst).Nodup) :
    (∀ e ∈ entriesFromStringMap m,
        e.firstCodePoint ≤ e.lastCodePoint ∧
        e.firstCodePoint >>> 16 = e.lastCodePoint >>> 16) ∧
    (∀ cp, (∃ e ∈ entriesFromStringMap m, e.contains cp = true) ↔
        ∃ v, (cp, some v) ∈ m ∧ v ≠ []) ∧
    (∀ cp v, (cp, some v) ∈ m → v ≠ [] →
        ∀ e ∈ entriesFromStringMap m, e.contains cp = true →
          e.propertyValue cp = some v) := by
  obtain ⟨g1, g2, g3, g5⟩ := entriesFromMapG_spec (fun s : PyStr => !s.isEmpty)
    (fun f l v => .single f l (some v)) PyVal.str (fun s => some s)
    (fun e => ∃ f l s, e = .single f l (some s))
    (fun cp v => rfl) (fun cp v => rfl) (fun cp v x => rfl)
    (fun cp v => ⟨cp, cp, v, rfl⟩)
    (by
      rintro e e' cp v ⟨f, l, s, rfl⟩ h
      simp only [appendToEntry] at h
      split_ifs at h with h1 h2 hb <;> cases h
      refine ⟨⟨f, l + 1, s, rfl⟩, fun x => rfl, ?_⟩
      simp only [beq_iff_eq, Option.some_inj] at hb
      rw [hb]
      rfl)
    m hnodup
  obtain ⟨h1, h2, h3⟩ := entriesFromRunsG_rel
    (fun f l v => .multiple f l [some v])
    (fun e => match e with | .single _ _ (some s) => s | _ => [])
    PyVal.str (fun s => some s)
    (fun e => ∃ f l vs, e = PuaaEntry.multiple f l vs ∧ vs.length = l + 1 - f ∧ f ≤ l)
    (fun e => match e with | .multiple f l vs => .single f l (vs.getD 0 none) | e => e)
    (fun cp v => rfl) (fun cp v => rfl)
    (fun cp v => by simp [PuaaEntry.propertyValue])
    (fun cp v => ⟨cp, cp, [some v], rfl, by simp, le_refl cp⟩)
    (by
      rintro e e' cp v ⟨f, l, vs, rfl, hlen, hfl⟩ h
      simp only [appendToEntry] at h
      split_ifs at h with hg1 hg2 <;> cases h
      refine ⟨⟨f, l + 1, vs ++ [some v], rfl, by simp; omega, by omega⟩, ?_, ?_⟩
      · intro x hx
        rw [contains_iff] at hx
        simp only [PuaaEntry.firstCodePoint, PuaaEntry.lastCodePoint] at hx
        simp only [PuaaEntry.propertyValue]
        rw [List.get?_append (by omega)]
      · simp only [PuaaEntry.propertyValue, PuaaEntry.lastCodePoint] at hg2 ⊢
        simp only [beq_iff_eq, bne_iff_ne, ne_eq, not_not] at hg2
        rw [← hg2]
        have : l + 1 - f = vs.length := by omega
        rw [this, List.get?_concat_length]
        rfl)
    (by
      rintro e ⟨f, l, vs, rfl, hlen, hfl⟩ hfleq
      refine ⟨rfl, rfl, ?_⟩
      simp [PuaaEntry.propertyValue, PuaaEntry.firstCodePoint, Nat.sub_self,
        List.getD_eq_getElem?_getD, List.get?_eq_getElem?])
    (entriesFromMapG (fun s : PyStr => !s.isEmpty)
      (fun f l v => .single f l (some v)) PyVal.str m)
    (fun r hr => ⟨(g1 r hr).2.1, (g1 r hr).2.2⟩)
    (by
      intro r hr hfl
      obtain ⟨⟨f, l, s, rfl⟩, _, _⟩ := g1 r hr
      rfl)
    g5
  refine ⟨?_, ?_, ?_⟩
  · intro e he
    exact h1 e he
  · intro cp
    constructor
    · rintro ⟨e, he, hx⟩
      obtain ⟨r, hr, hrx, _⟩ := h2 e he cp hx
      have := (g2 cp).1 ⟨r, hr, hrx⟩
      simpa using this
    · rintro ⟨v, hm, hne⟩
      obtain ⟨r, hr, hrx⟩ := (g2 cp).2 ⟨v, hm, by simpa using hne⟩
      exact h3 r hr cp hrx
  · intro cp v hm hne e he hx
    obtain ⟨r, hr, hrx, hrpv⟩ := h2 e he cp hx
    rw [hrpv]
    exact g3 cp v hm (by simpa using hne) r hr hrx

end Puaa

namespace Puaa

theorem entriesFromHexadecimalMap_spec (m : List (Nat × Option Nat))
    (hnodup : (m.map Prod.fst).Nodup) :
    (∀ e ∈ entriesFromHexadecimalMap m,
        e.firstCodePoint ≤ e.lastCodePoint ∧
        e.firstCodePoint >>> 16 = e.lastCodePoint >>> 16) ∧
    (∀ cp, (∃ e ∈ entriesFromHexadecimalMap m, e.contains cp = true) ↔
        ∃ v, (cp, some v) ∈ m) ∧
    (∀ cp v, (cp, some v) ∈ m →
        ∀ e ∈ entriesFromHexadecimalMap m, e.contains cp = true →
          e.propertyValue cp = some (hex4 v)) := by
  obtain ⟨g1, g2, g3, g5⟩ := entriesFromMapG_spec (fun _ : Nat => true)
    (fun f l v => .hexadecimal f l v) PyVal.nat (fun v => some (hex4 v))
    (fun e => ∃ f l v, e = .hexadecimal f l v)
    (fun cp v => rfl) (fun cp v => rfl) (fun cp v x => rfl)
    (fun cp v => ⟨cp, cp, v, rfl⟩)
    (by
      rintro e e' cp v ⟨f, l, w, rfl⟩ h
      simp only [appendToEntry] at h
      split_ifs at h with h1 h2 hb <;> cases h
      refine ⟨⟨f, l + 1, w, rfl⟩, fun x => rfl, ?_⟩
      simp only [beq_iff_eq] at hb
      rw [hb]
      rfl)
    m hnodup
  obtain ⟨h1, h2, h3⟩ := entriesFromRunsG_rel
    (fun f l v => .hexMultiple f l [v])
    (fun e => match e with | .hexadecimal _ _ v => v | _ => 0)
    PyVal.nat (fun v => some (hex4 v))
    (fun e => ∃ f l vs, e = PuaaEntry.hexMultiple f l vs ∧ vs.length = l + 1 - f ∧ f ≤ l)
    (fun e => match e with | .hexMultiple f l vs => .hexadecimal f l (vs.getD 0 0) | e => e)
    (fun cp v => rfl) (fun cp v => rfl)
    (fun cp v => by simp [PuaaEntry.propertyValue])
    (fun cp v => ⟨cp, cp, [v], rfl, by simp, le_refl cp⟩)
    (by
      rintro e e' cp v ⟨f, l, vs, rfl, hlen, hfl⟩ h
      simp only [appendToEntry] at h
      split_ifs at h with hg1 hg2 <;> cases h
      refine ⟨⟨f, l + 1, vs ++ [v], rfl, by simp; omega, by omega⟩, ?_, ?_⟩
      · intro x hx
        rw [contains_iff] at hx
        simp only [PuaaEntry.firstCodePoint, PuaaEntry.lastCodePoint] at hx
        simp only [PuaaEntry.propertyValue]
        rw [List.get?_append (by omega)]
      · simp only [PuaaEntry.propertyValue, PuaaEntry.lastCodePoint] at hg2 ⊢
        simp only [bne_iff_ne, ne_eq, not_not] at hg2
        rw [← hg2]
        have hl : l + 1 - f = vs.length := by omega
        rw [hl, List.get?_concat_length]
        rfl)
    (by
      rintro e ⟨f, l, vs, rfl, hlen, hfl⟩ hfleq
      refine ⟨rfl, rfl, ?_⟩
      simp only [PuaaEntry.propertyValue, PuaaEntry.firstCodePoint, Nat.sub_self,
        List.getD_eq_getElem?_getD, List.get?_eq_getElem?]
      rcases hv : vs[0]? with _ | a
      · rw [List.getElem?_eq_none_iff] at hv
        omega
      · simp [hv])
    (entriesFromMapG (fun _ : Nat => true)
      (fun f l v => .hexadecimal f l v) PyVal.nat m)
    (fun r hr => ⟨(g1 r hr).2.1, (g1 r hr).2.2⟩)
    (by
      intro r hr hfl
      obtain ⟨⟨f, l, w, rfl⟩, _, _⟩ := g1 r hr
      rfl)
    g5
  refine ⟨?_, ?_, ?_⟩
  · intro e he
    exact h1 e he
  · intro cp
    constructor
    · rintro ⟨e, he, hx⟩
      obtain ⟨r, hr, hrx, _⟩ := h2 e he cp hx
      have := (g2 cp).1 ⟨r, hr, hrx⟩
      simpa using this
    · rintro ⟨v, hm⟩
      obtain ⟨r, hr, hrx⟩ := (g2 cp).2 ⟨v, hm, rfl⟩
      exact h3 r hr cp hrx
  · intro cp v hm e he hx
    obtain ⟨r, hr, hrx, hrpv⟩ := h2 e he cp hx
    rw [hrpv]
    exact g3 cp v hm rfl r hr hrx

end Puaa
namespace Puaa

/-- Loop of the Python single-character str.split. -/
def pySplitCharGo (c : Nat) : PyStr → PyStr → List PyStr
  | [], acc => [acc.reverse]
  | x :: rest, acc =>
    if x == c then acc.reverse :: pySplitCharGo c rest []
    else pySplitCharGo c rest (x :: acc)

/-- Python str.split(sep) for a one-character separator: split at every
    occurrence, keeping empty fields. -/
def pySplitChar (c : Nat) (s : PyStr) : List PyStr := pySplitCharGo c s []

/-- Python whitespace test used by str.strip. -/
def pyIsSpace (c : Nat) : Bool :=
  c == 0x20 || c == 0x09 || c == 0x0A || c == 0x0D || c == 0x0B || c == 0x0C

/-- Python str.strip: drop whitespace from both ends. -/
def pyStrip (s : PyStr) : PyStr :=
  ((s.dropWhile pyIsSpace).reverse.dropWhile pyIsSpace).reverse

/-- splitLine of pypuaa.py: cut the comment, strip, split on
    semicolons; an empty line yields None. -/
def splitLine (s : PyStr) : Option (List PyStr) :=
  let t := pyStrip ((pySplitChar 0x23 s).headD [])
  if t.isEmpty then none else some (pySplitChar 0x3B t)

/-- Loop of the regex split on runs of dots used by splitRange: a state
    machine over the characters, where the flag records that the
    previous character belonged to a separator run. -/
def splitDotsGo : PyStr → PyStr → List PyStr → Bool → List PyStr
  | [], cur, out, _ => (cur.reverse :: out).reverse
  | x :: rest, cur, out, inSep =>
    if x == 0x2E then
      if inSep then splitDotsGo rest cur out true
      else splitDotsGo rest [] (cur.reverse :: out) true
    else splitDotsGo rest (x :: cur) out false

/-- Python re.split of a maximal run of dots. -/
def splitDots (s : PyStr) : List PyStr := splitDotsGo s [] [] false

/-- Value of one hexadecimal digit character. -/
def hexDigitVal (c : Nat) : Option Nat :=
  if 0x30 ≤ c ∧ c ≤ 0x39 then some (c - 0x30)
  else if 0x41 ≤ c ∧ c ≤ 0x46 then some (c - 0x41 + 10)
  else if 0x61 ≤ c ∧ c ≤ 0x66 then some (c - 0x61 + 10)
  else none

/-- Python int(s, 16) restricted to unsigned values: strip, then parse a
    nonempty run of hexadecimal digits (ValueError becomes None; the
    sign forms do not occur in the claims). -/
def pyIntHex (s : PyStr) : Option Nat :=
  let t := pyStrip s
  if t.isEmpty then none
  else t.foldlM (fun acc c => (hexDigitVal c).map fun d => acc * 16 + d) 0

/-- splitRange of pypuaa.py: HEX or HEX..HEX. -/
def splitRange (s : PyStr) : Option (Nat × Nat) :=
  let ep := splitDots s
  match pyIntHex (pyStrip (ep.headD [])) with
  | none => none
  | some start =>
    if ep.length < 2 then some (start, start)
    else
      match pyIntHex (pyStrip (ep.getD 1 [])) with
      | none => none
      | some stop => some (start, stop)

/-- One line of BlocksCodec.compile: parse the range and append a Single
    entry with the range exactly as written in the file (lines that do
    not parse are skipped). -/
def blocksCompileLine (line : PyStr) : Option PuaaEntry :=
  match splitLine line with
  | none => none
  | some fields =>
    if fields.length < 2 then none
    else
      match splitRange (fields.headD []) with
      | none => none
      | some (fcp, lcp) => some (.single fcp lcp (some (pyStrip (fields.getD 1 []))))

/-- BlocksCodec.compile of pypuaa.py: one Single entry per parsed line. -/
def blocksCodecCompile (lines : List PyStr) : List PuaaEntry :=
  lines.filterMap blocksCompileLine

end Puaa
namespace Puaa

theorem or_shift16 {pl f : Nat} (hf : f < 0x10000) : ((pl <<< 16) ||| f) >>> 16 = pl := by
  rw [Nat.shiftLeft_eq, Nat.shiftRight_eq_div_pow]
  have h := Nat.mul_add_lt_is_or (i := 16) (b := f) (a := pl) (by norm_num; omega)
  norm_num at h ⊢
  rw [Nat.mul_comm] at h
  rw [← h]
  omega

theorem readU16_spec {data : Bytes} {o n : Nat} (hd : ∀ b ∈ data, b < 256)
    (h : readU16 data o = some n) : n < 0x10000 := by
  simp only [readU16, Option.bind_eq_some, Option.some_inj, bind, pure] at h
  obtain ⟨a, ha, b, hb, hn⟩ := h
  have ha2 := hd a (List.getElem?_mem (by simpa using ha))
  have hb2 := hd b (List.getElem?_mem (by simpa using hb))
  have := Nat.mul_add_lt_is_or (i := 8) (b := b) (a := a) (by omega)
  rw [← hn, Nat.shiftLeft_eq]
  norm_num at this ⊢
  rw [Nat.mul_comm] at this
  rw [← this]
  omega

end Puaa

namespace Puaa

theorem decompEntry_plane {data : Bytes} {sho j : Nat} {e : PuaaEntry}
    (hd : ∀ b ∈ data, b < 256)
    (h : decompEntry data sho j = some (some e)) :
    e.firstCodePoint >>> 16 = e.lastCodePoint >>> 16 := by
  simp only [decompEntry, Option.bind_eq_some, Option.some_inj, bind, pure] at h
  obtain ⟨et, het, pl, hpl, f, hf, l, hl, ed, hed, h⟩ := h
  have hf16 := readU16_spec hd hf
  have hl16 := readU16_spec hd hl
  have goal1 : ∀ v : Option PyStr,
      (PuaaEntry.single (pl <<< 16 ||| f) (pl <<< 16 ||| l) v).firstCodePoint >>> 16 =
      (PuaaEntry.single (pl <<< 16 ||| f) (pl <<< 16 ||| l) v).lastCodePoint >>> 16 := by
    intro v
    simp only [PuaaEntry.firstCodePoint, PuaaEntry.lastCodePoint]
    rw [or_shift16 hf16, or_shift16 hl16]
  by_cases hc0 : (et == SINGLE) = true
  · rw [if_pos hc0] at h
    rw [Option.bind_eq_some] at h
    obtain ⟨v, _, h⟩ := h
    rw [Option.some_inj, Option.some_inj] at h
    subst h
    exact goal1 v
  · rw [if_neg hc0] at h
    by_cases hc1 : (et == MULTIPLE) = true
    · rw [if_pos hc1] at h
      rw [Option.bind_eq_some] at h
      obtain ⟨ints, _, h⟩ := h
      rw [Option.bind_eq_some] at h
      obtain ⟨vs, _, h⟩ := h
      rw [Option.some_inj, Option.some_inj] at h
      subst h
      simp only [PuaaEntry.firstCodePoint, PuaaEntry.lastCodePoint]
      rw [or_shift16 hf16, or_shift16 hl16]
    · rw [if_neg hc1] at h
      by_cases hc2 : (et == BOOLEAN) = true
      · rw [if_pos hc2] at h
        rw [Option.some_inj, Option.some_inj] at h
        subst h
        simp only [PuaaEntry.firstCodePoint, PuaaEntry.lastCodePoint]
        rw [or_shift16 hf16, or_shift16 hl16]
      · rw [if_neg hc2] at h
        by_cases hc3 : (et == DECIMAL) = true
        · rw [if_pos hc3] at h
          rw [Option.bind_eq_some] at h
          obtain ⟨v, _, h⟩ := h
          rw [Option.some_inj, Option.some_inj] at h
          subst h
          simp only [PuaaEntry.firstCodePoint, PuaaEntry.lastCodePoint]
          rw [or_shift16 hf16, or_shift16 hl16]
        · rw [if_neg hc3] at h
          by_cases hc4 : (et == HEXADECIMAL) = true
          · rw [if_pos hc4] at h
            rw [Option.bind_eq_some] at h
            obtain ⟨v, _, h⟩ := h
            rw [Option.some_inj, Option.some_inj] at h
            subst h
            simp only [PuaaEntry.firstCodePoint, PuaaEntry.lastCodePoint]
            rw [or_shift16 hf16, or_shift16 hl16]
          · rw [if_neg hc4] at h
            by_cases hc5 : (et == HEXMULTIPLE) = true
            · rw [if_pos hc5] at h
              rw [Option.bind_eq_some] at h
              obtain ⟨v, _, h⟩ := h
              rw [Option.some_inj, Option.some_inj] at h
              subst h
              simp only [PuaaEntry.firstCodePoint, PuaaEntry.lastCodePoint]
              rw [or_shift16 hf16, or_shift16 hl16]
            · rw [if_neg hc5] at h
              by_cases hc6 : (et == HEXSEQUENCE) = true
              · rw [if_pos hc6] at h
                rw [Option.bind_eq_some] at h
                obtain ⟨v, _, h⟩ := h
                rw [Option.some_inj, Option.some_inj] at h
                subst h
                simp only [PuaaEntry.firstCodePoint, PuaaEntry.lastCodePoint]
                rw [or_shift16 hf16, or_shift16 hl16]
              · rw [if_neg hc6] at h
                by_cases hc7 : (et == CASEMAPPING) = true
                · rw [if_pos hc7] at h
                  rw [Option.bind_eq_some] at h
                  obtain ⟨vals, _, h⟩ := h
                  rcases hgl : vals.getLast? with _ | lastv
                  · rw [hgl] at h
                    simp at h
                  · rw [hgl] at h
                    rw [Option.bind_eq_some] at h
                    obtain ⟨c, _, h⟩ := h
                    rw [Option.some_inj, Option.some_inj] at h
                    subst h
                    simp only [PuaaEntry.firstCodePoint, PuaaEntry.lastCodePoint]
                    rw [or_shift16 hf16, or_shift16 hl16]
                · rw [if_neg hc7] at h
                  by_cases hc8 : (et == NAMEALIAS) = true
                  · rw [if_pos hc8] at h
                    rw [Option.bind_eq_some] at h
                    obtain ⟨ints, _, h⟩ := h
                    rw [Option.bind_eq_some] at h
                    obtain ⟨vs, _, h⟩ := h
                    rw [Option.bind_eq_some] at h
                    obtain ⟨v0, _, h⟩ := h
                    rw [Option.bind_eq_some] at h
                    obtain ⟨v1, _, h⟩ := h
                    rw [Option.some_inj, Option.some_inj] at h
                    subst h
                    simp only [PuaaEntry.firstCodePoint, PuaaEntry.lastCodePoint]
                    rw [or_shift16 hf16, or_shift16 hl16]
                  · rw [if_neg hc8] at h
                    rw [Option.some_inj] at h
                    cases h

end Puaa

namespace Puaa

/-- Claim C6 (counterexample): BlocksCodec.compile copies the range of
    an input line verbatim; the line FFFF..10000;X produces an entry
    that straddles the 64K plane boundary, violating the claimed
    invariant for entries constructed by the UCD text codecs. -/
theorem plane_invariant_fails_for_blocks_codec :
    blocksCodecCompile
        [[0x46, 0x46, 0x46, 0x46, 0x2E, 0x2E, 0x31, 0x30, 0x30, 0x30, 0x30, 0x3B, 0x58]]
      = [.single 0xFFFF 0x10000 (some [0x58])] ∧
    (PuaaEntry.single 0xFFFF 0x10000 (some [0x58])).firstCodePoint >>> 16 ≠
      (PuaaEntry.single 0xFFFF 0x10000 (some [0x58])).lastCodePoint >>> 16 := by
  decide

/-- Claim C6 (amended): entries built by the five map-based constructors
    satisfy first <= last <= 0x10FFFF and the plane invariant whenever
    the source map's code points are in range; appendToEntry run merging
    extends the range by one point and preserves the plane invariant
    (the 64K guard); and every entry read back by the binary decompiler
    lies within a single plane.  Codecs that copy ranges verbatim from
    the input file (BlocksCodec) uphold the invariant only when the
    input line does, as the counterexample shows. -/
theorem entry_range_invariants :
    (∀ (m : List (Nat × Option PyStr)), (m.map Prod.fst).Nodup →
      (∀ p ∈ m, p.1 ≤ 0x10FFFF) →
      ∀ e ∈ entriesFromStringMap m,
        e.firstCodePoint ≤ e.lastCodePoint ∧ e.lastCodePoint ≤ 0x10FFFF ∧
        e.firstCodePoint >>> 16 = e.lastCodePoint >>> 16) ∧
    (∀ (m : List (Nat × Option Bool)), (m.map Prod.fst).Nodup →
      (∀ p ∈ m, p.1 ≤ 0x10FFFF) →
      ∀ e ∈ entriesFromBooleanMap m,
        e.firstCodePoint ≤ e.lastCodePoint ∧ e.lastCodePoint ≤ 0x10FFFF ∧
        e.firstCodePoint >>> 16 = e.lastCodePoint >>> 16) ∧
    (∀ (m : List (Nat × Option Int)), (m.map Prod.fst).Nodup →
      (∀ p ∈ m, p.1 ≤ 0x10FFFF) →
      ∀ e ∈ entriesFromDecimalMap m,
        e.firstCodePoint ≤ e.lastCodePoint ∧ e.lastCodePoint ≤ 0x10FFFF ∧
        e.firstCodePoint >>> 16 = e.lastCodePoint >>> 16) ∧
    (∀ (m : List (Nat × Option Nat)), (m.map Prod.fst).Nodup →
      (∀ p ∈ m, p.1 ≤ 0x10FFFF) →
      ∀ e ∈ entriesFromHexadecimalMap m,
        e.firstCodePoint ≤ e.lastCodePoint ∧ e.lastCodePoint ≤ 0x10FFFF ∧
        e.firstCodePoint >>> 16 = e.lastCodePoint >>> 16) ∧
    (∀ (m : List (Nat × Option (List Nat))), (m.map Prod.fst).Nodup →
      (∀ p ∈ m, p.1 ≤ 0x10FFFF) →
      ∀ e ∈ entriesFromHexSequenceMap m,
        e.firstCodePoint ≤ e.lastCodePoint ∧ e.lastCodePoint ≤ 0x10FFFF ∧
        e.firstCodePoint >>> 16 = e.lastCodePoint >>> 16) ∧
    (∀ (cur : Option PuaaEntry) (cp : Nat) (v : PyVal) (e' : PuaaEntry),
      appendToEntry cur cp v = some e' →
      ∃ e, cur = some e ∧ e'.firstCodePoint = e.firstCodePoint ∧
        e'.lastCodePoint = e.lastCodePoint + 1 ∧
        (e.firstCodePoint >>> 16 = e.lastCodePoint >>> 16 →
          e'.firstCodePoint >>> 16 = e'.lastCodePoint >>> 16)) ∧
    (∀ (data : Bytes) (sho j : Nat) (e : PuaaEntry), (∀ b ∈ data, b < 256) →
      decompEntry data sho j = some (some e) →
      e.firstCodePoint >>> 16 = e.lastCodePoint >>> 16) := by
  refine ⟨?_, ?_, ?_, ?_, ?_, ?_, ?_⟩
  · intro m hnd hbound e he
    obtain ⟨g1, g2, _⟩ := entriesFromStringMap_spec m hnd
    obtain ⟨hfl, hpl⟩ := g1 e he
    have hcov : e.contains e.lastCodePoint = true := by
      rw [contains_iff]
      omega
    obtain ⟨v, hv, _⟩ := (g2 e.lastCodePoint).1 ⟨e, he, hcov⟩
    exact ⟨hfl, hbound _ hv, hpl⟩
  · intro m hnd hbound e he
    obtain ⟨g1, g2, _⟩ := entriesFromBooleanMap_spec m hnd
    obtain ⟨hfl, hpl⟩ := g1 e he
    have hcov : e.contains e.lastCodePoint = true := by
      rw [contains_iff]
      omega
    obtain ⟨v, hv⟩ := (g2 e.lastCodePoint).1 ⟨e, he, hcov⟩
    exact ⟨hfl, hbound _ hv, hpl⟩
  · intro m hnd hbound e he
    obtain ⟨g1, g2, _⟩ := entriesFromDecimalMap_spec m hnd
    obtain ⟨hfl, hpl⟩ := g1 e he
    have hcov : e.contains e.lastCodePoint = true := by
      rw [contains_iff]
      omega
    obtain ⟨v, hv⟩ := (g2 e.lastCodePoint).1 ⟨e, he, hcov⟩
    exact ⟨hfl, hbound _ hv, hpl⟩
  · intro m hnd hbound e he
    obtain ⟨g1, g2, _⟩ := entriesFromHexadecimalMap_spec m hnd
    obtain ⟨hfl, hpl⟩ := g1 e he
    have hcov : e.contains e.lastCodePoint = true := by
      rw [contains_iff]
      omega
    obtain ⟨v, hv⟩ := (g2 e.lastCodePoint).1 ⟨e, he, hcov⟩
    exact ⟨hfl, hbound _ hv, hpl⟩
  · intro m hnd hbound e he
    obtain ⟨g1, g2, _⟩ := entriesFromHexSequenceMap_spec m hnd
    obtain ⟨hfl, hpl⟩ := g1 e he
    have hcov : e.contains e.lastCodePoint = true := by
      rw [contains_iff]
      omega
    obtain ⟨v, hv⟩ := (g2 e.lastCodePoint).1 ⟨e, he, hcov⟩
    exact ⟨hfl, hbound _ hv, hpl⟩
  · intro cur cp v e' h
    cases cur with
    | none => cases h
    | some e =>
      obtain ⟨hb1, hb2, _, hb4⟩ := appendToEntry_bounds h
      refine ⟨e, rfl, hb1, hb2, ?_⟩
      intro hpl
      rw [hb1, hb2, last_succ_same_plane hb4, hpl]
  · intro data sho j e hd h
    exact decompEntry_plane hd h

/-- Witness: the range-invariant conjuncts evaluated at concrete maps,
    a concrete appendToEntry call and a concrete decompiled record. -/
theorem entry_range_invariants_witness :
    ((PuaaEntry.single 0 1 (some [65])).firstCodePoint ≤
        (PuaaEntry.single 0 1 (some [65])).lastCodePoint ∧
      (PuaaEntry.single 0 1 (some [65])).lastCodePoint ≤ 0x10FFFF ∧
      (PuaaEntry.single 0 1 (some [65])).firstCodePoint >>> 16 =
        (PuaaEntry.single 0 1 (some [65])).lastCodePoint >>> 16) ∧
    (∃ e, some (PuaaEntry.boolean 0 1 true) = some e ∧
      (PuaaEntry.boolean 0 2 true).firstCodePoint = e.firstCodePoint ∧
      (PuaaEntry.boolean 0 2 true).lastCodePoint = e.lastCodePoint + 1 ∧
      (e.firstCodePoint >>> 16 = e.lastCodePoint >>> 16 →
        (PuaaEntry.boolean 0 2 true).firstCodePoint >>> 16 =
          (PuaaEntry.boolean 0 2 true).lastCodePoint >>> 16)) ∧
    ((PuaaEntry.single 0 0 (some [0x61, 0x62])).firstCodePoint >>> 16 =
      (PuaaEntry.single 0 0 (some [0x61, 0x62])).lastCodePoint >>> 16) :=
  ⟨entry_range_invariants.1 [(0, some [65]), (1, some [65])] (by decide) (by decide)
      (PuaaEntry.single 0 1 (some [65])) (by decide),
    entry_range_invariants.2.2.2.2.2.1 (some (PuaaEntry.boolean 0 1 true)) 2 (PyVal.bool true)
      (PuaaEntry.boolean 0 2 true) (by decide),
    entry_range_invariants.2.2.2.2.2.2 nulBlob 12 0 (PuaaEntry.single 0 0 (some [0x61, 0x62]))
      (by decide) (by decide)⟩

end Puaa

namespace Puaa

/-- Claim C10: for every map, the five map-based entry constructors cover
    a code point iff the map binds it to a value that is neither None nor
    the empty string; for covered code points every covering entry yields
    exactly the canonical form of the bound value, and code points bound
    to None (or, for the string constructor, the empty string) appear in
    no entry. -/
theorem map_constructors_coverage_and_values :
    (∀ (m : List (Nat × Option PyStr)), (m.map Prod.fst).Nodup →
      (∀ cp, (∃ e ∈ entriesFromStringMap m, e.contains cp = true) ↔
          ∃ v, (cp, some v) ∈ m ∧ v ≠ []) ∧
      (∀ cp v, (cp, some v) ∈ m → v ≠ [] →
        ∀ e ∈ entriesFromStringMap m, e.contains cp = true →
          e.propertyValue cp = some v)) ∧
    (∀ (m : List (Nat × Option Bool)), (m.map Prod.fst).Nodup →
      (∀ cp, (∃ e ∈ entriesFromBooleanMap m, e.contains cp = true) ↔
          ∃ v, (cp, some v) ∈ m) ∧
      (∀ cp v, (cp, some v) ∈ m →
        ∀ e ∈ entriesFromBooleanMap m, e.contains cp = true →
          e.propertyValue cp = some (if v then [0x59] else [0x4E]))) ∧
    (∀ (m : List (Nat × Option Int)), (m.map Prod.fst).Nodup →
      (∀ cp, (∃ e ∈ entriesFromDecimalMap m, e.contains cp = true) ↔
          ∃ v, (cp, some v) ∈ m) ∧
      (∀ cp v, (cp, some v) ∈ m →
        ∀ e ∈ entriesFromDecimalMap m, e.contains cp = true →
          e.propertyValue cp = some (decRepr v))) ∧
    (∀ (m : List (Nat × Option Nat)), (m.map Prod.fst).Nodup →
      (∀ cp, (∃ e ∈ entriesFromHexadecimalMap m, e.contains cp = true) ↔
          ∃ v, (cp, some v) ∈ m) ∧
      (∀ cp v, (cp, some v) ∈ m →
        ∀ e ∈ entriesFromHexadecimalMap m, e.contains cp = true →
          e.propertyValue cp = some (hex4 v))) ∧
    (∀ (m : List (Nat × Option (List Nat))), (m.map Prod.fst).Nodup →
      (∀ cp, (∃ e ∈ entriesFromHexSequenceMap m, e.contains cp = true) ↔
          ∃ v, (cp, some v) ∈ m) ∧
      (∀ cp v, (cp, some v) ∈ m →
        ∀ e ∈ entriesFromHexSequenceMap m, e.contains cp = true →
          e.propertyValue cp = some (joinSpace (v.map hex4)))) := by
  refine ⟨?_, ?_, ?_, ?_, ?_⟩
  · intro m hnd
    obtain ⟨_, g2, g3⟩ := entriesFromStringMap_spec m hnd
    exact ⟨g2, g3⟩
  · intro m hnd
    obtain ⟨_, g2, g3⟩ := entriesFromBooleanMap_spec m hnd
    exact ⟨g2, g3⟩
  · intro m hnd
    obtain ⟨_, g2, g3⟩ := entriesFromDecimalMap_spec m hnd
    exact ⟨g2, g3⟩
  · intro m hnd
    obtain ⟨_, g2, g3⟩ := entriesFromHexadecimalMap_spec m hnd
    exact ⟨g2, g3⟩
  · intro m hnd
    obtain ⟨_, g2, g3⟩ := entriesFromHexSequenceMap_spec m hnd
    exact ⟨g2, g3⟩

/-- Witness: coverage and values at concrete maps for all five
    constructors, including a dropped empty string and a dropped None. -/
theorem map_constructors_coverage_and_values_witness :
    ((∃ e ∈ entriesFromStringMap [(0, some [65]), (1, some []), (2, none)],
        e.contains 1 = true) ↔
      ∃ v, ((1 : Nat), some v) ∈ [(0, some [65]), (1, some []), (2, none)] ∧ v ≠ []) ∧
    ((∃ e ∈ entriesFromBooleanMap [(3, some true)], e.contains 3 = true) ↔
      ∃ v, ((3 : Nat), some v) ∈ [(3, some true)]) ∧
    ((∃ e ∈ entriesFromDecimalMap [(1, some (-2 : Int))], e.contains 1 = true) ↔
      ∃ v, ((1 : Nat), some v) ∈ [(1, some (-2 : Int))]) ∧
    ((∃ e ∈ entriesFromHexadecimalMap [(1, some 10)], e.contains 1 = true) ↔
      ∃ v, ((1 : Nat), some v) ∈ [(1, some 10)]) ∧
    ((∃ e ∈ entriesFromHexSequenceMap [(1, some [10, 11])], e.contains 1 = true) ↔
      ∃ v, ((1 : Nat), some v) ∈ [(1, some [10, 11])]) :=
  ⟨(map_constructors_coverage_and_values.1
      [(0, some [65]), (1, some []), (2, none)] (by decide)).1 1,
    (map_constructors_coverage_and_values.2.1 [(3, some true)] (by decide)).1 3,
    (map_constructors_coverage_and_values.2.2.1 [(1, some (-2 : Int))] (by decide)).1 1,
    (map_constructors_coverage_and_values.2.2.2.1 [(1, some 10)] (by decide)).1 1,
    (map_constructors_coverage_and_values.2.2.2.2 [(1, some [10, 11])] (by decide)).1 1⟩

end Puaa

namespace Puaa

/-- A table directory record together with its payload bytes: the shape
    of the [tag, checksum, offset, data] lists in writePUAA of pypuaa.py
    and of TtfTable objects in ttfhack.py. -/
structure Td where
  tag : Nat
  checksum : Nat
  offset : Nat
  data : Bytes
deriving Repr, DecidableEq

/-- chksum of pypuaa.py lines 500-509 (ttfhack.py has the identical
    function): sum the buffer as big-endian 32-bit words, adding the
    trailing 1-3 bytes shifted by ((i & 3) ^ 3) * 8, masking to 32 bits
    after every addition. -/
def chksum : Bytes → Nat
  | [] => 0
  | [a] => (a <<< 24) % 2 ^ 32
  | [a, b] => ((a <<< 24) ||| (b <<< 16)) % 2 ^ 32
  | [a, b, c] => ((a <<< 24) ||| (b <<< 16) ||| (c <<< 8)) % 2 ^ 32
  | a :: b :: c :: d :: rest =>
      (((a <<< 24) ||| (b <<< 16) ||| (c <<< 8) ||| d) + chksum rest) % 2 ^ 32

/-- Python pads a payload with NULLS[(len&3):4] when len&3 is nonzero:
    (4 - len % 4) % 4 zero bytes. -/
def padBytes (d : Bytes) : Bytes :=
  d ++ List.replicate ((4 - d.length % 4) % 4) 0

/-- The `while currentLoc & 3: currentLoc += 1` loop: round up to a
    multiple of 4. -/
def pad4 (n : Nat) : Nat :=
  n + (4 - n % 4) % 4

/-- The searchRange/entrySelector loop of both writers: halve searchRange
    (and decrement entrySelector) while it exceeds numTables.  Starting
    from 2^30 the loop runs at most 31 times, so fuel 32 always reaches
    the fixed point. -/
def srLoop (fuel : Nat) (n : Nat) (sr : Nat) (es : Int) : Nat × Int :=
  match fuel with
  | 0 => (sr, es)
  | fuel + 1 => if n < sr then srLoop fuel n (sr >>> 1) (es - 1) else (sr, es)

/-- The 12-byte offset-table header: scaler, numTables, searchRange,
    entrySelector, rangeShift, packed big-endian ('>IHHHH'); a negative
    entrySelector (possible only with zero tables) is a struct.error. -/
def headerBytes (scaler n : Nat) : Option Bytes := do
  let (sr0, es) := srLoop 32 n (1 <<< 30) 30
  let sr := sr0 <<< 4
  let rs := (n <<< 4) - sr
  let esN ← if (0 : Int) ≤ es then some es.toNat else none
  return (← packI scaler) ++ (← packH n) ++ (← packH sr) ++ (← packH esN) ++ (← packH rs)

/-- One 16-byte directory record ('>IIII'): tag, checksum, offset, and
    the UNPADDED payload length. -/
def dirRecord (t : Td) : Option Bytes := do
  return (← packI t.tag) ++ (← packI t.checksum) ++ (← packI t.offset) ++ (← packI t.data.length)

/-- Bool key order on the offset field, used by the `sort(key=lambda
    td: td[2])` calls. -/
def tdOffLE (a b : Td) : Bool := a.offset ≤ b.offset

/-- Bool key order on the tag field, used by the `sort(key=lambda td:
    td[0])` calls. -/
def tdTagLE (a b : Td) : Bool := a.tag ≤ b.tag

/-- The concatenated payload section: each table's data followed by its
    padding to a 4-byte boundary. -/
def payloadOf (ts : List Td) : Bytes :=
  ts.flatMap fun t => padBytes t.data

/-- The offset-assignment loop of writePUAA (pypuaa.py lines 552-561):
    walk the offset-sorted tables, give each the current location,
    remember `head`'s location + 8 as checksumLoc (the last head wins,
    matching the repeated assignment in the Python loop), and advance by
    the padded length.  Checksums are NOT recomputed here. -/
def assignPuaa : List Td → Nat → List Td × Nat
  | [], _ => ([], 0)
  | t :: rest, loc =>
      let (as, cs) := assignPuaa rest (pad4 (loc + t.data.length))
      (⟨t.tag, t.checksum, loc, t.data⟩ :: as,
        if cs == 0 then (if t.tag == HEAD then loc + 8 else 0) else cs)

/-- The offset-assignment loop of TtfFile.write (ttfhack.py lines
    97-112): additionally zeroes bytes 8..12 of the head payload and
    freshly recomputes EVERY table's checksum over its (unpadded,
    possibly zeroed) data. -/
def assignTtf : List Td → Nat → List Td × Nat
  | [], _ => ([], 0)
  | t :: rest, loc =>
      let d := if t.tag == HEAD then t.data.take 8 ++ [0, 0, 0, 0] ++ t.data.drop 12
               else t.data
      let (as, cs) := assignTtf rest (pad4 (loc + d.length))
      (⟨t.tag, chksum d, loc, d⟩ :: as,
        if cs == 0 then (if t.tag == HEAD then loc + 8 else 0) else cs)

/-- The shared emission tail of both writers: header, tag-sorted
    directory, offset-sorted padded payloads; then, when a head table
    was seen, patch (CHKSUM - chksum(buffer)) & UINT_MAX into the noted
    checksum slot. -/
def emitTtf (scaler : Nat) (assigned : List Td) (csLoc : Nat) : Option Bytes := do
  let hdr ← headerBytes scaler assigned.length
  let recs ← (assigned.insertionSort fun a b => tdTagLE a b = true).mapM dirRecord
  let body := payloadOf (assigned.insertionSort fun a b => tdOffLE a b = true)
  let d := hdr ++ recs.flatten ++ body
  if csLoc == 0 then return d
  else
    let pb ← packI ((CHKSUM + 2 ^ 32 - chksum d) % 2 ^ 32)
    return d.take csLoc ++ pb ++ d.drop (csLoc + 4)

/-- The table-gathering phase of writePUAA (pypuaa.py lines 511-537):
    drop any input PUAA table, zero bytes 8..12 of the head payload,
    keep every other input record (checksum included) verbatim, then
    append the compiled PUAA table with a freshly computed checksum and
    offset sort key UINT_MAX. -/
def gatherTables (input : List Td) (puaa : Option Bytes) : List Td :=
  (input.filterMap fun t =>
    if t.tag == PUAATAG then none
    else if t.tag == HEAD then
      some ⟨t.tag, t.checksum, t.offset, t.data.take 8 ++ [0, 0, 0, 0] ++ t.data.drop 12⟩
    else some t) ++
  puaa.elim [] fun d => [⟨PUAATAG, chksum d, UINT_MAX, d⟩]

/-- writePUAA of pypuaa.py (lines 511-578), from the already-parsed
    input directory: gather, sort by input offset, assign fresh offsets,
    emit and patch the whole-file checksum. -/
def writePUAA (scaler : Nat) (input : List Td) (puaa : Option Bytes) : Option Bytes :=
  let tables := gatherTables input puaa
  let sorted := tables.insertionSort fun a b => tdOffLE a b = true
  let (assigned, csLoc) := assignPuaa sorted (12 + 16 * tables.length)
  emitTtf scaler assigned csLoc

/-- TtfFile.write of ttfhack.py (lines 86-134): sort by input offset,
    zero the head slot and recompute every per-table checksum while
    assigning offsets, emit and patch the whole-file checksum. -/
def ttfWrite (scaler : Nat) (tables : List Td) : Option Bytes :=
  let sorted := tables.insertionSort fun a b => tdOffLE a b = true
  let (assigned, csLoc) := assignTtf sorted (12 + 16 * tables.length)
  emitTtf scaler assigned csLoc
end Puaa

namespace Puaa

theorem word_or_eq_add (a b c d : Nat) (hb : b < 256) (hc : c < 256)
    (hd : d < 256) :
    (a <<< 24) ||| (b <<< 16) ||| (c <<< 8) ||| d
      = a * 0x1000000 + b * 0x10000 + c * 0x100 + d := by
  have e1 : (c <<< 8) ||| d = c * 0x100 + d := by
    rw [Nat.shiftLeft_eq, show (2 : Nat) ^ 8 = 0x100 by norm_num]
    have h := Nat.mul_add_lt_is_or (i := 8) (b := d) (a := c) (by omega)
    simpa [Nat.mul_comm] using h.symm
  have e2 : (b <<< 16) ||| (c * 0x100 + d) = b * 0x10000 + (c * 0x100 + d) := by
    rw [Nat.shiftLeft_eq, show (2 : Nat) ^ 16 = 0x10000 by norm_num]
    have h := Nat.mul_add_lt_is_or (i := 16) (b := c * 0x100 + d) (a := b) (by omega)
    simpa [Nat.mul_comm] using h.symm
  have e3 : (a <<< 24) ||| (b * 0x10000 + (c * 0x100 + d))
      = a * 0x1000000 + (b * 0x10000 + (c * 0x100 + d)) := by
    rw [Nat.shiftLeft_eq, show (2 : Nat) ^ 24 = 0x1000000 by norm_num]
    have h := Nat.mul_add_lt_is_or (i := 24) (b := b * 0x10000 + (c * 0x100 + d)) (a := a)
      (by omega)
    simpa [Nat.mul_comm] using h.symm
  rw [Nat.or_assoc, Nat.or_assoc, e1, e2, e3]
  ring

theorem chksum_lt (B : Bytes) : chksum B < 2 ^ 32 := by
  match B with
  | [] => simp [chksum]
  | [a] => exact Nat.mod_lt _ (by norm_num)
  | [a, b] => exact Nat.mod_lt _ (by norm_num)
  | [a, b, c] => exact Nat.mod_lt _ (by norm_num)
  | a :: b :: c :: d :: rest => exact Nat.mod_lt _ (by norm_num)

theorem chksum_append : ∀ A B : Bytes, A.length % 4 = 0 →
    chksum (A ++ B) = (chksum A + chksum B) % 2 ^ 32
  | [], B, _ => by
      have h := chksum_lt B
      show chksum B = (chksum ([] : Bytes) + chksum B) % 2 ^ 32
      rw [show chksum ([] : Bytes) = 0 from rfl]
      omega
  | [_], _, h => by simp at h
  | [_, _], _, h => by simp at h
  | [_, _, _], _, h => by simp at h
  | a :: b :: c :: d :: A', B, h => by
      have h' : A'.length % 4 = 0 := by
        simp only [List.length_cons] at h
        omega
      show (((a <<< 24) ||| (b <<< 16) ||| (c <<< 8) ||| d) + chksum (A' ++ B)) % 2 ^ 32 = _
      rw [chksum_append A' B h']
      show _ = ((((a <<< 24) ||| (b <<< 16) ||| (c <<< 8) ||| d) + chksum A') % 2 ^ 32
        + chksum B) % 2 ^ 32
      generalize (a <<< 24) ||| (b <<< 16) ||| (c <<< 8) ||| d = w
      omega

theorem packI_some {v : Nat} (h : v < 2 ^ 32) :
    packI v = some [v >>> 24, (v >>> 16) &&& 0xFF, (v >>> 8) &&& 0xFF, v &&& 0xFF] := by
  rw [packI, if_pos (by omega)]

theorem packI_bytes_lt {v : Nat} {pb : Bytes} (h : packI v = some pb) :
    pb.length = 4 ∧ ∀ x ∈ pb, x < 256 := by
  rw [packI] at h
  split_ifs at h with hv
  cases h
  refine ⟨rfl, ?_⟩
  intro x hx
  have h24 : v >>> 24 < 256 := by
    rw [Nat.shiftRight_eq_div_pow]
    omega
  have h16 : (v >>> 16) &&& 0xFF < 256 := by
    have := Nat.and_le_right (n := v >>> 16) (m := 0xFF)
    omega
  have h8 : (v >>> 8) &&& 0xFF < 256 := by
    have := Nat.and_le_right (n := v >>> 8) (m := 0xFF)
    omega
  have h0 : v &&& 0xFF < 256 := by
    have := Nat.and_le_right (n := v) (m := 0xFF)
    omega
  simp only [List.mem_cons, List.not_mem_nil, or_false] at hx
  rcases hx with rfl | rfl | rfl | rfl <;> assumption

theorem and255_eq_mod (x : Nat) : x &&& 0xFF = x % 256 := by
  have h := Nat.and_pow_two_sub_one_eq_mod x 8
  norm_num at h
  exact h

theorem chksum_packI {v : Nat} {pb : Bytes} (h : packI v = some pb) :
    chksum pb = v % 2 ^ 32 := by
  rw [packI] at h
  split_ifs at h with hv
  cases h
  show ((v >>> 24 <<< 24) ||| (((v >>> 16) &&& 0xFF) <<< 16)
      ||| (((v >>> 8) &&& 0xFF) <<< 8) ||| (v &&& 0xFF)) % 2 ^ 32 = v % 2 ^ 32
  rw [word_or_eq_add _ _ _ _
      (by have := Nat.and_le_right (n := v >>> 16) (m := 0xFF); omega)
      (by have := Nat.and_le_right (n := v >>> 8) (m := 0xFF); omega)
      (by have := Nat.and_le_right (n := v) (m := 0xFF); omega)]
  rw [and255_eq_mod, and255_eq_mod, and255_eq_mod,
    Nat.shiftRight_eq_div_pow, Nat.shiftRight_eq_div_pow, Nat.shiftRight_eq_div_pow]
  norm_num
  omega

theorem padBytes_length (d : Bytes) : (padBytes d).length = pad4 d.length := by
  simp [padBytes, pad4]

theorem pad4_mod (n : Nat) : pad4 n % 4 = 0 := by
  rw [pad4]
  omega

theorem pad4_ge (n : Nat) : n ≤ pad4 n := by
  rw [pad4]
  omega

theorem pad4_eq_of_aligned {L : Nat} (n : Nat) (hL : L % 4 = 0) :
    pad4 (L + n) = L + pad4 n := by
  rw [pad4, pad4]
  omega

/-- Patching a (CHKSUM - checksum) word into a zeroed, word-aligned slot
    makes the whole-buffer checksum come out to CHKSUM. -/
theorem chksum_patch (Q S : Bytes) (hQ : Q.length % 4 = 0) {pb : Bytes}
    (hpb : packI ((CHKSUM + 2 ^ 32 - chksum (Q ++ [0, 0, 0, 0] ++ S)) % 2 ^ 32) = some pb) :
    chksum (Q ++ pb ++ S) = CHKSUM := by
  have h4 : pb.length % 4 = 0 := by
    rw [(packI_bytes_lt hpb).1]
  have hzw : chksum ([0, 0, 0, 0] ++ S) = chksum S % 2 ^ 32 := by
    have : chksum ((0 : Nat) :: 0 :: 0 :: 0 :: S) = (0 + chksum S) % 2 ^ 32 := rfl
    simpa using this
  have hD : chksum (Q ++ [0, 0, 0, 0] ++ S) = (chksum Q + chksum S) % 2 ^ 32 := by
    rw [List.append_assoc, chksum_append Q _ hQ, hzw]
    have := chksum_lt S
    have := chksum_lt Q
    omega
  have hw := chksum_packI hpb
  rw [List.append_assoc, chksum_append Q _ hQ, chksum_append pb S h4, hw, hD]
  have hq := chksum_lt Q
  have hs := chksum_lt S
  rw [CHKSUM] at *
  omega

end Puaa

namespace Puaa

theorem packH_length {v : Nat} {b : Bytes} (h : packH v = some b) : b.length = 2 := by
  rw [packH] at h
  split_ifs at h
  cases h
  rfl

theorem headerBytes_length {s n : Nat} {h : Bytes} (hh : headerBytes s n = some h) :
    h.length = 12 := by
  rw [headerBytes] at hh
  rcases hsr : srLoop 32 n (1 <<< 30) 30 with ⟨sr0, es⟩
  rw [hsr] at hh
  dsimp only at hh
  split_ifs at hh with hes
  · simp only [Option.bind_eq_some, Option.some_inj, bind, pure, Option.some_bind] at hh
    obtain ⟨b1, hb1, b2, hb2, b3, hb3, b4, hb4, b5, hb5, rfl⟩ := hh
    simp [List.length_append, (packI_bytes_lt hb1).1, packH_length hb2, packH_length hb3,
      packH_length hb4, packH_length hb5]
  · simp [bind] at hh

theorem dirRecord_parts {t : Td} {r : Bytes} (h : dirRecord t = some r) :
    ∃ b1 b2 b3 b4, packI t.tag = some b1 ∧ packI t.checksum = some b2 ∧
      packI t.offset = some b3 ∧ packI t.data.length = some b4 ∧
      r = b1 ++ b2 ++ b3 ++ b4 := by
  rw [dirRecord] at h
  simp only [Option.bind_eq_some, Option.some_inj, bind, pure] at h
  obtain ⟨b1, hb1, b2, hb2, b3, hb3, b4, hb4, rfl⟩ := h
  exact ⟨b1, b2, b3, b4, hb1, hb2, hb3, hb4, by simp [List.append_assoc]⟩

theorem dirRecord_length {t : Td} {r : Bytes} (h : dirRecord t = some r) : r.length = 16 := by
  obtain ⟨b1, b2, b3, b4, hb1, hb2, hb3, hb4, rfl⟩ := dirRecord_parts h
  simp [(packI_bytes_lt hb1).1, (packI_bytes_lt hb2).1, (packI_bytes_lt hb3).1,
    (packI_bytes_lt hb4).1]

theorem mapM_dirRecord_flatten : ∀ {ts : List Td} {rs : List Bytes},
    ts.mapM dirRecord = some rs → rs.flatten.length = 16 * ts.length
  | [], rs, h => by
      simp only [List.mapM_nil, Option.pure_def, Option.some_inj, pure] at h
      subst h
      simp
  | t :: ts, rs, h => by
      simp only [List.mapM_cons, Option.bind_eq_some, Option.pure_def, Option.some_inj,
        bind, pure] at h
      obtain ⟨r, hr, rs', hrs', rfl⟩ := h
      simp only [List.flatten_cons, List.length_append, List.length_cons,
        mapM_dirRecord_flatten hrs', dirRecord_length hr]
      ring

theorem word_of_packI (v : Nat) :
    ((v >>> 24) <<< 24) ||| (((v >>> 16) &&& 0xFF) <<< 16) ||| (((v >>> 8) &&& 0xFF) <<< 8)
      ||| (v &&& 0xFF) = v := by
  rw [word_or_eq_add _ _ _ _
      (by have := Nat.and_le_right (n := v >>> 16) (m := 0xFF); omega)
      (by have := Nat.and_le_right (n := v >>> 8) (m := 0xFF); omega)
      (by have := Nat.and_le_right (n := v) (m := 0xFF); omega)]
  rw [and255_eq_mod, and255_eq_mod, and255_eq_mod,
    Nat.shiftRight_eq_div_pow, Nat.shiftRight_eq_div_pow, Nat.shiftRight_eq_div_pow]
  norm_num
  omega

theorem readU32_at_append (P : Bytes) (a b c d : Nat) (S : Bytes) :
    readU32 (P ++ (a :: b :: c :: d :: S)) P.length
      = some ((a <<< 24) ||| (b <<< 16) ||| (c <<< 8) ||| d) := by
  rw [readU32]
  have g : ∀ (i : Nat) (m : Bytes), (P ++ m).get? (P.length + i) = m.get? i := by
    intro i m
    rw [List.get?_append_right (by omega)]
    congr 1
    omega
  have g0 := g 0 (a :: b :: c :: d :: S)
  rw [Nat.add_zero] at g0
  rw [g0, g 1 (a :: b :: c :: d :: S), g 2 (a :: b :: c :: d :: S),
    g 3 (a :: b :: c :: d :: S)]
  simp [bind]

theorem readU32_packI_at {v : Nat} {pb P S : Bytes} (h : packI v = some pb) :
    readU32 (P ++ (pb ++ S)) P.length = some v := by
  rw [packI] at h
  split_ifs at h with hv
  cases h
  simp only [List.cons_append, List.nil_append]
  rw [readU32_at_append, Option.some_inj]
  exact word_of_packI v

theorem assignTtf_fresh : ∀ (ts : List Td) (L : Nat), ∀ t ∈ (assignTtf ts L).1,
    t.checksum = chksum t.data ∧
    ∃ s ∈ ts, t.tag = s.tag ∧
      t.data = (if s.tag == HEAD then s.data.take 8 ++ [0, 0, 0, 0] ++ s.data.drop 12
        else s.data)
  | [], L, t, ht => by simp [assignTtf] at ht
  | s :: rest, L, t, ht => by
      rcases hp : assignTtf rest
          (pad4 (L + (if s.tag == HEAD then s.data.take 8 ++ [0, 0, 0, 0] ++ s.data.drop 12
            else s.data).length)) with ⟨as, cs⟩
      simp only [assignTtf, hp, List.mem_cons] at ht
      rcases ht with rfl | ht
      · exact ⟨rfl, s, List.mem_cons_self _ _, rfl, rfl⟩
      · obtain ⟨hck, s', hs', htag, hdata⟩ := assignTtf_fresh rest _ t (by rw [hp]; exact ht)
        exact ⟨hck, s', List.mem_cons_of_mem _ hs', htag, hdata⟩

theorem assignPuaa_copies : ∀ (ts : List Td) (L : Nat),
    ((assignPuaa ts L).1.map fun t => (t.tag, t.checksum, t.data))
      = ts.map fun t => (t.tag, t.checksum, t.data)
  | [], L => by simp [assignPuaa]
  | t :: rest, L => by
      rcases hp : assignPuaa rest (pad4 (L + t.data.length)) with ⟨as, cs⟩
      have ih := assignPuaa_copies rest (pad4 (L + t.data.length))
      rw [hp] at ih
      simp only [assignPuaa, hp, List.map_cons, ih]

theorem gatherTables_mem {input : List Td} {puaa : Option Bytes} {t : Td}
    (h : t ∈ gatherTables input puaa) :
    (t.tag = PUAATAG ∧ ∃ d, puaa = some d ∧ t.data = d ∧ t.checksum = chksum d) ∨
    (∃ s ∈ input, s.tag ≠ PUAATAG ∧ t.tag = s.tag ∧ t.checksum = s.checksum ∧
      t.data = (if s.tag == HEAD then s.data.take 8 ++ [0, 0, 0, 0] ++ s.data.drop 12
        else s.data)) := by
  rw [gatherTables, List.mem_append] at h
  rcases h with h | h
  · rw [List.mem_filterMap] at h
    obtain ⟨s, hs, hf⟩ := h
    right
    by_cases h1 : (s.tag == PUAATAG) = true
    · rw [if_pos h1] at hf
      cases hf
    · rw [if_neg h1] at hf
      by_cases h2 : (s.tag == HEAD) = true
      · rw [if_pos h2] at hf
        rw [Option.some_inj] at hf
        subst hf
        refine ⟨s, hs, ?_, rfl, rfl, ?_⟩
        · simpa using h1
        · rw [if_pos h2]
      · rw [if_neg h2] at hf
        rw [Option.some_inj] at hf
        subst hf
        refine ⟨_, hs, ?_, rfl, rfl, ?_⟩
        · simpa using h1
        · rw [if_neg h2]
  · left
    rcases hq : puaa with _ | d
    · rw [hq] at h
      exact absurd h (List.not_mem_nil t)
    · rw [hq] at h
      replace h : t ∈ [(⟨PUAATAG, chksum d, UINT_MAX, d⟩ : Td)] := h
      rw [List.mem_singleton] at h
      subst h
      exact ⟨rfl, d, rfl, rfl, rfl⟩

theorem gatherTables_head {input : List Td} {puaa : Option Bytes} {s : Td}
    (hs : s ∈ input) (htag : s.tag = HEAD) :
    (⟨s.tag, s.checksum, s.offset, s.data.take 8 ++ [0, 0, 0, 0] ++ s.data.drop 12⟩ : Td)
      ∈ gatherTables input puaa := by
  rw [gatherTables, List.mem_append]
  left
  rw [List.mem_filterMap]
  refine ⟨s, hs, ?_⟩
  rw [if_neg (by simp [htag, HEAD, PUAATAG]), if_pos (by simp [htag])]

theorem assignPuaa_spec : ∀ (ts : List Td) (L : Nat), L % 4 = 0 →
    (((assignPuaa ts L).1.map fun t => (t.tag, t.checksum, t.data))
        = ts.map fun t => (t.tag, t.checksum, t.data)) ∧
    (∀ t ∈ (assignPuaa ts L).1, L ≤ t.offset) ∧
    ((assignPuaa ts L).1.Pairwise fun a b => tdOffLE a b = true) ∧
    ((assignPuaa ts L).2 = 0 → ∀ t ∈ ts, t.tag ≠ HEAD) ∧
    ((assignPuaa ts L).2 ≠ 0 → ∃ P hd S,
        payloadOf (assignPuaa ts L).1 = P ++ padBytes hd ++ S ∧
        (assignPuaa ts L).2 = L + P.length + 8 ∧ P.length % 4 = 0 ∧
        ∃ t ∈ ts, t.tag = HEAD ∧ t.data = hd)
  | [], L, hL => by simp [assignPuaa, payloadOf]
  | t :: rest, L, hL => by
      have hL' : pad4 (L + t.data.length) % 4 = 0 := pad4_mod _
      obtain ⟨ih1, ih2, ih3, ih4, ih5⟩ := assignPuaa_spec rest (pad4 (L + t.data.length)) hL'
      rcases hp : assignPuaa rest (pad4 (L + t.data.length)) with ⟨as, cs⟩
      rw [hp] at ih1 ih2 ih3 ih4 ih5
      have hLle : ∀ u ∈ as, L ≤ u.offset := fun u hu =>
        le_trans (le_trans (Nat.le_add_right _ _) (pad4_ge _)) (ih2 u hu)
      refine ⟨?_, ?_, ?_, ?_, ?_⟩
      · simp only [assignPuaa, hp, List.map_cons, ih1]
      · simp only [assignPuaa, hp, List.mem_cons]
        rintro u (rfl | hu)
        · exact le_refl L
        · exact hLle u hu
      · simp only [assignPuaa, hp]
        refine List.Pairwise.cons ?_ ih3
        intro u hu
        simp only [tdOffLE]
        exact decide_eq_true (hLle u hu)
      · simp only [assignPuaa, hp]
        intro hz
        split_ifs at hz with h1 h2
        · rw [beq_iff_eq] at h1
          simp only [beq_iff_eq] at h2
          intro u hu
          rcases List.mem_cons.1 hu with rfl | hu
          · exact h2
          · exact ih4 h1 u hu
        · simp only [beq_iff_eq] at h1
          exact absurd hz h1
      · simp only [assignPuaa, hp]
        intro hnz
        by_cases h1 : cs = 0
        · rw [if_pos (by simpa using h1)] at hnz ⊢
          by_cases h2 : t.tag = HEAD
          · rw [if_pos (by simpa using h2)]
            refine ⟨[], t.data, payloadOf as, ?_, by simp, by simp, t,
              List.mem_cons_self _ _, h2, rfl⟩
            simp only [payloadOf, List.flatMap_cons, List.nil_append]
          · rw [if_neg (by simpa using h2)] at hnz
            exact absurd rfl hnz
        · rw [if_neg (by simpa using h1)] at hnz ⊢
          obtain ⟨P', hd, S', hpay, hcs, hP4, u, hu, hutag, hudata⟩ := ih5 h1
          replace hcs : cs = pad4 (L + t.data.length) + P'.length + 8 := hcs
          refine ⟨padBytes t.data ++ P', hd, S', ?_, ?_, ?_, u,
            List.mem_cons_of_mem _ hu, hutag, hudata⟩
          · simp only [payloadOf, List.flatMap_cons] at hpay ⊢
            rw [hpay]
            simp only [List.append_assoc]
          · rw [List.length_append, padBytes_length, hcs,
              pad4_eq_of_aligned t.data.length hL]
            omega
          · rw [List.length_append, padBytes_length]
            have := pad4_mod t.data.length
            omega

end Puaa

namespace Puaa

theorem insertionSort_offLE_eq {l : List Td}
    (h : l.Pairwise fun a b => tdOffLE a b = true) :
    (l.insertionSort fun a b => tdOffLE a b = true) = l :=
  List.Sorted.insertionSort_eq h

/-- Claim C2: when the table set includes a head table (of payload length
    at least 8, so the checksum slot exists), writePUAA stores
    (0xB1B0AFBA - chksum(buffer with the slot zeroed)) mod 2^32 into
    bytes 8..12 of the emitted head payload, and the checksum of the
    complete output file comes out to exactly 0xB1B0AFBA. -/
theorem whole_file_checksum_law (scaler : Nat) (input : List Td) (puaa : Option Bytes)
    (out : Bytes)
    (hhead : ∃ s ∈ input, s.tag = HEAD)
    (hlen : ∀ s ∈ input, s.tag = HEAD → 8 ≤ s.data.length)
    (hw : writePUAA scaler input puaa = some out) :
    chksum out = CHKSUM ∧
    ∃ P S w pb, packI w = some pb ∧
      w = (CHKSUM + 2 ^ 32 - chksum (P ++ [0, 0, 0, 0] ++ S)) % 2 ^ 32 ∧
      out = P ++ pb ++ S ∧
      ∃ s ∈ input, s.tag = HEAD ∧ ∃ Q : Bytes, P = Q ++ s.data.take 8 := by
  rw [writePUAA] at hw
  obtain ⟨sp1, sp2, sp3, sp4, sp5⟩ :=
    assignPuaa_spec
      ((gatherTables input puaa).insertionSort fun a b => tdOffLE a b = true)
      (12 + 16 * (gatherTables input puaa).length) (by omega)
  rcases hA : assignPuaa
      ((gatherTables input puaa).insertionSort fun a b => tdOffLE a b = true)
      (12 + 16 * (gatherTables input puaa).length) with ⟨assigned, csLoc⟩
  rw [hA] at sp1 sp2 sp3 sp4 sp5 hw
  dsimp only at hw sp1 sp2 sp3 sp4 sp5
  obtain ⟨s0, hs0, hs0tag⟩ := hhead
  have hmem : (⟨s0.tag, s0.checksum, s0.offset,
      s0.data.take 8 ++ [0, 0, 0, 0] ++ s0.data.drop 12⟩ : Td)
      ∈ (gatherTables input puaa).insertionSort fun a b => tdOffLE a b = true :=
    ((List.perm_insertionSort _ _).mem_iff).2 (gatherTables_head hs0 hs0tag)
  have hcs0 : csLoc ≠ 0 := fun h0 => (sp4 h0 _ hmem) hs0tag
  obtain ⟨P', hd, S', hpay, hcsL, hP4, u, hu, hutag, hudata⟩ := sp5 hcs0
  have huG : u ∈ gatherTables input puaa := ((List.perm_insertionSort _ _).mem_iff).1 hu
  rcases gatherTables_mem huG with ⟨hptag, _⟩ | ⟨s1, hs1, hs1ne, hninj, hck, hdata⟩
  · rw [hutag] at hptag
    exact absurd hptag (by decide)
  have hs1tag : s1.tag = HEAD := by rw [← hninj]; exact hutag
  have hdz : hd = s1.data.take 8 ++ [0, 0, 0, 0] ++ s1.data.drop 12 := by
    rw [← hudata, hdata, if_pos (by simp [hs1tag])]
  have hlen8 : (s1.data.take 8).length = 8 := by
    rw [List.length_take]
    have := hlen s1 hs1 hs1tag
    omega
  rw [emitTtf] at hw
  rcases hh : headerBytes scaler assigned.length with _ | hdr
  · rw [hh] at hw
    simp [bind] at hw
  rw [hh] at hw
  rcases hr : (assigned.insertionSort fun a b => tdTagLE a b = true).mapM dirRecord
    with _ | recs
  · rw [hr] at hw
    simp [bind] at hw
  rw [hr] at hw
  simp only [bind, Option.some_bind] at hw
  rw [insertionSort_offLE_eq sp3] at hw
  rw [if_neg (by simpa using hcs0)] at hw
  have hwlt : (CHKSUM + 2 ^ 32
      - chksum (hdr ++ recs.flatten ++ payloadOf assigned)) % 2 ^ 32 < 2 ^ 32 :=
    Nat.mod_lt _ (by norm_num)
  rw [packI_some hwlt, Option.some_bind] at hw
  simp only [Option.pure_def, Option.some_inj] at hw
  have hhdr12 : hdr.length = 12 := headerBytes_length hh
  have hdirlen : recs.flatten.length = 16 * assigned.length := by
    rw [mapM_dirRecord_flatten hr, (List.perm_insertionSort _ assigned).length_eq]
  have hlenassigned : assigned.length = (gatherTables input puaa).length := by
    have h1 := congrArg List.length sp1
    simp only [List.length_map] at h1
    rw [h1, (List.perm_insertionSort _ _).length_eq]
  have hd_eq : hdr ++ recs.flatten ++ payloadOf assigned
      = (hdr ++ recs.flatten ++ P' ++ s1.data.take 8) ++ [0, 0, 0, 0]
        ++ ((s1.data.drop 12
          ++ List.replicate ((4 - hd.length % 4) % 4) 0) ++ S') := by
    rw [hpay, hdz]
    simp only [padBytes, hdz, List.append_assoc]
  have hQlen : (hdr ++ recs.flatten ++ P' ++ s1.data.take 8).length = csLoc := by
    simp only [List.length_append, hhdr12, hdirlen, hlen8, hlenassigned]
    omega
  have hQ4 : (hdr ++ recs.flatten ++ P' ++ s1.data.take 8).length % 4 = 0 := by
    rw [hQlen, hcsL]
    omega
  have htake : (hdr ++ recs.flatten ++ payloadOf assigned).take csLoc
      = hdr ++ recs.flatten ++ P' ++ s1.data.take 8 := by
    rw [hd_eq, ← hQlen, List.append_assoc _ ([0, 0, 0, 0] : Bytes), List.take_left]
  have hdrop : (hdr ++ recs.flatten ++ payloadOf assigned).drop (csLoc + 4)
      = (s1.data.drop 12 ++ List.replicate ((4 - hd.length % 4) % 4) 0) ++ S' := by
    rw [hd_eq, ← hQlen, List.append_assoc _ ([0, 0, 0, 0] : Bytes)]
    rw [show (hdr ++ recs.flatten ++ P' ++ s1.data.take 8).length + 4
        = (hdr ++ recs.flatten ++ P' ++ s1.data.take 8).length
          + ([0, 0, 0, 0] : Bytes).length by rfl]
    rw [← List.length_append, ← List.append_assoc _ ([0, 0, 0, 0] : Bytes), List.drop_left]
  rw [htake, hdrop] at hw
  have hpatch := chksum_patch (hdr ++ recs.flatten ++ P' ++ s1.data.take 8)
    ((s1.data.drop 12 ++ List.replicate ((4 - hd.length % 4) % 4) 0) ++ S') hQ4
    (by rw [← hd_eq]; exact packI_some hwlt)
  rw [hw] at hpatch
  refine ⟨hpatch, hdr ++ recs.flatten ++ P' ++ s1.data.take 8,
    (s1.data.drop 12 ++ List.replicate ((4 - hd.length % 4) % 4) 0) ++ S',
    (CHKSUM + 2 ^ 32 - chksum (hdr ++ recs.flatten ++ payloadOf assigned)) % 2 ^ 32,
    _, packI_some hwlt, ?_, hw.symm, s1, hs1, hs1tag, hdr ++ recs.flatten ++ P', rfl⟩
  rw [← hd_eq]

end Puaa

namespace Puaa

/-- Witness: the checksum law evaluated on a concrete one-table font
    holding only a 12-byte head table. -/
theorem whole_file_checksum_law_witness :
    chksum [0, 1, 0, 0, 0, 1, 0, 16, 0, 0, 0, 0, 104, 101, 97, 100, 0, 0, 0, 0, 0, 0, 0, 28,
        0, 0, 0, 12, 1, 2, 3, 4, 5, 6, 7, 8, 67, 65, 68, 18] = CHKSUM ∧
    ∃ P S w pb, packI w = some pb ∧
      w = (CHKSUM + 2 ^ 32 - chksum (P ++ [0, 0, 0, 0] ++ S)) % 2 ^ 32 ∧
      [0, 1, 0, 0, 0, 1, 0, 16, 0, 0, 0, 0, 104, 101, 97, 100, 0, 0, 0, 0, 0, 0, 0, 28,
        0, 0, 0, 12, 1, 2, 3, 4, 5, 6, 7, 8, 67, 65, 68, 18] = P ++ pb ++ S ∧
      ∃ s ∈ [(⟨HEAD, 0, 0, [1, 2, 3, 4, 5, 6, 7, 8, 9, 10, 11, 12]⟩ : Td)],
        s.tag = HEAD ∧ ∃ Q : Bytes, P = Q ++ s.data.take 8 :=
  whole_file_checksum_law 0x00010000 [⟨HEAD, 0, 0, [1, 2, 3, 4, 5, 6, 7, 8, 9, 10, 11, 12]⟩]
    none
    [0, 1, 0, 0, 0, 1, 0, 16, 0, 0, 0, 0, 104, 101, 97, 100, 0, 0, 0, 0, 0, 0, 0, 28,
      0, 0, 0, 12, 1, 2, 3, 4, 5, 6, 7, 8, 67, 65, 68, 18]
    (by decide) (by decide) (by decide)

end Puaa

namespace Puaa

/-- Claim C3 (counterexample): writePUAA copies the input directory
    checksum of every non-PUAA table verbatim into the output directory;
    here the input record carries checksum 7 while the freshly computed
    checksum of the emitted payload [0,0,0,1] is 1. -/
theorem per_table_checksum_fails_for_writePUAA :
    writePUAA 0x00010000 [⟨0x41414141, 7, 0, [0, 0, 0, 1]⟩] none
      = some [0, 1, 0, 0, 0, 1, 0, 16, 0, 0, 0, 0, 65, 65, 65, 65, 0, 0, 0, 7,
          0, 0, 0, 28, 0, 0, 0, 4, 0, 0, 0, 1] ∧
    readU32 [0, 1, 0, 0, 0, 1, 0, 16, 0, 0, 0, 0, 65, 65, 65, 65, 0, 0, 0, 7,
        0, 0, 0, 28, 0, 0, 0, 4, 0, 0, 0, 1] 16 = some 7 ∧
    chksum [0, 0, 0, 1] = 1 ∧ (7 : Nat) ≠ 1 := by
  decide

/-- Claim C3 (amended): TtfFile.write freshly recomputes every directory
    checksum over the table's unpadded (and, for head, slot-zeroed)
    payload, and the 4-byte padding never enters that checksum; but
    writePUAA computes a fresh checksum only for the appended PUAA table
    and copies every other input directory checksum verbatim through
    gathering and offset assignment.  Directory records emit the stored
    checksum field unchanged. -/
theorem per_table_checksum_recomputation :
    (∀ (ts : List Td) (L : Nat), ∀ t ∈ (assignTtf ts L).1,
        t.checksum = chksum t.data ∧
        ∃ s ∈ ts, t.tag = s.tag ∧
          t.data = (if s.tag == HEAD then s.data.take 8 ++ [0, 0, 0, 0] ++ s.data.drop 12
            else s.data)) ∧
    (∀ (input : List Td) (puaa : Option Bytes), ∀ t ∈ gatherTables input puaa,
        (t.tag = PUAATAG ∧ ∃ d, puaa = some d ∧ t.data = d ∧ t.checksum = chksum d) ∨
        (∃ s ∈ input, s.tag ≠ PUAATAG ∧ t.tag = s.tag ∧ t.checksum = s.checksum ∧
          t.data = (if s.tag == HEAD then s.data.take 8 ++ [0, 0, 0, 0] ++ s.data.drop 12
            else s.data))) ∧
    (∀ (ts : List Td) (L : Nat),
        ((assignPuaa ts L).1.map fun t => (t.tag, t.checksum, t.data))
          = ts.map fun t => (t.tag, t.checksum, t.data)) ∧
    (∀ (t : Td) (r : Bytes), dirRecord t = some r →
        r.length = 16 ∧ readU32 r 4 = some t.checksum) := by
  refine ⟨assignTtf_fresh, ?_, assignPuaa_copies, ?_⟩
  · intro input puaa t ht
    exact gatherTables_mem ht
  · intro t r h
    refine ⟨dirRecord_length h, ?_⟩
    obtain ⟨b1, b2, b3, b4, hb1, hb2, hb3, hb4, rfl⟩ := dirRecord_parts h
    have h4 : (4 : Nat) = b1.length := ((packI_bytes_lt hb1).1).symm
    rw [List.append_assoc, List.append_assoc, h4]
    exact readU32_packI_at hb2

/-- Witness: the recomputation facts evaluated on concrete tables. -/
theorem per_table_checksum_recomputation_witness :
    ((⟨HEAD, 319293964, 28, [1, 2, 3, 4, 5, 6, 7, 8, 0, 0, 0, 0, 13]⟩ : Td).checksum
        = chksum (⟨HEAD, 319293964, 28,
            [1, 2, 3, 4, 5, 6, 7, 8, 0, 0, 0, 0, 13]⟩ : Td).data ∧
      ∃ s ∈ [(⟨HEAD, 5, 0, [1, 2, 3, 4, 5, 6, 7, 8, 9, 10, 11, 12, 13]⟩ : Td)],
        (⟨HEAD, 319293964, 28, [1, 2, 3, 4, 5, 6, 7, 8, 0, 0, 0, 0, 13]⟩ : Td).tag = s.tag ∧
        (⟨HEAD, 319293964, 28, [1, 2, 3, 4, 5, 6, 7, 8, 0, 0, 0, 0, 13]⟩ : Td).data
          = (if s.tag == HEAD then s.data.take 8 ++ [0, 0, 0, 0] ++ s.data.drop 12
            else s.data)) ∧
    (((⟨0x41414141, 7, 0, [0, 0, 0, 1]⟩ : Td).tag = PUAATAG ∧
        ∃ d, some [9] = some d ∧ (⟨0x41414141, 7, 0, [0, 0, 0, 1]⟩ : Td).data = d ∧
          (⟨0x41414141, 7, 0, [0, 0, 0, 1]⟩ : Td).checksum = chksum d) ∨
      (∃ s ∈ [(⟨0x41414141, 7, 0, [0, 0, 0, 1]⟩ : Td)], s.tag ≠ PUAATAG ∧
        (⟨0x41414141, 7, 0, [0, 0, 0, 1]⟩ : Td).tag = s.tag ∧
        (⟨0x41414141, 7, 0, [0, 0, 0, 1]⟩ : Td).checksum = s.checksum ∧
        (⟨0x41414141, 7, 0, [0, 0, 0, 1]⟩ : Td).data
          = (if s.tag == HEAD then s.data.take 8 ++ [0, 0, 0, 0] ++ s.data.drop 12
            else s.data))) ∧
    ([0, 0, 0, 2, 0, 0, 0, 3, 0, 0, 0, 4, 0, 0, 0, 2].length = 16 ∧
      readU32 [0, 0, 0, 2, 0, 0, 0, 3, 0, 0, 0, 4, 0, 0, 0, 2] 4
        = some (⟨2, 3, 4, [7, 7]⟩ : Td).checksum) :=
  ⟨per_table_checksum_recomputation.1 [⟨HEAD, 5, 0, [1, 2, 3, 4, 5, 6, 7, 8, 9, 10, 11, 12, 13]⟩]
      28 ⟨HEAD, 319293964, 28, [1, 2, 3, 4, 5, 6, 7, 8, 0, 0, 0, 0, 13]⟩ (by decide),
    per_table_checksum_recomputation.2.1 [⟨0x41414141, 7, 0, [0, 0, 0, 1]⟩] (some [9])
      ⟨0x41414141, 7, 0, [0, 0, 0, 1]⟩ (by decide),
    per_table_checksum_recomputation.2.2.2 ⟨2, 3, 4, [7, 7]⟩
      [0, 0, 0, 2, 0, 0, 0, 3, 0, 0, 0, 4, 0, 0, 0, 2] (by decide)⟩

end Puaa

namespace Puaa

/-- The string "@flag". -/
def atFlag : PyStr := [0x40, 0x66, 0x6C, 0x61, 0x67]

/-- The string "@substring". -/
def atSubstring : PyStr := [0x40, 0x73, 0x75, 0x62, 0x73, 0x74, 0x72, 0x69, 0x6E, 0x67]

/-- The string "@file". -/
def atFile : PyStr := [0x40, 0x66, 0x69, 0x6C, 0x65]

/-- The string "Blocks.txt". -/
def blocksTxt : PyStr := [0x42, 0x6C, 0x6F, 0x63, 0x6B, 0x73, 0x2E, 0x74, 0x78, 0x74]

/-- The string "UnicodeData.txt". -/
def unicodeDataTxt : PyStr :=
  [0x55, 0x6E, 0x69, 0x63, 0x6F, 0x64, 0x65, 0x44, 0x61, 0x74, 0x61, 0x2E, 0x74, 0x78, 0x74]

/-- re.sub(r'^(-*)', r'\1no-', flag): keep the leading dashes and insert
    "no-" after them. -/
def noFlagOf (s : PyStr) : PyStr :=
  s.takeWhile (· == 0x2D) ++ [0x6E, 0x6F, 0x2D] ++ s.dropWhile (· == 0x2D)

/-- re.split(r'\s+', line) on an already-stripped line: split on runs of
    whitespace. -/
def splitWsGo : List Nat → List Nat → List (List Nat) → Bool → List PyStr
  | [], cur, out, _ => (cur.reverse :: out).reverse
  | x :: rest, cur, out, inSep =>
    if pyIsSpace x then
      if inSep then splitWsGo rest cur out true
      else splitWsGo rest [] (cur.reverse :: out) true
    else splitWsGo rest (x :: cur) out false

/-- re.split of a whitespace-run separator. -/
def splitWs (s : PyStr) : List PyStr := splitWsGo s [] [] false

/-- re.split(r'[.]+|;', line): runs of dots or single semicolons
    separate the fields. -/
def splitDotsSemiGo : List Nat → List Nat → List (List Nat) → Bool → List PyStr
  | [], cur, out, _ => (cur.reverse :: out).reverse
  | x :: rest, cur, out, inDots =>
    if x == 0x2E then
      if inDots then splitDotsSemiGo rest cur out true
      else splitDotsSemiGo rest [] (cur.reverse :: out) true
    else if x == 0x3B then
      splitDotsSemiGo rest [] (cur.reverse :: out) false
    else splitDotsSemiGo rest (x :: cur) out false

/-- re.split of the Blocks.txt range separator. -/
def splitDotsSemi (s : PyStr) : List PyStr := splitDotsSemiGo s [] [] false

/-- Python exceptions escaping DataParser.processFile. -/
inductive PyErr where
  | indexError : PyErr
  | intParseError : PyStr → PyErr
  | overlapBlock : PyStr → PyErr
  | overlapChar : PyStr → PyErr
deriving Repr, DecidableEq

/-- The global accumulation state of DataParser (blockBits, charBits,
    blockLines, charLines, fileLines). -/
structure ParserState where
  blockBits : BitSet
  charBits : BitSet
  blockLines : List PyStr
  charLines : List PyStr
  fileLines : List (PyStr × List PyStr)
deriving DecidableEq

/-- The per-file match accumulators of DataParser.processFile. -/
structure FileMatch where
  matchesFlag : Bool
  matchesNoFlag : Bool
  matchesSubstring : Bool
  fileFlags : List PyStr
  fileSubstrings : List PyStr
  fileName : Option PyStr
deriving Repr, DecidableEq

/-- Bool test that `needle` is a prefix of `hay`. -/
def startsWithB : PyStr → PyStr → Bool
  | [], _ => true
  | _ :: _, [] => false
  | a :: s, b :: t => a == b && startsWithB s t

/-- Python `needle in hay` on strings: substring containment. -/
def containsStr : PyStr → PyStr → Bool
  | [], needle => needle.isEmpty
  | x :: t, needle => startsWithB needle (x :: t) || containsStr t needle

/-- self.fileLines[fileName].append(line), creating the entry on first
    use (dict insertion order preserved). -/
def fileLinesAdd (fl : List (PyStr × List PyStr)) (name : PyStr) (line : PyStr) :
    List (PyStr × List PyStr) :=
  if fl.any fun p => p.1 == name then
    fl.map fun p => if p.1 == name then (p.1, p.2 ++ [line]) else p
  else fl ++ [(name, [line])]

/-- One iteration of the line loop in DataParser.processFile
    (udparser.py lines 85-123): strip the line, handle @-directives by
    updating the per-file match state, and gate body lines on
    matchesFile or ((matchesFlag or matchesSubstring) and not
    matchesNoFlag) as accumulated SO FAR, recording them under the most
    recent @file name. -/
def processLine (flags : List PyStr) (sup : PyStr) (matchesFile : Bool)
    (fm : FileMatch) (st : ParserState) (line0 : PyStr) :
    Except PyErr (FileMatch × ParserState) :=
  let line := pyStrip line0
  match line.head? with
  | none => .error .indexError
  | some c =>
    if c == 0x40 then
      let fields := splitWs line
      if fields.getD 0 [] == atFlag then
        match fields.get? 1 with
        | none => .error .indexError
        | some f =>
          .ok ({ fm with
            fileFlags := fm.fileFlags ++ [f]
            matchesFlag := fm.matchesFlag || flags.contains f
            matchesNoFlag := fm.matchesNoFlag || flags.contains (noFlagOf f) }, st)
      else if fields.getD 0 [] == atSubstring then
        match fields.get? 1 with
        | none => .error .indexError
        | some ss =>
          .ok ({ fm with
            fileSubstrings := fm.fileSubstrings ++ [ss]
            matchesSubstring := fm.matchesSubstring || containsStr sup ss }, st)
      else if fields.getD 0 [] == atFile then
        match fields.get? 1 with
        | none => .error .indexError
        | some nm => .ok ({ fm with fileName := some nm }, st)
      else .ok (fm, st)
    else if matchesFile || ((fm.matchesFlag || fm.matchesSubstring) && !fm.matchesNoFlag) then
      if fm.fileName == some blocksTxt then
        let fields := splitDotsSemi line
        match fields.get? 1 with
        | none => .error .indexError
        | some f1 =>
          match pyIntHex (fields.getD 0 []) with
          | none => .error (.intParseError (fields.getD 0 []))
          | some bs =>
            match pyIntHex f1 with
            | none => .error (.intParseError f1)
            | some be =>
              if st.blockBits.getAny bs be then .error (.overlapBlock line)
              else .ok (fm, { st with
                blockBits := st.blockBits.setAll bs be
                blockLines := st.blockLines ++ [line] })
      else if fm.fileName == some unicodeDataTxt then
        let fields := pySplitChar 0x3B line
        match pyIntHex (fields.getD 0 []) with
        | none => .error (.intParseError (fields.getD 0 []))
        | some ch =>
          if st.charBits.get ch then .error (.overlapChar line)
          else .ok (fm, { st with
            charBits := st.charBits.set ch
            charLines := st.charLines ++ [line] })
      else
        match fm.fileName with
        | some nm => .ok (fm, { st with fileLines := fileLinesAdd st.fileLines nm line })
        | none => .ok (fm, st)
    else .ok (fm, st)

/-- The line loop of DataParser.processFile, threading the per-file
    match state and the global state through the file's lines. -/
def processLines (flags : List PyStr) (sup : PyStr) (matchesFile : Bool) :
    FileMatch → ParserState → List PyStr → Except PyErr (FileMatch × ParserState)
  | fm, st, [] => .ok (fm, st)
  | fm, st, l :: rest =>
    match processLine flags sup matchesFile fm st l with
    | .error e => .error e
    | .ok (fm', st') => processLines flags sup matchesFile fm' st' rest

/-- DataParser.processFile on the list of lines of one source file,
    starting from fresh per-file match state. -/
def processFile (flags : List PyStr) (sup : PyStr) (matchesFile : Bool)
    (st : ParserState) (lines : List PyStr) : Except PyErr (FileMatch × ParserState) :=
  processLines flags sup matchesFile ⟨false, false, false, [], [], none⟩ st lines

/-- The empty DataParser state. -/
def initState : ParserState := ⟨∅, ∅, [], [], []⟩

end Puaa

namespace Puaa

/-- Claim C8 (counterexample): with active flags ["f"], the file
    "@file Z" / "x" / "@flag f" matches at end of file (matchesFlag
    true, no no-flag), so the claim says its body line "x" is included;
    but the per-line gate had not yet seen the @flag, so "x" is recorded
    nowhere.  The same lines with the @flag first do record "x". -/
theorem inclusion_gate_fails_on_later_flag :
    processFile [[0x66]] [] false initState
        [[0x40, 0x66, 0x69, 0x6C, 0x65, 0x20, 0x5A], [0x78],
          [0x40, 0x66, 0x6C, 0x61, 0x67, 0x20, 0x66]]
      = .ok (⟨true, false, false, [[0x66]], [], some [0x5A]⟩, initState) ∧
    processFile [[0x66]] [] false initState
        [[0x40, 0x66, 0x6C, 0x61, 0x67, 0x20, 0x66],
          [0x40, 0x66, 0x69, 0x6C, 0x65, 0x20, 0x5A], [0x78]]
      = .ok (⟨true, false, false, [[0x66]], [], some [0x5A]⟩,
          ⟨∅, ∅, [], [], [([0x5A], [[0x78]])]⟩) := by
  constructor
  · rfl
  · rfl

/-- Claim C8 (amended): the inclusion decision for a body line is taken
    per line, from the match state accumulated over the PRECEDING
    @-directives only, and the line is recorded only under a fileName
    already set by a preceding @file: @-directives never touch the
    global state; a body line whose current gate is false, or that
    precedes every @file directive, is silently dropped even if a later
    @flag or @substring makes the file match; and a body line whose
    current gate is true is recorded under the current fileName. -/
theorem body_line_inclusion_is_prefix_gated :
    (∀ (flags : List PyStr) (sup : PyStr) (mf : Bool) (fm : FileMatch) (st : ParserState)
        (line : PyStr) (r : FileMatch × ParserState),
      (pyStrip line).head? = some 0x40 →
      processLine flags sup mf fm st line = .ok r → r.2 = st) ∧
    (∀ (flags : List PyStr) (sup : PyStr) (mf : Bool) (fm : FileMatch) (st : ParserState)
        (line : PyStr) (c : Nat),
      (pyStrip line).head? = some c → c ≠ 0x40 →
      (mf || ((fm.matchesFlag || fm.matchesSubstring) && !fm.matchesNoFlag)) = false →
      processLine flags sup mf fm st line = .ok (fm, st)) ∧
    (∀ (flags : List PyStr) (sup : PyStr) (mf : Bool) (fm : FileMatch) (st : ParserState)
        (line : PyStr) (c : Nat),
      (pyStrip line).head? = some c → c ≠ 0x40 →
      fm.fileName = none →
      processLine flags sup mf fm st line = .ok (fm, st)) ∧
    (∀ (flags : List PyStr) (sup : PyStr) (mf : Bool) (fm : FileMatch) (st : ParserState)
        (line : PyStr) (c : Nat) (name : PyStr),
      (pyStrip line).head? = some c → c ≠ 0x40 →
      (mf || ((fm.matchesFlag || fm.matchesSubstring) && !fm.matchesNoFlag)) = true →
      fm.fileName = some name → name ≠ blocksTxt → name ≠ unicodeDataTxt →
      processLine flags sup mf fm st line
        = .ok (fm, { st with fileLines := fileLinesAdd st.fileLines name (pyStrip line) })) ∧
    (∀ (flags : List PyStr) (sup : PyStr) (mf : Bool) (fm fm' : FileMatch)
        (st st' : ParserState) (l : PyStr) (rest : List PyStr),
      processLine flags sup mf fm st l = .ok (fm', st') →
      processLines flags sup mf fm st (l :: rest) = processLines flags sup mf fm' st' rest) := by
  refine ⟨?_, ?_, ?_, ?_, ?_⟩
  · intro flags sup mf fm st line r hc h
    rw [processLine] at h
    rw [hc] at h
    dsimp only at h
    rw [if_pos (by simp)] at h
    split_ifs at h with h1 h2 h3
    · rcases hf : (splitWs (pyStrip line)).get? 1 with _ | f
      · rw [hf] at h
        cases h
      · rw [hf] at h
        rw [Except.ok.injEq] at h
        rw [← h]
    · rcases hf : (splitWs (pyStrip line)).get? 1 with _ | f
      · rw [hf] at h
        cases h
      · rw [hf] at h
        rw [Except.ok.injEq] at h
        rw [← h]
    · rcases hf : (splitWs (pyStrip line)).get? 1 with _ | f
      · rw [hf] at h
        cases h
      · rw [hf] at h
        rw [Except.ok.injEq] at h
        rw [← h]
    · rw [Except.ok.injEq] at h
      rw [← h]
  · intro flags sup mf fm st line c hc hne hg
    rw [processLine, hc]
    dsimp only
    rw [if_neg (by simpa using hne), if_neg (by simp [hg])]
  · intro flags sup mf fm st line c hc hne hnm
    rw [processLine, hc]
    dsimp only
    rw [if_neg (by simpa using hne)]
    split_ifs with h1 h2 h3
    · rw [hnm] at h2
      cases h2
    · rw [hnm] at h3
      cases h3
    · rw [hnm]
    · rfl
  · intro flags sup mf fm st line c name hc hne hg hnm hb hu
    rw [processLine, hc]
    dsimp only
    rw [if_neg (by simpa using hne), if_pos hg]
    rw [hnm]
    rw [if_neg (by simpa using hb), if_neg (by simpa using hu)]
  · intro flags sup mf fm fm' st st' l rest h
    rw [processLines, h]

end Puaa

namespace Puaa

/-- Witness: the per-line gating laws evaluated on concrete lines. -/
theorem body_line_inclusion_witness :
    ((⟨true, false, false, [[0x66]], [], none⟩, initState) : FileMatch × ParserState).2
        = initState ∧
    processLine [[0x66]] [] false ⟨false, false, false, [], [], none⟩ initState [0x78]
      = .ok (⟨false, false, false, [], [], none⟩, initState) ∧
    processLine [[0x66]] [] false ⟨true, false, false, [], [], some [0x5A]⟩ initState [0x78]
      = .ok (⟨true, false, false, [], [], some [0x5A]⟩,
          { initState with fileLines := fileLinesAdd initState.fileLines [0x5A] [0x78] }) :=
  ⟨body_line_inclusion_is_prefix_gated.1 [[0x66]] [] false
      ⟨false, false, false, [], [], none⟩ initState
      [0x40, 0x66, 0x6C, 0x61, 0x67, 0x20, 0x66]
      (⟨true, false, false, [[0x66]], [], none⟩, initState) (by decide) (by rfl),
    body_line_inclusion_is_prefix_gated.2.1 [[0x66]] [] false
      ⟨false, false, false, [], [], none⟩ initState [0x78] 0x78
      (by decide) (by decide) (by decide),
    body_line_inclusion_is_prefix_gated.2.2.2.1 [[0x66]] [] false
      ⟨true, false, false, [], [], some [0x5A]⟩ initState [0x78] 0x78 [0x5A]
      (by decide) (by decide) (by decide) (by decide) (by decide) (by decide)⟩

end Puaa

namespace Puaa

/-- Claim C9: when an included body line reaches the Blocks.txt branch,
    the parser raises an overlap error (recording nothing) exactly when
    the parsed range [bs, be] intersects the accumulated block bitset in
    at least one code point (the bitset being exactly what earlier
    included Blocks.txt lines deposited via setAll); otherwise it
    records the line and adds the whole range to the bitset.  Likewise a
    UnicodeData.txt line errors exactly when its code point was already
    set, and otherwise sets it and records the line. -/
theorem ucd_overlap_detection :
    (∀ (flags : List PyStr) (sup : PyStr) (mf : Bool) (fm : FileMatch) (st : ParserState)
        (line : PyStr) (c : Nat) (f1 : PyStr) (bs be : Nat),
      (pyStrip line).head? = some c → c ≠ 0x40 →
      (mf || ((fm.matchesFlag || fm.matchesSubstring) && !fm.matchesNoFlag)) = true →
      fm.fileName = some blocksTxt →
      (splitDotsSemi (pyStrip line)).get? 1 = some f1 →
      pyIntHex ((splitDotsSemi (pyStrip line)).getD 0 []) = some bs →
      pyIntHex f1 = some be →
      (((∃ cp ∈ st.blockBits, bs ≤ cp ∧ cp ≤ be) →
        processLine flags sup mf fm st line = .error (.overlapBlock (pyStrip line))) ∧
       ((¬ ∃ cp ∈ st.blockBits, bs ≤ cp ∧ cp ≤ be) →
        processLine flags sup mf fm st line = .ok (fm, { st with
          blockBits := st.blockBits.setAll bs be
          blockLines := st.blockLines ++ [pyStrip line] })))) ∧
    (∀ (flags : List PyStr) (sup : PyStr) (mf : Bool) (fm : FileMatch) (st : ParserState)
        (line : PyStr) (c : Nat) (ch : Nat),
      (pyStrip line).head? = some c → c ≠ 0x40 →
      (mf || ((fm.matchesFlag || fm.matchesSubstring) && !fm.matchesNoFlag)) = true →
      fm.fileName = some unicodeDataTxt →
      pyIntHex ((pySplitChar 0x3B (pyStrip line)).getD 0 []) = some ch →
      ((ch ∈ st.charBits →
        processLine flags sup mf fm st line = .error (.overlapChar (pyStrip line))) ∧
       (ch ∉ st.charBits →
        processLine flags sup mf fm st line = .ok (fm, { st with
          charBits := st.charBits.set ch
          charLines := st.charLines ++ [pyStrip line] })))) := by
  constructor
  · intro flags sup mf fm st line c f1 bs be hc hne hg hnm hf1 hbs hbe
    have hget : st.blockBits.getAny bs be = true ↔ ∃ cp ∈ st.blockBits, bs ≤ cp ∧ cp ≤ be := by
      simp [BitSet.getAny, Finset.Nonempty, Finset.mem_inter, Finset.mem_Icc, and_assoc]
    rw [processLine, hc]
    dsimp only
    rw [if_neg (by simpa using hne), if_pos hg, if_pos (by simp [hnm]), hf1]
    dsimp only
    rw [hbs]
    dsimp only
    rw [hbe]
    dsimp only
    constructor
    · intro hex
      rw [if_pos (hget.2 hex)]
    · intro hex
      rw [if_neg (by rw [hget]; exact hex)]
  · intro flags sup mf fm st line c ch hc hne hg hnm hch
    rw [processLine, hc]
    dsimp only
    rw [if_neg (by simpa using hne), if_pos hg,
      if_neg (by simp [hnm, blocksTxt, unicodeDataTxt]), if_pos (by simp [hnm]), hch]
    dsimp only
    constructor
    · intro hex
      rw [if_pos (by rw [BitSet.get]; simpa using hex)]
    · intro hex
      rw [if_neg (by rw [BitSet.get]; simpa using hex)]

/-- Witness: overlap detection evaluated on a concrete parser state with
    blocks 0..1 present and character 0x41 present. -/
theorem ucd_overlap_detection_witness :
    ((∃ cp ∈ ({0, 1} : BitSet), 1 ≤ cp ∧ cp ≤ 2) →
      processLine [] [] true ⟨false, false, false, [], [], some blocksTxt⟩
          ⟨{0, 1}, ∅, [], [], []⟩ [0x31, 0x2E, 0x2E, 0x32, 0x3B, 0x59]
        = .error (.overlapBlock [0x31, 0x2E, 0x2E, 0x32, 0x3B, 0x59])) ∧
    ((0x41 ∈ ({0x41} : BitSet)) →
      processLine [] [] true ⟨false, false, false, [], [], some unicodeDataTxt⟩
          ⟨∅, {0x41}, [], [], []⟩ [0x34, 0x31, 0x3B, 0x42]
        = .error (.overlapChar [0x34, 0x31, 0x3B, 0x42])) ∧
    (∃ cp ∈ ({0, 1} : BitSet), 1 ≤ cp ∧ cp ≤ 2) ∧ (0x41 ∈ ({0x41} : BitSet)) :=
  ⟨(ucd_overlap_detection.1 [] [] true ⟨false, false, false, [], [], some blocksTxt⟩
      ⟨{0, 1}, ∅, [], [], []⟩ [0x31, 0x2E, 0x2E, 0x32, 0x3B, 0x59] 0x31 [0x32] 1 2
      (by decide) (by decide) (by decide) (by decide) (by decide) (by decide) (by decide)).1,
    (ucd_overlap_detection.2 [] [] true ⟨false, false, false, [], [], some unicodeDataTxt⟩
      ⟨∅, {0x41}, [], [], []⟩ [0x34, 0x31, 0x3B, 0x42] 0x34 0x41
      (by decide) (by decide) (by decide) (by decide) (by decide)).1,
    ⟨1, by decide, by decide, by decide⟩, by decide⟩

end Puaa
